import Mathlib

/-! Routing and filter-pipeline dispatch of the web package.

The request router of package web (the pattern compiler, the route tree, the
controller register, the filter chain, the dispatcher and the URL reverser) is
exercised by `server/web/router_test.go`; its implementation files are not part
of the source tree at hand.  The definitions of this development that stand for
that implementation are modelled from the specification and are marked so in
their doc comments; where the tests of `router_test.go` pin the behaviour down
more closely than the specification does, the tests are followed, and the doc
comment says so.

Paths and pattern texts are Lean strings; all scanning is done on their
character lists so that every definition is executable and structurally
recursive.
-/

namespace Web

/-! ## Match expressions of captures -/

/-- Modelled from the spec: a character class of a capture's match expression
(the regular-expression library is external to the router). A class accepts a
character when the character lies in one of the closed ranges, or, for a negated
class, in none of them. -/
structure CharClass where
  negated : Bool
  ranges : List (Char × Char)
deriving DecidableEq, Repr

/-- Modelled from the spec: membership of a character in a class. -/
def CharClass.accepts (k : CharClass) (c : Char) : Bool :=
  k.negated != k.ranges.any (fun r => decide (r.1.toNat ≤ c.toNat) && decide (c.toNat ≤ r.2.toNat))

/-- Modelled from the spec: repetition marker that may follow an atom of a match
expression. -/
inductive Quant where
  | one
  | opt
  | star
  | plus
deriving DecidableEq, Repr

/-- Modelled from the spec: one atom of a match expression together with its
repetition marker. -/
structure RegexItem where
  atom : CharClass
  quant : Quant
deriving DecidableEq, Repr

/-- Modelled from the spec: the compiled match expression of a capture. The
modelled dialect is a sequence of atoms (a literal character, an escaped
character, `.`, `\d`, `\w`, `\s` or a bracket class), each optionally followed
by `+`, `*` or `?`; an expression is matched against a whole candidate text. -/
abbrev Regex := List RegexItem

/-- Modelled from the spec: zero or more characters accepted by `ok`, followed
by a text accepted by the continuation `k`. -/
def starLoop (ok : Char → Bool) (k : List Char → Bool) : List Char → Bool
  | [] => k []
  | c :: cs => k (c :: cs) || (ok c && starLoop ok k cs)

/-- Modelled from the spec: anchored match of a whole character list against a
match expression. -/
def Regex.matchChars : List RegexItem → List Char → Bool
  | [] => fun s => s.isEmpty
  | it :: rest => fun s =>
    match it.quant with
    | .one =>
      match s with
      | c :: cs => it.atom.accepts c && Regex.matchChars rest cs
      | [] => false
    | .opt =>
      Regex.matchChars rest s ||
        (match s with
         | c :: cs => it.atom.accepts c && Regex.matchChars rest cs
         | [] => false)
    | .star => starLoop it.atom.accepts (Regex.matchChars rest) s
    | .plus =>
      match s with
      | c :: cs => it.atom.accepts c && starLoop it.atom.accepts (Regex.matchChars rest) cs
      | [] => false

/-- Modelled from the spec: the class holding exactly one character. -/
def CharClass.single (c : Char) : CharClass := ⟨false, [(c, c)]⟩

/-- Modelled from the spec: the class of `.`: every character but the line feed.
-/
def CharClass.dot : CharClass := ⟨true, [('\n', '\n')]⟩

/-- Modelled from the spec: the class `[0-9]`. -/
def CharClass.digit : CharClass := ⟨false, [('0', '9')]⟩

/-- Modelled from the spec: the class `[0-9A-Za-z_]`. -/
def CharClass.word : CharClass := ⟨false, [('0', '9'), ('A', 'Z'), ('a', 'z'), ('_', '_')]⟩

/-- Modelled from the spec: the class of white space: tab, line feed, form feed,
carriage return, blank. -/
def CharClass.space : CharClass :=
  ⟨false, [('\t', '\n'), (Char.ofNat 12, '\r'), (' ', ' ')]⟩

/-- Modelled from the spec: characters with a special meaning in a match
expression. -/
def isRegexMeta (c : Char) : Bool :=
  c ∈ ['(', ')', '|', '{', '}', '^', '$', '*', '+', '?', '[', ']', '\\', '.']

/-- Modelled from the spec: class denoted by an escape sequence `\c`, if the
dialect has it. -/
def escapeClass (c : Char) : Option CharClass :=
  if c = 'd' then some CharClass.digit
  else if c = 'w' then some CharClass.word
  else if c = 's' then some CharClass.space
  else if c.isAlphanum then none
  else some (CharClass.single c)

/-- Modelled from the spec: body of a bracket class, read up to the closing
bracket; gives the ranges in source order and the text after the bracket. -/
def parseClassBody : List Char → List (Char × Char) → Option (List (Char × Char) × List Char)
  | [], _ => none
  | ']' :: rest, acc => if acc.isEmpty then none else some (acc.reverse, rest)
  | '\\' :: c :: rest, acc =>
    match escapeClass c with
    | some k => if k.negated then none else parseClassBody rest (k.ranges.reverse ++ acc)
    | none => none
  | a :: '-' :: b :: rest, acc =>
    if b = ']' then parseClassBody (b :: rest) (('-', '-') :: (a, a) :: acc)
    else if a.toNat ≤ b.toNat then parseClassBody rest ((a, b) :: acc)
    else none
  | a :: rest, acc => parseClassBody rest ((a, a) :: acc)

/-- Modelled from the spec: one atom at the head of the text, with the text that
follows it. -/
def parseAtom : List Char → Option (CharClass × List Char)
  | [] => none
  | '.' :: rest => some (CharClass.dot, rest)
  | '\\' :: c :: rest => (escapeClass c).map (fun k => (k, rest))
  | '[' :: '^' :: rest => (parseClassBody rest []).map (fun r => (⟨true, r.1⟩, r.2))
  | '[' :: rest => (parseClassBody rest []).map (fun r => (⟨false, r.1⟩, r.2))
  | c :: rest => if isRegexMeta c then none else some (CharClass.single c, rest)

/-- Modelled from the spec: repetition marker at the head of the text, with the
text that follows it. -/
def parseQuant : List Char → Quant × List Char
  | '+' :: rest => (.plus, rest)
  | '*' :: rest => (.star, rest)
  | '?' :: rest => (.opt, rest)
  | rest => (.one, rest)

/-- Modelled from the spec: items of a match expression, read with a bound on
the number of items. -/
def parseItems : Nat → List Char → Option Regex
  | _, [] => some []
  | 0, _ :: _ => none
  | fuel + 1, c :: cs =>
    match parseAtom (c :: cs) with
    | none => none
    | some (k, rest) =>
      let q := parseQuant rest
      (parseItems fuel q.2).map (fun items => ⟨k, q.1⟩ :: items)

/-- Modelled from the spec: compilation of the text of a match expression;
`none` stands for an expression the dialect rejects. -/
def Regex.compile (src : List Char) : Option Regex :=
  parseItems src.length src

/-! ## Route patterns and the pattern compiler -/

/-- Modelled from the spec: the failures a registration call can abort with
(invalid pattern syntax or regex, duplicate capture name, invalid HTTP method
name, a handler that is not a method, a non-public handler member, a receiver
type without the controller capability). -/
inductive RegistrationError where
  | invalidRegex (expr : String)
  | duplicateCapture (pattern : String)
  | malformedSegment (segment : String)
  | invalidMethod (name : String)
  | notAMethod
  | notPublic (name : String)
  | notController (type : String)
deriving DecidableEq, Repr

/-- Modelled from the spec: the match expression attached to a named capture:
none (`:name`, one or more non-slash characters), a built-in numeric type
(`:name:int`, `:name:float`) or an explicit expression (`:name(expr)`), kept
with its source text. -/
inductive CaptureKind where
  | any
  | int
  | float
  | regex (src : String) (re : Regex)
deriving DecidableEq, Repr

/-- Modelled from the spec: the expression a capture of the given kind is
matched with. -/
def CaptureKind.expr : CaptureKind → Regex
  | .any => [⟨⟨true, [('/', '/')]⟩, .plus⟩]
  | .int => [⟨CharClass.digit, .plus⟩]
  | .float => [⟨⟨false, [('0', '9'), ('.', '.')]⟩, .plus⟩]
  | .regex _ re => re

/-- Modelled from the spec: the pattern text that follows the capture name for
the given kind. -/
def CaptureKind.suffix : CaptureKind → String
  | .any => ""
  | .int => ":int"
  | .float => ":float"
  | .regex src _ => "(" ++ src ++ ")"

/-- Modelled from the spec: whether a candidate text is accepted by a capture of
the given kind. -/
def CaptureKind.accepts (k : CaptureKind) (s : List Char) : Bool :=
  Regex.matchChars k.expr s

/-- Modelled from the spec: a fragment of one pattern segment, either literal
text or a named capture. -/
inductive Part where
  | lit (text : String)
  | cap (name : String) (kind : CaptureKind)
deriving DecidableEq, Repr

/-- Modelled from the spec: one segment of a compiled route pattern. A `pattern`
segment is a named, named-with-regex, named-typed or composite segment, given by
its fragments in order. -/
inductive Segment where
  | literal (text : String)
  | pattern (parts : List Part)
  | wildcard
deriving DecidableEq, Repr

/-- Modelled from the spec: a compiled route pattern, the split and parsed form
of its pattern text. -/
structure RoutePattern where
  text : String
  segments : List Segment
deriving DecidableEq, Repr

/-- Modelled from the spec: key under which a capture called `name` is bound
(`:name`). -/
def paramKey (name : String) : String := ":" ++ name

/-- Modelled from the spec: key under which a wildcard binds the remainder of
the path. -/
def splatKey : String := ":splat"

/-- Modelled from the spec: keys of the named captures of a fragment list, in
pattern order. -/
def partKeys : List Part → List String
  | [] => []
  | .lit _ :: ps => partKeys ps
  | .cap n _ :: ps => paramKey n :: partKeys ps

/-- Modelled from the spec: keys of the named captures a segment declares. -/
def Segment.keys : Segment → List String
  | .literal _ => []
  | .pattern ps => partKeys ps
  | .wildcard => []

/-- Modelled from the spec: keys of the named captures of a segment list, in
pattern order. -/
def segmentKeys : List Segment → List String
  | [] => []
  | s :: ss => s.keys ++ segmentKeys ss

/-- Modelled from the spec: the declared named-parameter keys of a pattern, in
pattern order. -/
def RoutePattern.keys (p : RoutePattern) : List String := segmentKeys p.segments

/-- Modelled from the spec: whether a segment is a single capture without match
expression. -/
def Segment.isNamed : Segment → Bool
  | .pattern [.cap _ .any] => true
  | _ => false

/-- Modelled from the spec: the specificity rank of a segment, literal above
named above regex above wildcard. -/
def Segment.rank (s : Segment) : Nat :=
  match s with
  | .literal _ => 3
  | .pattern _ => if s.isNamed then 2 else 1
  | .wildcard => 0

/-- Modelled from the spec: pieces of a character list between the occurrences
of `/`. -/
def splitSlash : List Char → List (List Char)
  | [] => [[]]
  | c :: cs =>
    match splitSlash cs with
    | [] => [[]]
    | s :: ss => if c = '/' then [] :: s :: ss else (c :: s) :: ss

/-- Modelled from the spec: a path or pattern text is split on `/`; the empty
piece in front of a leading `/` is not a segment, every other piece is, so the
number of segments is kept as written (no trailing-slash normalisation). -/
def splitPath (path : String) : List String :=
  match splitSlash path.data with
  | [] :: rest => rest.map String.mk
  | segs => segs.map String.mk

/-- Modelled from the spec: the path text made of the given segments, each
preceded by `/`. -/
def joinPath : List String → String
  | [] => ""
  | s :: ss => "/" ++ s ++ joinPath ss

/-- Modelled from the spec: the segments joined by `/`, with no leading `/`. -/
def joinSlash : List String → String
  | [] => ""
  | [s] => s
  | s :: t :: ss => s ++ "/" ++ joinSlash (t :: ss)

/-- Modelled from the spec: characters allowed in a capture name. -/
def isNameChar (c : Char) : Bool := c.isAlphanum || c = '_'

/-- Modelled from the spec: whether the second list starts with the first. -/
def startsWith : List Char → List Char → Bool
  | [], _ => true
  | _ :: _, [] => false
  | a :: as, b :: bs => a = b && startsWith as bs

/-- Modelled from the spec: the text of a parenthesised match expression, up to
its closing parenthesis, and the text after it. -/
def splitGroup : Nat → List Char → List Char → Option (List Char × List Char)
  | _, [], _ => none
  | d, '\\' :: c :: rest, acc => splitGroup d rest (c :: '\\' :: acc)
  | d, '(' :: rest, acc => splitGroup (d + 1) rest ('(' :: acc)
  | 0, ')' :: rest, acc => some (acc.reverse, rest)
  | d + 1, ')' :: rest, acc => splitGroup d rest (')' :: acc)
  | d, c :: rest, acc => splitGroup d rest (c :: acc)

/-- Modelled from the spec: the kind announced by the text after a capture name
that is not followed by a parenthesis, and the text after the type suffix. -/
def typedSuffix (after : List Char) : CaptureKind × List Char :=
  let afterInt := after.drop 4
  let afterFloat := after.drop 6
  if startsWith ":int".data after && !(afterInt.head?.any isNameChar) then (.int, afterInt)
  else if startsWith ":float".data after && !(afterFloat.head?.any isNameChar) then
    (.float, afterFloat)
  else (.any, after)

/-- Modelled from the spec: the fragments of one pattern segment, read left to
right with a bound on the number of fragments. -/
def parseParts : Nat → List Char → Except RegistrationError (List Part)
  | _, [] => .ok []
  | 0, c :: cs => .error (.malformedSegment (String.mk (c :: cs)))
  | fuel + 1, c :: rest =>
    if c = ':' then
      let name := rest.takeWhile isNameChar
      let after := rest.dropWhile isNameChar
      if name.isEmpty then .error (.malformedSegment (String.mk (c :: rest)))
      else
        match after with
        | '(' :: r =>
          match splitGroup 0 r [] with
          | none => .error (.malformedSegment (String.mk (c :: rest)))
          | some (expr, r2) =>
            match Regex.compile expr with
            | none => .error (.invalidRegex (String.mk expr))
            | some re =>
              (parseParts fuel r2).map
                (fun ps => Part.cap (String.mk name) (.regex (String.mk expr) re) :: ps)
        | _ =>
          (parseParts fuel (typedSuffix after).2).map
            (fun ps => Part.cap (String.mk name) (typedSuffix after).1 :: ps)
    else if c = '*' then .error (.malformedSegment (String.mk (c :: rest)))
    else
      (parseParts fuel ((c :: rest).dropWhile (fun x => x != ':' && x != '*'))).map
        (fun ps => Part.lit (String.mk ((c :: rest).takeWhile (fun x => x != ':' && x != '*'))) :: ps)

/-- Modelled from the spec: compilation of one segment text. A segment that is
exactly `*` is the wildcard, a segment without capture is literal. -/
def compileSegment (s : List Char) : Except RegistrationError Segment :=
  if s = ['*'] then .ok .wildcard
  else
    match parseParts (s.length + 1) s with
    | .error e => .error e
    | .ok [] => .ok (.literal "")
    | .ok [.lit t] => .ok (.literal t)
    | .ok ps => .ok (.pattern ps)

/-- Modelled from the spec: compilation of the segment texts of a pattern, left
to right. -/
def compileSegments : List (List Char) → Except RegistrationError (List Segment)
  | [] => .ok []
  | s :: ss =>
    match compileSegment s with
    | .error e => .error e
    | .ok seg =>
      match compileSegments ss with
      | .error e => .error e
      | .ok segs => .ok (seg :: segs)

/-- Modelled from the spec: whether the wildcard occurs only as the final
segment. -/
def wildcardLast : List Segment → Bool
  | [] => true
  | [_] => true
  | s :: t :: ss => s != .wildcard && wildcardLast (t :: ss)

/-- Modelled from the spec: the pattern compiler. A pattern text is split on
`/`, every segment is compiled, and the registration fails on an invalid match
expression, a malformed segment, a wildcard that is not final or a capture name
declared twice. -/
def PatternCompiler.compile (text : String) : Except RegistrationError RoutePattern :=
  match compileSegments ((splitPath text).map String.data) with
  | .error e => .error e
  | .ok segs =>
    if !wildcardLast segs then .error (.malformedSegment text)
    else if !(segmentKeys segs).Nodup then .error (.duplicateCapture text)
    else .ok ⟨text, segs⟩

/-! ## Path parameters and the matcher of one pattern -/

/-- Modelled from the spec: the path parameters of a request, name to value. -/
abbrev Params := List (String × String)

/-- Modelled from the spec: value bound to a key, if any. -/
def getParam : Params → String → Option String
  | [], _ => none
  | (k, v) :: rest, key => if k = key then some v else getParam rest key

/-- Modelled from the spec: binding of a key, replacing the value the key had.
-/
def setParam : Params → String → String → Params
  | [], key, val => [(key, val)]
  | (k, v) :: rest, key, val =>
    if k = key then (k, val) :: rest else (k, v) :: setParam rest key val

/-- Modelled from the spec: binding of every pair of `bs`, in order, on top of
`ps`. -/
def bindParams (ps : Params) : Params → Params
  | [] => ps
  | (k, v) :: bs => bindParams (setParam ps k v) bs

/-- Modelled from the spec: search for the split of a text into a taken front
and a rest that the continuation accepts, longest front first; `pre` is the
front taken so far. -/
def longestSplit (k : List Char → List Char → Option Params) :
    List Char → List Char → Option Params
  | pre, [] => k pre []
  | pre, c :: cs =>
    match longestSplit k (pre ++ [c]) cs with
    | some r => some r
    | none => k pre (c :: cs)

/-- Modelled from the spec: match of one segment text against the fragments of a
pattern segment. Literal fragments must occur as written; the text is divided
among the captures leftmost-longest, each capture text being accepted by the
capture's match expression; the bindings come in pattern order. -/
def matchParts : List Part → List Char → Option Params
  | [] => fun s => if s.isEmpty then some [] else none
  | .lit t :: ps => fun s =>
    if startsWith t.data s then matchParts ps (s.drop t.data.length) else none
  | .cap n kind :: ps => fun s =>
    longestSplit
      (fun a b =>
        if kind.accepts a then
          (matchParts ps b).map (fun bs => (paramKey n, String.mk a) :: bs)
        else none)
      [] s

/-- Modelled from the spec: match of one path segment against one non-wildcard
pattern segment. -/
def Segment.matchSeg : Segment → String → Option Params
  | .literal t, s => if s = t then some [] else none
  | .pattern ps, s => matchParts ps s.data
  | .wildcard, _ => none

/-- Modelled from the spec: the compiled matcher of one pattern, applied to the
segments of a path. Segment counts must agree, except that a wildcard takes the
whole remainder of the path (one or more segments) under `:splat`. -/
def matchSegments : List Segment → List String → Option Params
  | [], [] => some []
  | [], _ :: _ => none
  | _ :: _, [] => none
  | .wildcard :: _, seg :: rest => some [(splatKey, joinSlash (seg :: rest))]
  | s :: ss, seg :: rest =>
    match s.matchSeg seg with
    | none => none
    | some bs => (matchSegments ss rest).map (fun more => bs ++ more)

/-- Modelled from the spec: match of a path text against a compiled pattern. -/
def RoutePattern.matchPath (p : RoutePattern) (path : String) : Option Params :=
  matchSegments p.segments (splitPath path)

/-! ## Route entries and the route tree -/

/-- Modelled from the spec: the handler descriptor of a route entry, a free
function or a method of a controller type; it is the identifier reverse lookup
goes by. -/
inductive HandlerId where
  | func (name : String)
  | method (type : String) (name : String)
deriving DecidableEq, Repr

/-- Modelled from the spec: the HTTP methods a route entry accepts. -/
inductive Methods where
  | any
  | only (names : List String)
deriving DecidableEq, Repr

/-- Modelled from the spec: whether a request method is accepted. -/
def Methods.accepts : Methods → String → Bool
  | .any, _ => true
  | .only names, m => decide (m ∈ names)

/-- Modelled from the spec: a registered route entry: pattern, accepted methods,
handler descriptor and the optional per-entry session override. -/
structure RouteEntry where
  pattern : RoutePattern
  methods : Methods
  handler : HandlerId
  sessionOn : Option Bool
deriving DecidableEq, Repr

/-- Modelled from the spec: a node of the route tree: the literal children by
segment text, the pattern children in registration order, the optional wildcard
child and the entries that terminate at the node. -/
inductive RouteNode where
  | mk (literals : List (String × RouteNode)) (patterns : List (List Part × RouteNode))
      (wildcard : Option RouteNode) (entries : List RouteEntry) : RouteNode

/-- Modelled from the spec: the literal children of a node. -/
def RouteNode.literals : RouteNode → List (String × RouteNode)
  | .mk l _ _ _ => l

/-- Modelled from the spec: the pattern children of a node, in registration
order. -/
def RouteNode.patterns : RouteNode → List (List Part × RouteNode)
  | .mk _ p _ _ => p

/-- Modelled from the spec: the wildcard child of a node. -/
def RouteNode.wildcard : RouteNode → Option RouteNode
  | .mk _ _ w _ => w

/-- Modelled from the spec: the entries terminating at a node, in registration
order. -/
def RouteNode.entries : RouteNode → List RouteEntry
  | .mk _ _ _ es => es

/-- Modelled from the spec: the node without children and entries. -/
def RouteNode.empty : RouteNode := .mk [] [] none []

/-- Modelled from the spec: the child stored under a key. -/
def findChild {κ : Type} [DecidableEq κ] (key : κ) : List (κ × RouteNode) → Option RouteNode
  | [] => none
  | (k, c) :: rest => if k = key then some c else findChild key rest

/-- Modelled from the spec: update of the child stored under a key; a key not
present yet gets a new child behind all existing ones. -/
def upsertChild {κ : Type} [DecidableEq κ] (key : κ) (f : RouteNode → RouteNode) :
    List (κ × RouteNode) → List (κ × RouteNode)
  | [] => [(key, f RouteNode.empty)]
  | (k, c) :: rest =>
    if k = key then (k, f c) :: rest else (k, c) :: upsertChild key f rest

/-- Modelled from the spec: the node with one more terminating entry. -/
def RouteNode.addEntry (e : RouteEntry) : RouteNode → RouteNode
  | .mk l p w es => .mk l p w (es ++ [e])

/-- Modelled from the spec: insertion of an entry under the segments of its
pattern. A node is keyed by its segment matcher, so the routes that use an equal
segment at a level share the child; a segment not present yet gets a new child
behind the existing ones, so the pattern children stay in registration order. -/
def RouteNode.insert : List Segment → RouteEntry → RouteNode → RouteNode
  | [], e, n => n.addEntry e
  | .literal t :: rest, e, .mk l p w es =>
    .mk (upsertChild t (fun c => RouteNode.insert rest e c) l) p w es
  | .pattern ps :: rest, e, .mk l p w es =>
    .mk l (upsertChild ps (fun c => RouteNode.insert rest e c) p) w es
  | .wildcard :: _, e, .mk l p w es =>
    .mk l p (some ((w.getD RouteNode.empty).addEntry e)) es

/-- Modelled from the spec: the result of resolving a method and a path: a
registered entry with the extracted parameters, not found, or method not
allowed. -/
inductive Resolution where
  | found (entry : RouteEntry) (params : Params)
  | notFound
  | methodNotAllowed
deriving DecidableEq, Repr

/-- Modelled from the spec: combination of two searches tried one after the
other: the first found entry wins, and a path match with the wrong method stays
recorded. -/
def Resolution.orElse : Resolution → Resolution → Resolution
  | .found e ps, _ => .found e ps
  | .notFound, r => r
  | .methodNotAllowed, .found e ps => .found e ps
  | .methodNotAllowed, _ => .methodNotAllowed

/-- Modelled from the spec: the entries terminating where the path ends: the
first that accepts the method is found; entries that only match the path are
recorded. -/
def scanEntries (method : String) (params : Params) : List RouteEntry → Resolution
  | [] => .notFound
  | e :: es =>
    if e.methods.accepts method then .found e params
    else (Resolution.methodNotAllowed).orElse (scanEntries method params es)

/-- Modelled from the spec: the pattern children tried in list order, `visit`
being the search below a child once the child's fragments have matched the
segment. -/
def tryPatterns (seg : String) (visit : RouteNode → Params → Resolution) :
    List (List Part × RouteNode) → Resolution
  | [] => .notFound
  | (ps, c) :: rest =>
    match matchParts ps seg.data with
    | some bs => (visit c bs).orElse (tryPatterns seg visit rest)
    | none => tryPatterns seg visit rest

/-- Modelled from the spec: the matcher of the route tree. At each level the
literal child is tried first, then the pattern children in registration order,
then the wildcard child, which takes all remaining segments; the first full
match of the remaining path by an entry accepting the method wins. `acc` holds
the parameters bound on the way down. -/
def RouteNode.matchNode (method : String) : List String → RouteNode → Params → Resolution
  | [], n, acc => scanEntries method acc n.entries
  | seg :: rest, n, acc =>
    ((match findChild seg n.literals with
      | some c => RouteNode.matchNode method rest c acc
      | none => Resolution.notFound).orElse
      (tryPatterns seg (fun c bs => RouteNode.matchNode method rest c (acc ++ bs)) n.patterns)).orElse
      (match n.wildcard with
       | some w => scanEntries method (acc ++ [(splatKey, joinSlash (seg :: rest))]) w.entries
       | none => Resolution.notFound)

/-- Modelled from the spec: resolution of a method and a path by the route tree.
-/
def RouteNode.resolve (t : RouteNode) (method : String) (path : String) : Resolution :=
  t.matchNode method (splitPath path) []

/-! ## Request context, filters and the controller register -/

/-- Modelled from the spec: the part of the request context the dispatch core
works on: the resolved path parameters, the output-written flag, and the
response written so far (status, body, headers); `sessionOn` is the session
switch in force for the request. -/
structure Context where
  params : Params
  started : Bool
  status : Nat
  body : String
  headers : List (String × String)
  sessionOn : Bool
deriving DecidableEq, Repr

/-- Modelled from the spec: write of a text to the response body; the response
counts as written. -/
def Context.WriteString (c : Context) (s : String) : Context :=
  { c with body := c.body ++ s, started := true }

/-- Modelled from the spec: write of a status line with a body; the response
counts as written. -/
def Context.writeStatus (c : Context) (code : Nat) (text : String) : Context :=
  { c with status := code, body := c.body ++ text, started := true }

/-- Modelled from the spec: set of a response header. -/
def Context.setHeader (c : Context) (key val : String) : Context :=
  { c with headers := setParam c.headers key val }

/-- Modelled from the spec: value of a path parameter, empty when unbound. -/
def Context.Param (c : Context) (key : String) : String :=
  (getParam c.params key).getD ""

/-- Modelled from the spec: the four execution points of the filter chain, in
their fixed order. -/
inductive ExecPoint where
  | BeforeRouter
  | BeforeExec
  | AfterExec
  | FinishRouter
deriving DecidableEq, Repr

/-- Modelled from the spec: the scope of a filter, all requests or the requests
whose path matches a pattern. -/
inductive Scope where
  | all
  | pattern (p : RoutePattern)
deriving DecidableEq, Repr

/-- Modelled from the spec: match of the path segments against a scope, with the
same matcher as routing; a match gives the parameters the scope pattern
captures. -/
def Scope.matchPath : Scope → List String → Option Params
  | .all, _ => some []
  | .pattern p, segs => matchSegments p.segments segs

/-- Modelled from the spec: a registered filter: execution point, scope, filter
function and the flags `returnOnOutput` and `resetParams`. -/
structure FilterEntry where
  point : ExecPoint
  scope : Scope
  filterFunc : Context → Context
  returnOnOutput : Bool
  resetParams : Bool

/-- Modelled from the spec: the options of a filter registration;
`router_test.go` (TestInsertFilter) fixes the values used when no option is
passed: `returnOnOutput` set, `resetParams` clear. -/
structure FilterOptions where
  returnOnOutput : Bool := true
  resetParams : Bool := false
deriving DecidableEq, Repr

/-- Modelled from the spec: the controller register: the route tree, the
registered entries in registration order, and the registered filters in
registration order. -/
structure ControllerRegister where
  tree : RouteNode
  entries : List RouteEntry
  filters : List FilterEntry

/-- Modelled from the spec: the register without routes and filters. -/
def NewControllerRegister : ControllerRegister := ⟨RouteNode.empty, [], []⟩

/-- Modelled from the spec: the filter chain of one execution point, the filters
registered for it in registration order. -/
def ControllerRegister.chain (reg : ControllerRegister) (point : ExecPoint) : List FilterEntry :=
  reg.filters.filter (fun f => decide (f.point = point))

/-- Modelled from the spec: the HTTP method names a route can be registered for.
-/
def HTTPMETHOD : List String :=
  ["GET", "POST", "PUT", "DELETE", "PATCH", "OPTIONS", "HEAD", "TRACE", "CONNECT",
   "MKCOL", "COPY", "MOVE", "PROPFIND", "PROPPATCH", "LOCK", "UNLOCK"]

/-- Modelled from the spec: the upper-case form of a method name. -/
def upperName (s : String) : String := String.mk (s.data.map Char.toUpper)

/-- Modelled from the spec: validation of the method names of a registration:
`*` or no name at all accepts any method, every other name must be a supported
HTTP method. -/
def compileMethods (names : List String) : Except RegistrationError Methods :=
  if names.isEmpty || decide ("*" ∈ names) then .ok .any
  else
    match names.find? (fun n => !decide (upperName n ∈ HTTPMETHOD)) with
    | some bad => .error (.invalidMethod (upperName bad))
    | none => .ok (.only (names.map upperName))

/-- Modelled from the spec: registration `add(pattern, handler, methods,
options)`: the pattern is compiled, the method names are validated, and the new
entry is put into the route tree and behind the entries registered so far; a
failure aborts the call and registers nothing. -/
def ControllerRegister.Add (reg : ControllerRegister) (pattern : String) (handler : HandlerId)
    (methods : List String) (sessionOn : Option Bool) : Except RegistrationError ControllerRegister :=
  match PatternCompiler.compile pattern with
  | .error e => .error e
  | .ok p =>
    match compileMethods methods with
    | .error e => .error e
    | .ok ms =>
      let e : RouteEntry := ⟨p, ms, handler, sessionOn⟩
      .ok { reg with tree := reg.tree.insert p.segments e, entries := reg.entries ++ [e] }

/-- Modelled from the spec: registration `insertFilter(scope, point, filterFunc,
options)` with a pattern scope; the scope text goes through the pattern
compiler, the filter is put behind the filters registered so far. -/
def ControllerRegister.InsertFilter (reg : ControllerRegister) (scope : String) (point : ExecPoint)
    (f : Context → Context) (opts : FilterOptions) : Except RegistrationError ControllerRegister :=
  match PatternCompiler.compile scope with
  | .error e => .error e
  | .ok p =>
    .ok { reg with
          filters := reg.filters ++ [⟨point, .pattern p, f, opts.returnOnOutput, opts.resetParams⟩] }

/-- Modelled from the spec: registration of a filter whose scope is all
requests. -/
def ControllerRegister.insertFilterAll (reg : ControllerRegister) (point : ExecPoint)
    (f : Context → Context)
    (opts : FilterOptions) : ControllerRegister :=
  { reg with filters := reg.filters ++ [⟨point, .all, f, opts.returnOnOutput, opts.resetParams⟩] }

/-- Modelled from the spec: resolution of a method and a path by the register.
-/
def ControllerRegister.resolve (reg : ControllerRegister) (method path : String) : Resolution :=
  reg.tree.resolve method path

/-! ## The URL reverser -/

/-- Modelled from the spec: the text of a fragment list with every capture
replaced by `val`. -/
def renderParts (val : String → CaptureKind → String) : List Part → String
  | [] => ""
  | .lit t :: ps => t ++ renderParts val ps
  | .cap n k :: ps => val n k ++ renderParts val ps

/-- Modelled from the spec: the text of a segment with every capture replaced by
`val`. -/
def Segment.render (val : String → CaptureKind → String) : Segment → String
  | .literal t => t
  | .pattern ps => renderParts val ps
  | .wildcard => "*"

/-- Modelled from the spec: the text of a pattern with every capture replaced by
`val`; the segments are put together the way the pattern text was split. -/
def RoutePattern.render (p : RoutePattern) (val : String → CaptureKind → String) : String :=
  if startsWith ['/'] p.text.data then joinPath (p.segments.map (Segment.render val))
  else joinSlash (p.segments.map (Segment.render val))

/-- Modelled from the spec: the source text of a capture: the colon, the name
and the attached match expression or type suffix. -/
def captureSource (name : String) (kind : CaptureKind) : String :=
  paramKey name ++ kind.suffix

/-- Modelled from the spec: the value supplied for a capture, empty when the key
is not supplied. -/
def suppliedValue (kvs : Params) (name : String) (_kind : CaptureKind) : String :=
  (getParam kvs (paramKey name)).getD ""

/-- Modelled from the spec: whether every declared parameter of the entry is
among the supplied keys. -/
def RouteEntry.satisfiedBy (e : RouteEntry) (kvs : Params) : Bool :=
  e.pattern.keys.all (fun k => (getParam kvs k).isSome)

/-- Modelled from the spec: reverse lookup `urlFor(handlerIdentifier, param1,
value1, ...)`: the first-registered entry of the handler whose declared
parameters are all supplied gives its pattern text with the values put in place
of the captures; without such an entry the result is the empty string. -/
def ControllerRegister.URLFor (reg : ControllerRegister) (id : HandlerId) (kvs : Params) : String :=
  match reg.entries.find? (fun e => decide (e.handler = id) && e.satisfiedBy kvs) with
  | some e => e.pattern.render (suppliedValue kvs)
  | none => ""

/-! ## The dispatcher -/

/-- Modelled from the spec: the settings the dispatcher reads: whether request
bodies are copied, the maximum body size in bytes, the global session switch,
and the configured error pages by status code. -/
structure Config where
  CopyRequestBody : Bool
  MaxMemory : Nat
  sessionOn : Bool
  errorBody : Nat → String

/-- Modelled from the spec: the request abstraction consumed by the dispatcher:
method, path and body. -/
structure Request where
  method : String
  path : String
  body : String
deriving DecidableEq, Repr

/-- Modelled from the spec: the size of the request body in bytes. -/
def Request.bodySize (r : Request) : Nat := r.body.utf8ByteSize

/-- Modelled from the spec: the behaviour of a handler on the request context;
an error result is a fault raised during handler execution. -/
abbrev Handler := Context → Except String Context

/-- Modelled from the spec: what the dispatcher did for a request, in order: the
rejection of an oversized body, the run of the filter with the given index in
the chain of an execution point (with the output-written flag right after the
run), the not-found and method-not-allowed responses, the invocation of a
handler and a fault caught from it. -/
inductive Event where
  | payloadTooLarge
  | filter (point : ExecPoint) (index : Nat) (written : Bool)
  | notFound
  | methodNotAllowed
  | handler (id : HandlerId)
  | fault (id : HandlerId)
deriving DecidableEq, Repr

/-- Modelled from the spec: the request context together with the record of what
has been run. -/
structure DispatchState where
  ctx : Context
  trace : List Event
deriving DecidableEq, Repr

/-- Modelled from the spec: the run of one filter on a request. The filter runs
only if its scope matches the path; the parameters captured by the scope are
bound for the filter function; with `resetParams` the parameter map taken right
before the run is put back right after it. -/
def FilterEntry.run (f : FilterEntry) (segs : List String) (c : Context) : Option Context :=
  match f.scope.matchPath segs with
  | none => none
  | some bs =>
    let out := f.filterFunc { c with params := bindParams c.params bs }
    some (if f.resetParams then { out with params := c.params } else out)

/-- Modelled from the spec: the filters of one execution point, run in
registration order from index `i` on; the Boolean result tells whether the point
short-circuited. A filter with `returnOnOutput` stops the point when the
response has been written, after its run as the spec words it and also before
its run, as TestFilterFinishRouter and TestFilterFinishRouterMultiFirstOnly of
`router_test.go` require (such a filter does not run on a written response). -/
def runFilters (point : ExecPoint) (segs : List String) :
    List FilterEntry → Nat → DispatchState → DispatchState × Bool
  | [], _, st => (st, false)
  | f :: fs, i, st =>
    if f.returnOnOutput && st.ctx.started then (st, true)
    else
      match f.run segs st.ctx with
      | none => runFilters point segs fs (i + 1) st
      | some c =>
        if f.returnOnOutput && c.started then
          (⟨c, st.trace ++ [Event.filter point i c.started]⟩, true)
        else runFilters point segs fs (i + 1) ⟨c, st.trace ++ [Event.filter point i c.started]⟩

/-- Modelled from the spec: the chain of an execution point run on a request
from its first filter. -/
def ControllerRegister.runPoint (reg : ControllerRegister) (point : ExecPoint) (segs : List String)
    (st : DispatchState) : DispatchState × Bool :=
  runFilters point segs (reg.chain point) 0 st

/-- Modelled from the spec: step 7 of the dispatcher: the FinishRouter point
closes the request. -/
def ControllerRegister.finish (reg : ControllerRegister) (segs : List String)
    (st : DispatchState) : DispatchState :=
  (reg.runPoint .FinishRouter segs st).1

/-- Modelled from the spec: the response for an outcome that has a configured
error page. -/
def respondError (cfg : Config) (code : Nat) (ev : Event) (st : DispatchState) : DispatchState :=
  ⟨st.ctx.writeStatus code (cfg.errorBody code), st.trace ++ [ev]⟩

/-- Modelled from the spec: step 5 of the dispatcher: invocation of the resolved
handler; a fault is caught and converted to an internal-error response. -/
def invokeHandler (cfg : Config) (impl : HandlerId → Handler) (e : RouteEntry)
    (st : DispatchState) : DispatchState :=
  match impl e.handler st.ctx with
  | .ok c => ⟨c, st.trace ++ [Event.handler e.handler]⟩
  | .error _ =>
    respondError cfg 500 (Event.fault e.handler) ⟨st.ctx, st.trace ++ [Event.handler e.handler]⟩

/-- Modelled from the spec: the request context a request starts with. -/
def Context.initial (cfg : Config) : Context := ⟨[], false, 200, "", [], cfg.sessionOn⟩

/-- Modelled from the spec: steps 4 to 7 of the dispatcher for a resolved entry:
the parameters are bound into the context (the session override holding for this
request), the BeforeExec filters run, then unless short-circuited the handler
and the AfterExec filters, then the FinishRouter filters. -/
def ControllerRegister.execute (reg : ControllerRegister) (cfg : Config) (impl : HandlerId → Handler)
    (segs : List String) (e : RouteEntry) (ps : Params) (st : DispatchState) : DispatchState :=
  let bound : DispatchState :=
    ⟨{ st.ctx with params := bindParams st.ctx.params ps,
                   sessionOn := e.sessionOn.getD cfg.sessionOn }, st.trace⟩
  let r := reg.runPoint .BeforeExec segs bound
  if r.2 then reg.finish segs r.1
  else reg.finish segs (reg.runPoint .AfterExec segs (invokeHandler cfg impl e r.1)).1

/-- Modelled from the spec: the per-request algorithm of the dispatcher. (1)
With body copying enabled a body above the maximum is answered with 413 before
any filter or handler runs. (2) The BeforeRouter filters run. (3) Unless
short-circuited the route is resolved; not found and method not allowed are
answered with their configured responses. (4)-(6) A resolved entry is executed.
(7) The FinishRouter point closes every request that got past step 1. -/
def ControllerRegister.ServeHTTP (reg : ControllerRegister) (cfg : Config) (impl : HandlerId → Handler)
    (req : Request) : DispatchState :=
  if cfg.CopyRequestBody && decide (cfg.MaxMemory < req.bodySize) then
    respondError cfg 413 Event.payloadTooLarge ⟨Context.initial cfg, []⟩
  else
    let segs := splitPath req.path
    let r := reg.runPoint .BeforeRouter segs ⟨Context.initial cfg, []⟩
    if r.2 then reg.finish segs r.1
    else
      match reg.resolve req.method req.path with
      | .notFound => reg.finish segs (respondError cfg 404 Event.notFound r.1)
      | .methodNotAllowed => reg.finish segs (respondError cfg 405 Event.methodNotAllowed r.1)
      | .found e ps => reg.execute cfg impl segs e ps r.1

/-! ## Registration of controller methods -/

/-- Modelled from the spec: the text a registration call aborts with. The texts
of the invalid method name, of the handler that is not a method, of the
non-public method and of the receiver type without the controller capability
are the ones `router_test.go` expects (TestRouterAddRouterMethodPanic...). -/
def RegistrationError.message : RegistrationError → String
  | .invalidRegex expr => "invalid regex: " ++ expr
  | .duplicateCapture pattern => "duplicate capture name: " ++ pattern
  | .malformedSegment segment => "malformed segment: " ++ segment
  | .invalidMethod name => "not support http method: " ++ name
  | .notAMethod => "not a method"
  | .notPublic name => name ++ " is not a public method"
  | .notController type => type ++ " is not implemented ControllerInterface"

/-- Modelled from the spec: a value handed to a registration call as handler:
a value that is not a function (such as `ExampleController{}`), or a method
expression (such as `ExampleController.Ping`) with the package and the name of
its receiver type, the method name, and whether the receiver type has the
capability required of a handler type, ControllerInterface. -/
inductive HandlerValue where
  | value (type : String)
  | methodExpr (pkg : String) (type : String) (name : String) (isController : Bool)
deriving DecidableEq, Repr

/-- Modelled from the spec: whether a member name is public, that is, starts
with an upper-case letter. -/
def isPublicName (name : String) : Bool := name.data.head?.any Char.isUpper

/-- Modelled from the spec: registration of a controller method for one HTTP
method and a pattern. The call is aborted, registering nothing, on an invalid
HTTP method name, on a handler that is not a method, on a non-public method and
on a receiver type that lacks the required capability; otherwise the method is
registered as by `Add`. -/
def ControllerRegister.AddRouterMethod (reg : ControllerRegister) (httpMethod pattern : String)
    (f : HandlerValue) : Except RegistrationError ControllerRegister :=
  match compileMethods [httpMethod] with
  | .error e => .error e
  | .ok _ =>
    match f with
    | .value _ => .error .notAMethod
    | .methodExpr pkg type name isController =>
      if !isPublicName name then .error (.notPublic name)
      else if !isController then .error (.notController (pkg ++ "." ++ type))
      else reg.Add pattern (.method type name) [httpMethod] none

/-! ## Convention routing -/

/-- Modelled from the spec: a handler type as convention routing sees it: the
name of the type and the names of its public methods. -/
structure ControllerType where
  name : String
  methods : List String
deriving DecidableEq, Repr

/-- Modelled from the spec: the lower-case form of a name, by which convention
routing compares path segments with names. -/
def lowerName (s : String) : String := String.mk (s.data.map Char.toLower)

/-- Modelled from the spec: a text without the given ending, if it ends so. -/
def stripSuffix (suffix s : List Char) : List Char :=
  if startsWith suffix.reverse s.reverse then (s.reverse.drop suffix.length).reverse else s

/-- Modelled from the spec: the name a handler type is routed under; the tests
of `router_test.go` reach `TestController` under `test`, so the ending
`Controller` of the type name is not part of it. -/
def ControllerType.routeName (t : ControllerType) : String :=
  String.mk (stripSuffix "Controller".data t.name.data)

/-- Modelled from the spec: a segment text split at its last dot into the text
in front of it and the extension behind it; no extension without a dot. -/
def splitExtChars : List Char → List Char × Option (List Char)
  | [] => ([], none)
  | c :: cs =>
    match splitExtChars cs with
    | (stem, some ext) => (c :: stem, some ext)
    | (stem, none) => if c = '.' then ([], some stem) else (c :: stem, none)

/-- Modelled from the spec: the dot-suffix of the final segment of the given
segments is stripped; the result is the segments without it and the extension.
-/
def splitLastExt : List String → List String × Option String
  | [] => ([], none)
  | [s] => ([String.mk (splitExtChars s.data).1], (splitExtChars s.data).2.map String.mk)
  | s :: t :: ss => (s :: (splitLastExt (t :: ss)).1, (splitLastExt (t :: ss)).2)

/-- Modelled from the spec: the segments bound in path order to the parameters
named by the positional indices, counted from `i`. -/
def positional : Nat → List String → Params
  | _, [] => []
  | i, s :: ss => (toString i, s) :: positional (i + 1) ss

/-- Modelled from the spec: the key of the extension of the final segment. -/
def extKey : String := ":ext"

/-- Modelled from the spec: the binding of the stripped extension, if any. -/
def extParams : Option String → Params
  | none => []
  | some x => [(extKey, x)]

/-- Modelled from the spec: a convention route: a handler type registered
without pattern, below the segments of a prefix (none for `AddAuto`). -/
structure AutoRoute where
  pre : List String
  ctrl : ControllerType
deriving DecidableEq, Repr

/-- Modelled from the spec: the entry convention routing derives for a public
method of the handler type; it accepts every HTTP method. -/
def AutoRoute.entry (r : AutoRoute) (method : String) : RouteEntry :=
  ⟨⟨joinPath (r.pre ++ [lowerName r.ctrl.routeName, lowerName method]),
    (r.pre ++ [lowerName r.ctrl.routeName, lowerName method]).map Segment.literal⟩,
   .any, .method r.ctrl.name method, none⟩

/-- Modelled from the spec: the segments left after the segments of a prefix,
which must occur as written. -/
def stripPrefix : List String → List String → Option (List String)
  | [], segs => some segs
  | _ :: _, [] => none
  | p :: ps, s :: ss => if p = s then stripPrefix ps ss else none

/-- Modelled from the spec: resolution of the path segments by one convention
route. Behind the prefix, the first segment is compared case-insensitively with
the name of the handler type and the second with the names of its public
methods, the dot-suffix of the final segment being stripped first; the segments
after the second are bound positionally and the extension under `:ext`. -/
def AutoRoute.resolve (r : AutoRoute) (segs : List String) : Option (RouteEntry × Params) :=
  match stripPrefix r.pre segs with
  | some (tseg :: rest) =>
    if lowerName tseg = lowerName r.ctrl.routeName then
      match splitLastExt rest with
      | (mseg :: args, ext) =>
        match r.ctrl.methods.find? (fun m => lowerName m = lowerName mseg) with
        | some m => some (r.entry m, positional 0 args ++ extParams ext)
        | none => none
      | _ => none
    else none
  | _ => none

/-- Modelled from the spec: the convention routes tried in registration order.
-/
def resolveAuto : List AutoRoute → List String → Option (RouteEntry × Params)
  | [], _ => none
  | r :: rs, segs =>
    match r.resolve segs with
    | some found => some found
    | none => resolveAuto rs segs

/-- Modelled from the spec: the register with its convention routes: the
routes registered with a pattern, and the handler types registered without one.
-/
structure ConventionRegister where
  explicit : ControllerRegister
  autos : List AutoRoute

/-- Modelled from the spec: resolution of a method and a path: the routes
registered with a pattern first, the convention routes for the paths they leave
unresolved. -/
def ConventionRegister.resolve (r : ConventionRegister) (method path : String) : Resolution :=
  (r.explicit.resolve method path).orElse
    (match resolveAuto r.autos (splitPath path) with
     | some found => .found found.1 found.2
     | none => .notFound)

/-- Modelled from the spec: the per-request algorithm of the dispatcher on a
register with convention routes; the steps are those of
`ControllerRegister.ServeHTTP`, resolution including the convention routes. -/
def ConventionRegister.ServeHTTP (r : ConventionRegister) (cfg : Config) (impl : HandlerId → Handler)
    (req : Request) : DispatchState :=
  if cfg.CopyRequestBody && decide (cfg.MaxMemory < req.bodySize) then
    respondError cfg 413 Event.payloadTooLarge ⟨Context.initial cfg, []⟩
  else
    let segs := splitPath req.path
    let s := r.explicit.runPoint .BeforeRouter segs ⟨Context.initial cfg, []⟩
    if s.2 then r.explicit.finish segs s.1
    else
      match r.resolve req.method req.path with
      | .notFound => r.explicit.finish segs (respondError cfg 404 Event.notFound s.1)
      | .methodNotAllowed =>
        r.explicit.finish segs (respondError cfg 405 Event.methodNotAllowed s.1)
      | .found e ps => r.explicit.execute cfg impl segs e ps s.1

/-! ## The default error handlers (`server/web/hooks.go`) -/

/-- The table `m` of `registerDefaultErrorHandler`: status code and name of the
default handler function, in the order of the source text. -/
def defaultErrorHandlers : List (String × String) :=
  [("401", "unauthorized"), ("402", "paymentRequired"), ("403", "forbidden"),
   ("404", "notFound"), ("405", "methodNotAllowed"), ("500", "internalServerError"),
   ("501", "notImplemented"), ("502", "badGateway"), ("503", "serviceUnavailable"),
   ("504", "gatewayTimeout"), ("417", "invalidxsrf"), ("422", "missingxsrf"),
   ("413", "payloadTooLarge")]

/-- The map `ErrorMaps` from a status code to the configured error
information, of a type `ι` that is not under `src/`. -/
abbrev ErrorMaps (ι : Type) := List (String × ι)

/-- The read `info, ok := ErrorMaps[code]`; `none` when `ok` is false. -/
def ErrorMaps.lookup {ι : Type} : ErrorMaps ι → String → Option ι
  | [], _ => none
  | (c, i) :: rest, code => if c = code then some i else ErrorMaps.lookup rest code

/-- The loop of `registerDefaultErrorHandler` over the entries of `m` in a given
order: `ErrorHandler(e, h)` is called for an entry whose code has no handler in
`ErrorMaps`. `ErrorHandler`, which is not under `src/`, is a parameter acting on
`ErrorMaps`. -/
def registerLoop {ι : Type} (ErrorHandler : ErrorMaps ι → String → String → ErrorMaps ι) :
    List (String × String) → ErrorMaps ι → ErrorMaps ι
  | [], maps => maps
  | (e, h) :: rest, maps =>
    registerLoop ErrorHandler rest
      (if (maps.lookup e).isNone then ErrorHandler maps e h else maps)

/-- Translation of `registerDefaultErrorHandler`: `ErrorMaps` after the call.
`order` is the order in which the `range` statement visits the entries of the
table, a permutation of `defaultErrorHandlers`. -/
def registerDefaultErrorHandler {ι : Type}
    (ErrorHandler : ErrorMaps ι → String → String → ErrorMaps ι) (order : List (String × String))
    (maps : ErrorMaps ι) : ErrorMaps ι :=
  registerLoop ErrorHandler order maps

/-- A sample of `ErrorHandler`: the error information is the name of the
handler, bound to the code in front of the earlier bindings. -/
def sampleErrorHandler : ErrorMaps String → String → String → ErrorMaps String :=
  fun maps code h => (code, h) :: maps

/-! ## Specification predicates -/

/-- Entry `e` is stored in the tree below node `n` under the segments `p`. -/
inductive RouteNode.Holds : RouteNode → List Segment → RouteEntry → Prop
  | here {n : RouteNode} {e : RouteEntry} : e ∈ n.entries → RouteNode.Holds n [] e
  | lit {n c : RouteNode} {t : String} {p : List Segment} {e : RouteEntry} :
      findChild t n.literals = some c → RouteNode.Holds c p e →
      RouteNode.Holds n (.literal t :: p) e
  | pat {n c : RouteNode} {ps : List Part} {p : List Segment} {e : RouteEntry} :
      (ps, c) ∈ n.patterns → RouteNode.Holds c p e → RouteNode.Holds n (.pattern ps :: p) e
  | wild {n w : RouteNode} {e : RouteEntry} :
      n.wildcard = some w → e ∈ w.entries → RouteNode.Holds n [.wildcard] e

/-- The registers that registration calls can build from the empty register. -/
inductive ControllerRegister.Built : ControllerRegister → Prop
  | empty : ControllerRegister.Built NewControllerRegister
  | Add {r r2 : ControllerRegister} {pattern : String} {handler : HandlerId} {methods : List String}
      {sessionOn : Option Bool} :
      ControllerRegister.Built r → r.Add pattern handler methods sessionOn = .ok r2 →
      ControllerRegister.Built r2
  | InsertFilter {r r2 : ControllerRegister} {scope : String} {point : ExecPoint}
      {f : Context → Context}
      {opts : FilterOptions} :
      ControllerRegister.Built r → r.InsertFilter scope point f opts = .ok r2 →
      ControllerRegister.Built r2
  | insertFilterAll {r : ControllerRegister} {point : ExecPoint} {f : Context → Context}
      {opts : FilterOptions} :
      ControllerRegister.Built r → ControllerRegister.Built (r.insertFilterAll point f opts)

/-- Whether a resolution found an entry. -/
def Resolution.isFound : Resolution → Bool
  | .found _ _ => true
  | _ => false

/-- Whether an event is the run of a filter of the given point. -/
def Event.isFilterOf (p : ExecPoint) : Event → Bool
  | .filter q _ _ => decide (q = p)
  | _ => false

/-- Whether an event is the invocation of a handler. -/
def Event.isHandler : Event → Bool
  | .handler _ => true
  | _ => false

/-! ## Registers of `router_test.go` -/

/-- The register a successful registration gives; the empty register stands in
for a failed one. -/
def registered (r : Except RegistrationError ControllerRegister) : ControllerRegister :=
  match r with
  | .ok reg => reg
  | .error _ => NewControllerRegister

/-- The controller method `TestController.GetParams`. -/
def getParamsId : HandlerId := .method "TestController" "GetParams"

/-- The register of TestRouteOk. -/
def routeOkRegister : ControllerRegister :=
  registered (NewControllerRegister.Add "/person/:last/:first" getParamsId ["get"] none)

/-- The entry of TestRouteOk. -/
def routeOkEntry : RouteEntry :=
  ⟨⟨"/person/:last/:first",
    [.literal "person", .pattern [.cap "last" .any], .pattern [.cap "first" .any]]⟩,
   .only ["GET"], getParamsId, none⟩

/-- Registration of a route without session override. -/
def ControllerRegister.addRoute (reg : ControllerRegister) (pattern : String) (handler : HandlerId)
    (methods : List String) : ControllerRegister :=
  registered (reg.Add pattern handler methods none)

/-- The register of TestUrlFor. -/
def urlForRegister : ControllerRegister :=
  (NewControllerRegister.addRoute "/api/list" (.method "TestController" "List") ["*"]).addRoute
    "/person/:last/:first" (.method "TestController" "Param") ["*"]

/-- The register of TestUrlFor2. -/
def urlFor2Register : ControllerRegister :=
  (((NewControllerRegister.addRoute "/v1/:v/cms_:id(.+)_:page(.+).html"
        (.method "TestController" "List") ["*"]).addRoute
      "/v1/:username/edit" (.method "TestController" "GetURL") ["get"]).addRoute
    "/v1/:v(.+)_cms/ttt_:id(.+)_:page(.+).html" (.method "TestController" "Param") ["*"]).addRoute
    "/:year:int/:month:int/:title/:entid" (.method "TestController" "Get") []

/-- The register of TestPrefixUrlFor. -/
def prefixRegister : ControllerRegister :=
  NewControllerRegister.addRoute "/my/prefix/list" (.method "PrefixTestController" "PrefixList") ["get"]

/-- Registration of a pattern-scoped filter. -/
def ControllerRegister.addFilter (reg : ControllerRegister) (scope : String) (point : ExecPoint)
    (f : Context → Context)
    (opts : FilterOptions) : ControllerRegister :=
  registered (reg.InsertFilter scope point f opts)

/-- The error pages of the test configuration. -/
def testErrorBody (code : Nat) : String :=
  if code = 404 then "Page Not Found"
  else if code = 405 then "Method Not Allowed"
  else if code = 413 then "Payload Too Large"
  else "Internal Server Error"

/-- The configuration the tests run with: no body copying, no sessions. -/
def testConfig : Config := ⟨false, 67108864, false, testErrorBody⟩

/-- The handler `beegoFilterFunc`. -/
def filterFuncId : HandlerId := .func "beegoFilterFunc"

/-- The handler behaviour of the filter tests: `beegoFilterFunc` writes
`hello`. -/
def helloImpl : HandlerId → Handler :=
  fun _ c => .ok (c.WriteString "hello")

/-- The filter `beegoFilterNoOutput`. -/
def beegoFilterNoOutput : Context → Context := fun c => c

/-- The register of TestFilterBeforeRouter. -/
def beforeRouterRegister : ControllerRegister :=
  (NewControllerRegister.addFilter "/beforeRouter" .BeforeRouter
      (fun c => c.WriteString "|BeforeRouter1") {}).addRoute
    "/beforeRouter" filterFuncId ["GET"]

/-- The register of TestFilterFinishRouter. -/
def finishRouterRegister : ControllerRegister :=
  ((((NewControllerRegister.addFilter "/finishRouter" .BeforeRouter beegoFilterNoOutput {}).addFilter
          "/finishRouter" .BeforeExec beegoFilterNoOutput {}).addFilter
        "/finishRouter" .AfterExec beegoFilterNoOutput {}).addFilter
      "/finishRouter" .FinishRouter (fun c => c.WriteString "|FinishRouter1") {}).addRoute
    "/finishRouter" filterFuncId ["GET"]

/-- The register of TestFilterFinishRouterMulti. -/
def finishRouterMultiRegister : ControllerRegister :=
  ((NewControllerRegister.addFilter "/finishRouterMulti" .FinishRouter
        (fun c => c.WriteString "|FinishRouter1") ⟨false, false⟩).addFilter
      "/finishRouterMulti" .FinishRouter
        (fun c => c.WriteString "|FinishRouter2") ⟨false, false⟩).addRoute
    "/finishRouterMulti" filterFuncId ["GET"]

/-- The filter and the handler of TestParamResetFilter: both put the value of
`:splat` into the response header `Splat`. -/
def beegoResetParams : Context → Context := fun c => c.setHeader "Splat" (c.Param splatKey)

/-- The handler behaviour of TestParamResetFilter. -/
def resetImpl : HandlerId → Handler :=
  fun _ c => .ok (beegoResetParams c)

/-- The register of TestParamResetFilter, for either value of `resetParams`. -/
def paramResetRegister (reset : Bool) : ControllerRegister :=
  (NewControllerRegister.addFilter "*" .BeforeExec beegoResetParams ⟨true, reset⟩).addRoute
    "/beego/*" (.func "beegoHandleResetParams") ["GET"]

/-- The configuration of TestRouterEntityTooLargeCopyBody: body copying with a
maximum of 20 bytes. -/
def copyBodyConfig : Config := ⟨true, 20, false, testErrorBody⟩

/-- The register of TestRouterEntityTooLargeCopyBody. -/
def entityRegister : ControllerRegister :=
  NewControllerRegister.addRoute "/user/:id" (.func "userId") ["POST"]

/-- The handler behaviour of TestRouterEntityTooLargeCopyBody: the body is
the value of `:id`. -/
def userIdImpl : HandlerId → Handler :=
  fun _ c => .ok (c.WriteString (c.Param ":id"))

/-- The match expression `[0-9]+` of TestManyRoute with its source text. -/
def digitsKind : CaptureKind := .regex "[0-9]+" [⟨CharClass.digit, .plus⟩]

/-- The compiled pattern of TestManyRoute. -/
def manyRoutePattern : RoutePattern :=
  ⟨"/beego:id([0-9]+)-:page([0-9]+).html",
   [.pattern [.lit "beego", .cap "id" digitsKind, .lit "-", .cap "page" digitsKind,
      .lit ".html"]]⟩

/-- The controller method `TestController.GetManyRouter`. -/
def manyRouterId : HandlerId := .method "TestController" "GetManyRouter"

/-- The register of TestManyRoute. -/
def manyRouteRegister : ControllerRegister :=
  NewControllerRegister.addRoute "/beego:id([0-9]+)-:page([0-9]+).html" manyRouterId ["get"]

/-- The entry of TestManyRoute. -/
def manyRouteEntry : RouteEntry := ⟨manyRoutePattern, .only ["GET"], manyRouterId, none⟩

/-- The first of two sibling routes of equal specificity. -/
def siblingFirst : RouteEntry :=
  ⟨⟨"/blog/:id/edit", [.literal "blog", .pattern [.cap "id" .any], .literal "edit"]⟩,
   .only ["GET"], .func "editById", none⟩

/-- The second of two sibling routes of equal specificity. -/
def siblingSecond : RouteEntry :=
  ⟨⟨"/blog/:name/edit", [.literal "blog", .pattern [.cap "name" .any], .literal "edit"]⟩,
   .only ["GET"], .func "editByName", none⟩

/-- The register with the two sibling routes, `/blog/:id/edit` registered
first. -/
def siblingRegister : ControllerRegister :=
  (NewControllerRegister.addRoute "/blog/:id/edit" (.func "editById") ["GET"]).addRoute
    "/blog/:name/edit" (.func "editByName") ["GET"]

/-- A register in which the sibling `:user` is created by a route that does
not match two-segment paths other than `/.../settings`: `/:user/settings` is
registered first, then `/:org/:repo`, then `/:user/:page`. -/
def sharedSiblingRegister : ControllerRegister :=
  ((NewControllerRegister.addRoute "/:user/settings" (.func "settings") ["GET"]).addRoute
      "/:org/:repo" (.func "repo") ["GET"]).addRoute
    "/:user/:page" (.func "page") ["GET"]

/-- The compiled pattern of the route `/beego/*` of TestParamResetFilter. -/
def beegoPattern : RoutePattern := ⟨"/beego/*", [.literal "beego", .wildcard]⟩

/-- The entry of the route `/beego/*` of TestParamResetFilter. -/
def beegoEntry : RouteEntry :=
  ⟨beegoPattern, .only ["GET"], .func "beegoHandleResetParams", none⟩

/-- The register of TestFilterFinishRouterMultiFirstOnly: the first
FinishRouter filter is registered with `returnOnOutput` clear, the second
without option. -/
def finishRouterFirstOnlyRegister : ControllerRegister :=
  ((NewControllerRegister.addFilter "/finishRouterMultiFirstOnly" .FinishRouter
        (fun c => c.WriteString "|FinishRouter1") ⟨false, false⟩).addFilter
      "/finishRouterMultiFirstOnly" .FinishRouter
        (fun c => c.WriteString "|FinishRouter2") {}).addRoute
    "/finishRouterMultiFirstOnly" filterFuncId ["GET"]

/-- The register of TestFilterFinishRouterMultiFirstOnly with the options of the
two FinishRouter filters exchanged: the first is registered without option, the
second with `returnOnOutput` clear. -/
def finishRouterSecondOnlyRegister : ControllerRegister :=
  ((NewControllerRegister.addFilter "/finishRouterMultiSecondOnly" .FinishRouter
        (fun c => c.WriteString "|FinishRouter1") {}).addFilter
      "/finishRouterMultiSecondOnly" .FinishRouter
        (fun c => c.WriteString "|FinishRouter2") ⟨false, false⟩).addRoute
    "/finishRouterMultiSecondOnly" filterFuncId ["GET"]

end Web

/-! Request authentication of package `apiauth`
(`server/web/filter/apiauth/apiauth.go`). -/

namespace Apiauth

/-- The request parameters `url.Values`, a map from a key to its list of
values, as a list of bindings. -/
abbrev Values := List (String × List String)

/-- Assignment `pa[k] = v` on the map of first values. -/
def mapSet : List (String × String) → String → String → List (String × String)
  | [], k, v => [(k, v)]
  | (k0, v0) :: rest, k, v => if k0 = k then (k0, v) :: rest else (k0, v0) :: mapSet rest k v

/-- Read `pa[key]` of the map of first values; the empty string for a key that
is not bound. -/
def mapGet : List (String × String) → String → String
  | [], _ => ""
  | (k0, v0) :: rest, k => if k0 = k then v0 else mapGet rest k

/-- The first loop of `Signature`: every key is appended to `keys` and bound in
`pa` to the first value of its list; reading the first value of an empty list
fails (index out of range), which is the result `none`. -/
def firstValues : Values → List (String × String) → List String →
    Option (List (String × String) × List String)
  | [], pa, keys => some (pa, keys)
  | (_, []) :: _, _, _ => none
  | (k, x :: _) :: rest, pa, keys => firstValues rest (mapSet pa k x) (keys ++ [k])

/-- The order of Go strings on character lists: lexicographic by character
code, which is the order of the UTF-8 bytes. -/
def lessChars : List Char → List Char → Bool
  | _, [] => false
  | [], _ :: _ => true
  | a :: as, b :: bs =>
    if a.toNat < b.toNat then true
    else if b.toNat < a.toNat then false
    else lessChars as bs

/-- The order `<` of Go strings. -/
def stringLess (a b : String) : Bool := lessChars a.data b.data

/-- Insertion of a key into a list of keys in ascending order. -/
def insertSorted (k : String) : List String → List String
  | [] => [k]
  | x :: xs => if stringLess k x then k :: x :: xs else x :: insertSorted k xs

/-- The keys in ascending order, `sort.Strings(keys)`. -/
def sortStrings : List String → List String
  | [] => []
  | k :: ks => insertSorted k (sortStrings ks)

/-- The second loop of `Signature`: the buffer receives, for every key in turn
other than `signature`, the key and its value when both are non-empty. -/
def writeParams (pa : List (String × String)) : List String → String
  | [] => ""
  | key :: keys =>
    if key = "signature" then writeParams pa keys
    else if key ≠ "" ∧ mapGet pa key ≠ "" then key ++ mapGet pa key ++ writeParams pa keys
    else writeParams pa keys

/-- The text that is signed: method, parameters and request URL, each followed
by a line feed. -/
def stringToSign (method params RequestURL : String) : String :=
  method ++ "\n" ++ params ++ "\n" ++ RequestURL ++ "\n"

/-- Translation of `Signature`. `mac key text` stands for the base64 text of the
HMAC-SHA256 of `text` under `key`, which the Go libraries compute; the result
`none` is the failure of the first loop. -/
def Signature (mac : String → String → String) (appsecret method : String) (params : Values)
    (RequestURL : String) : Option String :=
  match firstValues params [] [] with
  | none => none
  | some (pa, keys) =>
    some (mac appsecret (stringToSign method (writeParams pa (sortStrings keys)) RequestURL))

/-- The operations of Go's `time` package that `APISecretAuth` uses, taken as
parameters over a type of time values: `Parse layout value` (`none` when it
returns an error), `Now`, and `SubSeconds t u`, the number of seconds
`t.Sub(u).Seconds()`. -/
structure TimeLib (τ : Type) where
  Parse : String → String → Option τ
  Now : τ
  SubSeconds : τ → τ → ℚ

/-- What the filter reads of the request context: `ctx.Input.Query`,
`ctx.Input.Method()`, `ctx.Request.Form` and `ctx.Input.URL()`. -/
structure Input where
  Query : String → String
  Method : String
  Form : Values
  URL : String

/-- A write of the filter to the response. -/
inductive Effect where
  | WriteHeader (code : Nat)
  | WriteString (text : String)
deriving DecidableEq, Repr

/-- The two writes of every rejecting branch: `WriteHeader(403)` and
`WriteString` of the message. -/
def deny (msg : String) : List Effect := [.WriteHeader 403, .WriteString msg]

/-- The time layout of the `timestamp` parameter. -/
def timestampLayout : String := "2006-01-02 15:04:05"

/-- Translation of the filter returned by `APISecretAuth(f, timeout)`: the
writes it performs on the response, in order; `none` when `Signature` fails.
`float64(timeout)` is taken as the number `timeout`. -/
def APISecretAuth {τ : Type} (lib : TimeLib τ) (mac : String → String → String)
    (f : String → String) (timeout : Int) (ctx : Input) : Option (List Effect) :=
  if ctx.Query "appid" = "" then some (deny "missing query parameter: appid")
  else if f (ctx.Query "appid") = "" then some (deny "appid query parameter missing")
  else if ctx.Query "signature" = "" then some (deny "missing query parameter: signature")
  else if ctx.Query "timestamp" = "" then some (deny "missing query parameter: timestamp")
  else
    match lib.Parse timestampLayout (ctx.Query "timestamp") with
    | none =>
      some (deny "incorrect timestamp format. Should be in the form 2006-01-02 15:04:05")
    | some u =>
      if (timeout : ℚ) < lib.SubSeconds lib.Now u then
        some (deny "request timer timeout exceeded. Please try again")
      else
        match Signature mac (f (ctx.Query "appid")) ctx.Method ctx.Form ctx.URL with
        | none => none
        | some sig =>
          if ctx.Query "signature" ≠ sig then some (deny "authentication failed") else some []

/-- The bindings of a parameter map that count for the signature: for every
key that is non-empty and not `signature` and whose first value is non-empty,
the key with its first value. -/
def relevant : Values → List (String × String)
  | [] => []
  | (_, []) :: rest => relevant rest
  | (k, v :: _) :: rest =>
    if k ≠ "" ∧ k ≠ "signature" ∧ v ≠ "" then (k, v) :: relevant rest else relevant rest

/-- The texts of a list one after the other, without separator. -/
def joinAll : List String → String
  | [] => ""
  | x :: xs => x ++ joinAll xs

/-- The text of the parameters that the claim about `Signature` describes: the
keys of the bindings that count, in ascending order, each followed by its first
value. -/
def signedParams (params : Values) : String :=
  joinAll ((sortStrings ((relevant params).map Prod.fst)).map
    (fun k => k ++ mapGet (relevant params) k))

/-- A difference of instants as a duration: Go's `t.Sub(u)` gives the largest
or the smallest duration when the difference is out of the range of int64. -/
def saturate64 (n : Int) : Int :=
  if n > 2 ^ 63 - 1 then 2 ^ 63 - 1 else if n < -(2 ^ 63) then -(2 ^ 63) else n

/-- The time operations on instants counted in nanoseconds, for a given parser
and current instant: `t.Sub(u)` is the saturated difference and `Seconds()` is
taken as the duration divided by 10^9, the rounding to float64 left aside. -/
def instantTime (parse : String → String → Option Int) (now : Int) : TimeLib Int :=
  ⟨parse, now, fun t u => (saturate64 (t - u) : ℚ) / 1000000000⟩

/-- The filter wrote a 403 response. -/
def Rejected (r : Option (List Effect)) : Prop := ∃ msg, r = some (deny msg)

/-- A sample of the time operations: time values are seconds, only the text
`2026-11-02 10:00:00` parses (to the second 1000), the current time is the
second 1100. -/
def sampleTime : TimeLib Int :=
  ⟨fun _ value => if value = "2026-11-02 10:00:00" then some 1000 else none, 1100,
   fun t u => ((t - u : Int) : ℚ)⟩

/-- A sample keyed digest: the key in front of the text. -/
def sampleMac : String → String → String := fun key text => key ++ ":" ++ text

/-- A sample secret table: the application `app1` has the secret `s3cret`. -/
def sampleSecret : String → String := fun appid => if appid = "app1" then "s3cret" else ""

/-- A sample request with the given signature parameter. -/
def sampleInput (signature : String) : Input :=
  ⟨fun key =>
      if key = "appid" then "app1"
      else if key = "signature" then signature
      else if key = "timestamp" then "2026-11-02 10:00:00"
      else "",
   "GET",
   [("appid", ["app1"]), ("signature", [signature]), ("timestamp", ["2026-11-02 10:00:00"])],
   "/api/list"⟩

/-- A sample of the time operations on instants: the text
`2400-01-01 00:00:00` parses to an instant far later than the current one. -/
def futureTime : TimeLib Int :=
  instantTime (fun _ value => if value = "2400-01-01 00:00:00" then some 13569465600000000000
    else none) 1793613600000000000

/-- A sample request with the given signature parameter and the timestamp
`2400-01-01 00:00:00`. -/
def futureInput (signature : String) : Input :=
  ⟨fun key =>
      if key = "appid" then "app1"
      else if key = "signature" then signature
      else if key = "timestamp" then "2400-01-01 00:00:00"
      else "",
   "GET",
   [("appid", ["app1"]), ("signature", [signature]), ("timestamp", ["2400-01-01 00:00:00"])],
   "/api/list"⟩

/-- The sample digest of the sample request. -/
def sampleSignature : String :=
  "s3cret:GET\nappidapp1timestamp2026-11-02 10:00:00\n/api/list\n"

end Apiauth

/-! Session stores of the packages `redis_cluster`
(`server/web/session/redis_cluster/redis_cluster.go`) and `postgres`
(`server/web/session/postgres/sess_postgresql.go`). -/

namespace Session

/-- The Go map `map[interface{}]interface{}` of a session store, as a list of
bindings; a value of interface type is `none` when it is nil. Two ordinary keys
are the same element of the key type exactly when `==` holds of them in Go. -/
abbrev ValueMap (κ ν : Type) := List (κ × Option ν)

/-- What the Go runtime does with a value of interface type used as the key of
a map: an ordinary key is hashable and equal to itself; an irreflexive key is
hashable and differs from every key, itself included (a NaN float, or a value
holding one); hashing an unhashable key (a slice, a map or a function, or a
value holding one) panics. -/
inductive KeyKind where
  | ordinary
  | irreflexive
  | unhashable
deriving DecidableEq, Repr

/-- The panic of the Go runtime on a map operation with an unhashable key. -/
inductive Fault where
  | unhashableKey
deriving DecidableEq, Repr

/-- The binding of an ordinary key replaced, or added when the key has none. -/
def putEntry {κ ν : Type} [DecidableEq κ] : ValueMap κ ν → κ → Option ν → ValueMap κ ν
  | [], key, value => [(key, value)]
  | (k, v) :: rest, key, value =>
    if k = key then (k, value) :: rest else (k, v) :: putEntry rest key value

/-- The binding of an ordinary key, if it has one. -/
def findEntry {κ ν : Type} [DecidableEq κ] : ValueMap κ ν → κ → Option (Option ν)
  | [], _ => none
  | (k, v) :: rest, key => if k = key then some v else findEntry rest key

/-- The bindings without those of an ordinary key. -/
def dropEntry {κ ν : Type} [DecidableEq κ] : ValueMap κ ν → κ → ValueMap κ ν
  | [], _ => []
  | (k, v) :: rest, key => if k = key then dropEntry rest key else (k, v) :: dropEntry rest key

/-- The assignment `m[key] = value`: it panics on an unhashable key, adds a
binding that no lookup finds for an irreflexive key, and replaces or adds the
binding of an ordinary key. -/
def mapAssign {κ ν : Type} [DecidableEq κ] (kind : κ → KeyKind) (m : ValueMap κ ν) (key : κ)
    (value : Option ν) : Except Fault (ValueMap κ ν) :=
  match kind key with
  | .unhashable => .error .unhashableKey
  | .irreflexive => .ok (m ++ [(key, value)])
  | .ordinary => .ok (putEntry m key value)

/-- The read `v, ok := m[key]`; `none` when `ok` is false. It panics on an
unhashable key and finds nothing for an irreflexive key. -/
def mapLookup {κ ν : Type} [DecidableEq κ] (kind : κ → KeyKind) (m : ValueMap κ ν) (key : κ) :
    Except Fault (Option (Option ν)) :=
  match kind key with
  | .unhashable => .error .unhashableKey
  | .irreflexive => .ok none
  | .ordinary => .ok (findEntry m key)

/-- The statement `delete(m, key)`: it panics on an unhashable key and removes
nothing for an irreflexive key. -/
def mapDelete {κ ν : Type} [DecidableEq κ] (kind : κ → KeyKind) (m : ValueMap κ ν) (key : κ) :
    Except Fault (ValueMap κ ν) :=
  match kind key with
  | .unhashable => .error .unhashableKey
  | .irreflexive => .ok m
  | .ordinary => .ok (dropEntry m key)

/-- Sample keys of interface type: a text, the float NaN and a slice of
integers. -/
inductive SampleKey where
  | text (s : String)
  | floatNaN
  | intSlice (xs : List Int)
deriving DecidableEq, Repr

/-- The kinds of the sample keys. -/
def SampleKey.kind : SampleKey → KeyKind
  | .text _ => .ordinary
  | .floatNaN => .irreflexive
  | .intSlice _ => .unhashable

/-- The kind of keys of type string: every text is an ordinary key. -/
def textKind : String → KeyKind := fun _ => .ordinary

/-- The result of an int64 computation: the value wrapped into the range of
int64. -/
def wrapInt64 (n : Int) : Int := (n + 2 ^ 63) % 2 ^ 64 - 2 ^ 63

/-- The duration `time.Duration(n) * time.Second`, in nanoseconds. -/
def seconds (n : Int) : Int := wrapInt64 (n * 1000000000)

end Session

namespace Postgres

open Session

/-- The session store of package `postgres`: session id and values (the
database handle `c` is not part of the model). -/
structure SessionStore (κ ν : Type) where
  sid : String
  values : ValueMap κ ν

/-- Translation of `SessionStore.Set`; the error result is always nil, and the
failure is the panic of the map assignment. -/
def SessionStore.Set {κ ν : Type} [DecidableEq κ] (st : SessionStore κ ν) (kind : κ → KeyKind)
    (key : κ) (value : Option ν) : Except Fault (SessionStore κ ν) :=
  match mapAssign kind st.values key value with
  | .error e => .error e
  | .ok m => .ok { st with values := m }

/-- Translation of `SessionStore.Get`; the failure is the panic of the map
read. -/
def SessionStore.Get {κ ν : Type} [DecidableEq κ] (st : SessionStore κ ν) (kind : κ → KeyKind)
    (key : κ) : Except Fault (Option ν) :=
  match mapLookup kind st.values key with
  | .error e => .error e
  | .ok (some v) => .ok v
  | .ok none => .ok none

/-- Translation of `SessionStore.Delete`; the error result is always nil, and
the failure is the panic of the map delete. -/
def SessionStore.Delete {κ ν : Type} [DecidableEq κ] (st : SessionStore κ ν) (kind : κ → KeyKind)
    (key : κ) : Except Fault (SessionStore κ ν) :=
  match mapDelete kind st.values key with
  | .error e => .error e
  | .ok m => .ok { st with values := m }

/-- Translation of `SessionStore.Flush`; the error result is always nil. -/
def SessionStore.Flush {κ ν : Type} (st : SessionStore κ ν) : SessionStore κ ν :=
  { st with values := [] }

end Postgres

namespace RedisCluster

open Session

/-- The keys of the redis cluster as the commands of the client see them: key,
value and the expiration the key was set with, in nanoseconds. The commands are
taken to succeed, and no key expires while the modelled calls run. -/
abbrev Redis := List (String × String × Int)

/-- The command `SET key value` with an expiration. -/
def Redis.Set : Redis → String → String → Int → Redis
  | [], key, value, ex => [(key, value, ex)]
  | (k, v) :: rest, key, value, ex =>
    if k = key then (k, value, ex) :: rest else (k, v) :: Redis.Set rest key value ex

/-- The command `EXISTS key`: the number of keys that exist. -/
def Redis.Exists : Redis → String → Int
  | [], _ => 0
  | (k, _) :: rest, key => if k = key then 1 else Redis.Exists rest key

/-- The command `SET key value XX`: the key is set only if it exists. -/
def Redis.SetXX (db : Redis) (key value : String) (ex : Int) : Redis :=
  if db.Exists key = 0 then db else db.Set key value ex

/-- The command `DEL key`. -/
def Redis.Del : Redis → String → Redis
  | [], _ => []
  | (k, v) :: rest, key => if k = key then Redis.Del rest key else (k, v) :: Redis.Del rest key

/-- The command `GET key`. -/
def Redis.Get : Redis → String → Option String
  | [], _ => none
  | (k, v, _) :: rest, key => if k = key then some v else Redis.Get rest key

/-- The session store of package `redis_cluster`: session id, values and
maximum lifetime (the client `p` is the handle to the cluster, whose state the
functions below take and return). -/
structure SessionStore (κ ν : Type) where
  sid : String
  values : ValueMap κ ν
  maxlifetime : Int

/-- Translation of `SessionStore.Set`; the error result is always nil, and the
failure is the panic of the map assignment. -/
def SessionStore.Set {κ ν : Type} [DecidableEq κ] (rs : SessionStore κ ν) (kind : κ → KeyKind)
    (key : κ) (value : Option ν) : Except Fault (SessionStore κ ν) :=
  match mapAssign kind rs.values key value with
  | .error e => .error e
  | .ok m => .ok { rs with values := m }

/-- Translation of `SessionStore.Get`; the failure is the panic of the map
read. -/
def SessionStore.Get {κ ν : Type} [DecidableEq κ] (rs : SessionStore κ ν) (kind : κ → KeyKind)
    (key : κ) : Except Fault (Option ν) :=
  match mapLookup kind rs.values key with
  | .error e => .error e
  | .ok (some v) => .ok v
  | .ok none => .ok none

/-- Translation of `SessionStore.Delete`; the error result is always nil, and
the failure is the panic of the map delete. -/
def SessionStore.Delete {κ ν : Type} [DecidableEq κ] (rs : SessionStore κ ν) (kind : κ → KeyKind)
    (key : κ) : Except Fault (SessionStore κ ν) :=
  match mapDelete kind rs.values key with
  | .error e => .error e
  | .ok m => .ok { rs with values := m }

/-- Translation of `SessionStore.Flush`; the error result is always nil. -/
def SessionStore.Flush {κ ν : Type} (rs : SessionStore κ ν) : SessionStore κ ν :=
  { rs with values := [] }

/-- Translation of `SessionStore.SessionID`. -/
def SessionStore.SessionID {κ ν : Type} (rs : SessionStore κ ν) : String := rs.sid

/-- Translation of `SessionStore.releaseSession`. `EncodeGob` of package
`session` is a parameter, `none` being its error; the result is the state of the
cluster after the call. -/
def SessionStore.releaseSession {κ ν : Type} (rs : SessionStore κ ν)
    (EncodeGob : ValueMap κ ν → Option String) (requirePresent : Bool) (db : Redis) : Redis :=
  match EncodeGob rs.values with
  | none => db
  | some b =>
    if requirePresent then db.SetXX rs.sid b (seconds rs.maxlifetime)
    else db.Set rs.sid b (seconds rs.maxlifetime)

/-- Translation of `SessionStore.SessionRelease`. -/
def SessionStore.SessionRelease {κ ν : Type} (rs : SessionStore κ ν)
    (EncodeGob : ValueMap κ ν → Option String) (db : Redis) : Redis :=
  rs.releaseSession EncodeGob false db

/-- Translation of `SessionStore.SessionReleaseIfPresent`. -/
def SessionStore.SessionReleaseIfPresent {κ ν : Type} (rs : SessionStore κ ν)
    (EncodeGob : ValueMap κ ν → Option String) (db : Redis) : Redis :=
  rs.releaseSession EncodeGob true db

/-- Translation of `Provider.SessionExist` on the state of the cluster. -/
def SessionExist (db : Redis) (sid : String) : Bool :=
  if db.Exists sid = 0 then false else true

/-- Translation of `Provider.SessionDestroy` on the state of the cluster. -/
def SessionDestroy (db : Redis) (sid : String) : Redis := db.Del sid

/-- Translation of `Provider.SessionRead`: the store started for a session id.
`DecodeGob` of package `session` is a parameter; `none` is the error result. -/
def SessionRead {κ ν : Type} (DecodeGob : String → Option (ValueMap κ ν)) (maxlifetime : Int)
    (db : Redis) (sid : String) : Option (SessionStore κ ν) :=
  match db.Get sid with
  | none => some ⟨sid, [], maxlifetime⟩
  | some kvs =>
    if kvs.length = 0 then some ⟨sid, [], maxlifetime⟩
    else (DecodeGob kvs).map (fun kv => ⟨sid, kv, maxlifetime⟩)

/-- MaxPoolSize, the maximum pool size of `redis_cluster`. -/
def MaxPoolSize : Int := 1000

/-- The options handed to `NewClusterClient` by `SessionInit`. -/
structure ClusterOptions where
  Addrs : List String
  Password : String
  PoolSize : Int
  ConnMaxIdleTime : Int
  MaxRetries : Int
deriving DecidableEq, Repr

/-- The session provider of package `redis_cluster`; durations are in
nanoseconds, and `poollist` is the client created with the recorded options, if
one was created. -/
structure Provider where
  maxlifetime : Int
  SavePath : String
  Poolsize : Int
  Password : String
  DbNum : Int
  idleTimeout : Int
  IdleTimeoutStr : String
  idleCheckFrequency : Int
  IdleCheckFrequencyStr : String
  MaxRetries : Int
  poollist : Option ClusterOptions
deriving DecidableEq, Repr

/-- The fields of `Provider` that JSON decoding sees: the exported fields, under
their tags `save_path`, `poolsize`, `password`, `db_num`, `idle_timeout`,
`idle_check_frequency` and `max_retries`. -/
structure JSONFields where
  SavePath : String
  Poolsize : Int
  Password : String
  DbNum : Int
  IdleTimeoutStr : String
  IdleCheckFrequencyStr : String
  MaxRetries : Int
deriving DecidableEq, Repr

/-- The exported fields of a provider. -/
def Provider.jsonFields (rp : Provider) : JSONFields :=
  ⟨rp.SavePath, rp.Poolsize, rp.Password, rp.DbNum, rp.IdleTimeoutStr, rp.IdleCheckFrequencyStr,
   rp.MaxRetries⟩

/-- The provider with its exported fields replaced. -/
def Provider.setJSONFields (rp : Provider) (j : JSONFields) : Provider :=
  { rp with SavePath := j.SavePath, Poolsize := j.Poolsize, Password := j.Password,
            DbNum := j.DbNum, IdleTimeoutStr := j.IdleTimeoutStr,
            IdleCheckFrequencyStr := j.IdleCheckFrequencyStr, MaxRetries := j.MaxRetries }

/-- The library operations `SessionInit` and `initOldStyle` use, taken as
parameters: `json.Unmarshal` into the exported fields of the provider (the
fields it leaves and its error, if any), `time.ParseDuration` (nanoseconds or
the error), `strconv.Atoi` (`none` for an error) and the `Ping` of the client
created with the given options (the error, if any). -/
structure Lib where
  Unmarshal : String → JSONFields → JSONFields × Option String
  ParseDuration : String → Except String Int
  Atoi : String → Option Int
  Ping : ClusterOptions → Option String

/-- The white space of `unicode.IsSpace`. -/
def isSpace (c : Char) : Bool :=
  (9 ≤ c.toNat && c.toNat ≤ 13) || c.toNat = 32 || c.toNat = 133 || c.toNat = 160 ||
    c.toNat = 5760 || (8192 ≤ c.toNat && c.toNat ≤ 8202) || c.toNat = 8232 || c.toNat = 8233 ||
    c.toNat = 8239 || c.toNat = 8287 || c.toNat = 12288

/-- The text without leading and trailing white space, `strings.TrimSpace`. -/
def TrimSpace (s : String) : String :=
  String.mk ((s.data.dropWhile isSpace).reverse.dropWhile isSpace).reverse

/-- Whether the second list starts with the first. -/
def hasPrefixChars : List Char → List Char → Bool
  | [], _ => true
  | _ :: _, [] => false
  | a :: as, b :: bs => a = b && hasPrefixChars as bs

/-- Whether the text starts with the prefix, `strings.HasPrefix`. -/
def HasPrefix (s pre : String) : Bool := hasPrefixChars pre.data s.data

/-- The pieces of a character list between the occurrences of a separator. -/
def splitChars (sep : Char) : List Char → List (List Char)
  | [] => [[]]
  | c :: cs =>
    match splitChars sep cs with
    | [] => [[]]
    | s :: ss => if c = sep then [] :: s :: ss else (c :: s) :: ss

/-- The pieces of a text between the occurrences of a one-character separator,
`strings.Split`. -/
def Split (s : String) (sep : Char) : List String := (splitChars sep s.data).map String.mk

/-- Translation of `Provider.initOldStyle`. -/
def Provider.initOldStyle (lib : Lib) (rp : Provider) (savePath : String) : Provider :=
  let configs := Split savePath ','
  let rp1 : Provider :=
    match configs[0]? with
    | some c => { rp with SavePath := c }
    | none => rp
  let rp2 : Provider :=
    match configs[1]? with
    | some c =>
      match lib.Atoi c with
      | some poolsize =>
        if poolsize < 0 then { rp1 with Poolsize := MaxPoolSize }
        else { rp1 with Poolsize := poolsize }
      | none => { rp1 with Poolsize := MaxPoolSize }
    | none => { rp1 with Poolsize := MaxPoolSize }
  let rp3 : Provider :=
    match configs[2]? with
    | some c => { rp2 with Password := c }
    | none => rp2
  let rp4 : Provider :=
    match configs[3]? with
    | some c =>
      match lib.Atoi c with
      | some dbnum => if dbnum < 0 then { rp3 with DbNum := 0 } else { rp3 with DbNum := dbnum }
      | none => { rp3 with DbNum := 0 }
    | none => { rp3 with DbNum := 0 }
  let rp5 : Provider :=
    match configs[4]? with
    | some c =>
      match lib.Atoi c with
      | some timeout => if timeout > 0 then { rp4 with idleTimeout := seconds timeout } else rp4
      | none => rp4
    | none => rp4
  let rp6 : Provider :=
    match configs[5]? with
    | some c =>
      match lib.Atoi c with
      | some checkFrequency =>
        if checkFrequency > 0 then { rp5 with idleCheckFrequency := seconds checkFrequency }
        else rp5
      | none => rp5
    | none => rp5
  match configs[6]? with
  | some c =>
    match lib.Atoi c with
    | some retries => if retries > 0 then { rp6 with MaxRetries := retries } else rp6
    | none => rp6
  | none => rp6

/-- The end of `SessionInit`: the cluster client is created from the fields of
the provider and pinged. -/
def Provider.connect (lib : Lib) (rp : Provider) : Provider × Option String :=
  ({ rp with poollist := some ⟨Split rp.SavePath ';', rp.Password, rp.Poolsize, rp.idleTimeout,
       rp.MaxRetries⟩ },
   lib.Ping ⟨Split rp.SavePath ';', rp.Password, rp.Poolsize, rp.idleTimeout, rp.MaxRetries⟩)

/-- Translation of `Provider.SessionInit`: the provider after the call and the
error returned, if any. -/
def Provider.SessionInit (lib : Lib) (rp : Provider) (maxlifetime : Int) (cfgStr : String) :
    Provider × Option String :=
  let rp0 : Provider := { rp with maxlifetime := maxlifetime }
  if HasPrefix (TrimSpace cfgStr) "\x7b" then
    match lib.Unmarshal (TrimSpace cfgStr) rp0.jsonFields with
    | (j, some err) => (rp0.setJSONFields j, some err)
    | (j, none) =>
      match lib.ParseDuration (rp0.setJSONFields j).IdleTimeoutStr with
      | .error err => ({ rp0.setJSONFields j with idleTimeout := 0 }, some err)
      | .ok d =>
        match lib.ParseDuration (rp0.setJSONFields j).IdleCheckFrequencyStr with
        | .error err =>
          ({ rp0.setJSONFields j with idleTimeout := d, idleCheckFrequency := 0 }, some err)
        | .ok f =>
          Provider.connect lib
            { rp0.setJSONFields j with idleTimeout := d, idleCheckFrequency := f }
  else Provider.connect lib (rp0.initOldStyle lib (TrimSpace cfgStr))

/-- The provider `&Provider{}`. -/
def Provider.zero : Provider := ⟨0, "", 0, "", 0, 0, "", 0, "", 0, none⟩

/-- The configuration text of TestProvider_SessionInit. -/
def testSavePath : String :=
  "\n\x7b \"save_path\": \"my save path\", \"idle_timeout\": \"3s\"\x7d\n"

/-- A sample of the library operations that decodes the configuration of
TestProvider_SessionInit, parses the duration `3s`, and fails on every other
input. -/
def sampleLib : Lib :=
  ⟨fun data j =>
      if data = "\x7b \"save_path\": \"my save path\", \"idle_timeout\": \"3s\"\x7d" then
        ({ j with SavePath := "my save path", IdleTimeoutStr := "3s" }, none)
      else (j, some "invalid character"),
   fun s => if s = "3s" then .ok 3000000000 else .error ("time: invalid duration " ++ s),
   fun _ => none,
   fun _ => some "connection refused"⟩

/-- The number written by a list of decimal digits, read after the number
`acc`; `none` when a character is not a digit. -/
def digitsValue : List Char → Nat → Option Nat
  | [], acc => some acc
  | c :: cs, acc => if c.isDigit then digitsValue cs (acc * 10 + (c.toNat - 48)) else none

/-- A sample of `strconv.Atoi` for the samples of the library operations: an
optional sign followed by one or more decimal digits, the value being in the
range of a 64-bit `int`; `none` stands for the error. -/
def decimalAtoi (s : String) : Option Int :=
  match s.data with
  | [] => none
  | '-' :: ds =>
    if ds.isEmpty then none
    else (digitsValue ds 0).bind (fun n => if n ≤ 2 ^ 63 then some (-(n : Int)) else none)
  | '+' :: ds =>
    if ds.isEmpty then none
    else (digitsValue ds 0).bind (fun n => if n < 2 ^ 63 then some (n : Int) else none)
  | ds => (digitsValue ds 0).bind (fun n => if n < 2 ^ 63 then some (n : Int) else none)

/-- The sample of the library operations with decimal integers parsed. -/
def decimalLib : Lib := { sampleLib with Atoi := decimalAtoi }

/-- The configuration text of the doc comment of `SessionInit`. -/
def oldStyleConfig : String := "127.0.0.1:6379;127.0.0.1:6380,100,test,0"

/-- The store of TestRedis after `Set` of `username` to `astaxie`. -/
def namedStore : SessionStore String String := ⟨"sid-1", [("username", some "astaxie")], 3600⟩

/-- A store with keys of several kinds, with no value yet. -/
def kindStore : SessionStore SampleKey String := ⟨"sid-1", [], 3600⟩

/-- A sample encoding of the values of a store: the keys with their values, in
the order of the bindings. -/
def sampleEncode : ValueMap String String → Option String :=
  fun m => some (String.join (m.map (fun kv => kv.1 ++ "=" ++ kv.2.getD "" ++ ";")))

end RedisCluster

/-! The write-through decorator of package `cache`
(`client/cache/write_through.go`). -/

namespace Cache

/-- The error codes of package `cache` that `write_through.go` names. -/
inductive Code where
  | InvalidInitParameters
  | PersistCacheFailed
deriving DecidableEq, Repr

/-- The error values met in `write_through.go`: an error of any origin (as
returned by the store function or by `Put`), the error `berror.Error(code, msg)`
and the error `berror.Wrap(err, code, msg)` around a non-nil error. The result
nil is `none` of `Option Error`. -/
inductive Error where
  | other (text : String)
  | coded (code : Code) (msg : String)
  | wrap (cause : Error) (code : Code) (msg : String)
deriving DecidableEq, Repr

/-- The decorator `WriteThroughCache`: the embedded `Cache`, of which `Set`
uses `Put`, acting on the state `σ` of the cache, and the store function,
acting on the state `ρ` of the persistent store; values are of type `ν`,
expirations are durations in nanoseconds. -/
structure WriteThroughCache (ρ σ ν : Type) where
  Put : σ → String → ν → Int → σ × Option Error
  storeFunc : ρ → String → ν → ρ × Option Error

/-- Translation of `NewWriteThroughCache`; `none` stands for a nil argument. -/
def NewWriteThroughCache {ρ σ ν : Type} (cache : Option (σ → String → ν → Int → σ × Option Error))
    (fn : Option (ρ → String → ν → ρ × Option Error)) :
    Except Error (WriteThroughCache ρ σ ν) :=
  match fn, cache with
  | some f, some c => .ok ⟨c, f⟩
  | _, _ => .error (.coded .InvalidInitParameters "cache or storeFunc can not be nil")

/-- The state `Set` acts on: the persistent store, the cache, and the number of
calls of `Put` made so far. -/
structure State (ρ σ : Type) where
  store : ρ
  cache : σ
  puts : Nat
deriving DecidableEq, Repr

/-- Translation of `WriteThroughCache.Set`: the state after the call and the
error returned. `format` stands for the rendering `%v` of the value by
`fmt.Sprintf`. -/
def WriteThroughCache.Set {ρ σ ν : Type} (w : WriteThroughCache ρ σ ν) (format : ν → String)
    (s : State ρ σ) (key : String) (val : ν) (expiration : Int) : State ρ σ × Option Error :=
  match w.storeFunc s.store key val with
  | (st, some err) =>
    ({ s with store := st },
     some (.wrap err .PersistCacheFailed ("key: " ++ key ++ ", val: " ++ format val)))
  | (st, none) =>
    ({ store := st, cache := (w.Put s.cache key val expiration).1, puts := s.puts + 1 },
     (w.Put s.cache key val expiration).2)

/-- A sample cache: a list of bindings; `Put` fails on the empty key. -/
def samplePut : List (String × String) → String → String → Int →
    List (String × String) × Option Error :=
  fun c key val _ => if key = "" then (c, some (.other "empty key")) else ((key, val) :: c, none)

/-- A sample store function: a log of the stored keys; storing fails on the key
`locked`. -/
def sampleStore : List String → String → String → List String × Option Error :=
  fun st key _ => if key = "locked" then (st, some (.other "store is read-only")) else
    (key :: st, none)

/-- The sample decorator. -/
def sampleCache : WriteThroughCache (List String) (List (String × String)) String :=
  ⟨samplePut, sampleStore⟩

end Cache

/-! Statement building of package `orm` (`client/orm/db_oracle.go`,
`client/orm/db_mysql.go`). -/

namespace Orm

/-- The texts of a list with a separator between them, `strings.Join`. -/
def Join : List String → String → String
  | [], _ => ""
  | [a], _ => a
  | a :: b :: rest, sep => a ++ sep ++ Join (b :: rest) sep

/-- A failure at run time of the translated functions. -/
inductive Failure where
  | divideByZero
  | negativeRepeat
  | indexOutOfRange
deriving DecidableEq, Repr

/-- The text made of the given number of copies of a text. -/
def repeatText (s : String) : Nat → String
  | 0 => ""
  | n + 1 => s ++ repeatText s n

/-- The copies of a text, `strings.Repeat`, which fails on a negative count. -/
def Repeat (s : String) (count : Int) : Except Failure String :=
  if count < 0 then .error .negativeRepeat else .ok (repeatText s count.toNat)

/-- Translation of the statement building of `dbBaseOracle.InsertValue`: the
query handed to `ReplaceMarks`, or the failure. `Q` is the table quote and
`table` the table of the model. -/
def InsertValue {ν : Type} (Q table : String) (isMulti : Bool) (names : List String)
    (values : List ν) : Except Failure String :=
  let marks := names.map (fun n => ":" ++ n)
  let sep := Q ++ ", " ++ Q
  let qmarks := Join marks ", "
  let columns := Join names sep
  if names.length = 0 then .error .divideByZero
  else
    let multi : Int := ((values.length / names.length : Nat) : Int)
    match (if isMulti then (Repeat (qmarks ++ "), (") (multi - 1)).map (fun r => r ++ qmarks)
           else .ok qmarks) with
    | .error e => .error e
    | .ok q =>
      .ok ("INSERT INTO " ++ Q ++ table ++ Q ++ " (" ++ Q ++ columns ++ Q ++ ") VALUES (" ++ q ++
        ")")

/-- The statement of `InsertValue` up to the VALUES clause. -/
def insertHead (Q table : String) (names : List String) : String :=
  "INSERT INTO " ++ Q ++ table ++ Q ++ " (" ++ Q ++ Join names (Q ++ ", " ++ Q) ++ Q ++ ") VALUES "

/-- One parenthesised group of the VALUES clause: `:name` for every name, in
order. -/
def valueGroup (names : List String) : String :=
  "(" ++ Join (names.map (fun n => ":" ++ n)) ", " ++ ")"

/-- The lower-case form of a text on the letters A to Z, with which
`strings.ToLower` agrees on texts of ASCII characters; it stands for
`strings.ToLower` in the sample statements. -/
def asciiToLower (s : String) : String := String.mk (s.data.map Char.toLower)

/-- The name and the expression of an entry of `args`: the two pieces of
`strings.Split(v, "=")` when there are exactly two. -/
def overrideEntry (v : String) : Option (String × String) :=
  match RedisCluster.Split v '=' with
  | [k, e] => some (k, e)
  | _ => none

/-- The first loop of `InsertOrUpdate`: every entry of `args` with exactly two
pieces binds the lower-case form of its name to its expression in `argsMap`.
`ToLower` is `strings.ToLower` of the Go library, taken as a parameter. -/
def collectArgs (ToLower : String → String) :
    List String → List (String × String) → List (String × String)
  | [], m => m
  | v :: rest, m =>
    match overrideEntry v with
    | some kv => collectArgs ToLower rest (Apiauth.mapSet m (ToLower kv.1) kv.2)
    | none => collectArgs ToLower rest m

/-- The second loop of `InsertOrUpdate`, from the column with index `i` on: the
texts of the update clause and the values bound for them; reading `values[i]`
beyond the values fails. -/
def updateLoop {ν : Type} (ToLower : String → String) (argsMap : List (String × String))
    (values : List ν) :
    List String → Nat → Except Failure (List String × List ν)
  | [], _ => .ok ([], [])
  | v :: rest, i =>
    if Apiauth.mapGet argsMap (ToLower v) ≠ "" then
      match updateLoop ToLower argsMap values rest (i + 1) with
      | .error e => .error e
      | .ok r => .ok (("`" ++ v ++ "`" ++ "=" ++ Apiauth.mapGet argsMap (ToLower v)) :: r.1, r.2)
    else
      match values[i]? with
      | none => .error .indexOutOfRange
      | some x =>
        match updateLoop ToLower argsMap values rest (i + 1) with
        | .error e => .error e
        | .ok r => .ok (("`" ++ v ++ "`" ++ "=?") :: r.1, x :: r.2)

/-- A statement with its bound arguments. -/
structure Statement (ν : Type) where
  query : String
  args : List ν
deriving DecidableEq, Repr

/-- Translation of the statement building of `dbBaseMysql.InsertOrUpdate`: the
query handed to `ReplaceMarks` and the arguments bound to it. `names` and
`values` are the columns and values that `collectValues` gives, `Q` is the table
quote and `table` the table of the model. The update clause is appended to the
format text of `fmt.Sprintf`; `sprintfTail` stands for what `Sprintf` makes of
it, and `ToLower` for `strings.ToLower`. -/
def InsertOrUpdate {ν : Type} (ToLower : String → String) (sprintfTail : String → String)
    (Q table : String) (names : List String) (values : List ν) (args : List String) :
    Except Failure (Statement ν) :=
  match updateLoop ToLower (collectArgs ToLower args []) values names 0 with
  | .error e => .error e
  | .ok r =>
    .ok ⟨"INSERT INTO " ++ Q ++ table ++ Q ++ " (" ++ Q ++ Join names (Q ++ ", " ++ Q) ++ Q ++
          ") VALUES (" ++ Join (names.map (fun _ => "?")) ", " ++ ") " ++
          "ON DUPLICATE KEY UPDATE" ++ " " ++ sprintfTail (Join r.1 ", "),
        values ++ r.2⟩

/-- The override expression of a column: the expression of the last entry of
`args` with exactly one `=` whose name has the lower-case form of the column
name; the empty text when there is no such entry. -/
def lastOverride (ToLower : String → String) (args : List String) (name : String) : String :=
  match (args.reverse.filterMap overrideEntry).find?
      (fun kv => decide (ToLower kv.1 = ToLower name)) with
  | some kv => kv.2
  | none => ""

/-- The text of the update clause for a column. -/
def updateText (ToLower : String → String) (args : List String) (name : String) : String :=
  if lastOverride ToLower args name ≠ "" then
    "`" ++ name ++ "`" ++ "=" ++ lastOverride ToLower args name
  else "`" ++ name ++ "`" ++ "=?"

/-- The number of `?` in a text. -/
def marksIn (s : String) : Nat := s.data.count '?'

end Orm

namespace Web

/-! ## Splitting and joining paths -/

theorem splitSlash_ne_nil (cs : List Char) : splitSlash cs ≠ [] := by
  cases cs with
  | nil => simp [splitSlash]
  | cons c cs =>
    unfold splitSlash
    split
    · simp
    · split <;> simp

theorem splitSlash_cons_slash (cs : List Char) : splitSlash ('/' :: cs) = [] :: splitSlash cs := by
  cases h : splitSlash cs with
  | nil => exact absurd h (splitSlash_ne_nil cs)
  | cons x xs => simp [splitSlash, h]

theorem splitSlash_cons_other (c : Char) (cs : List Char) (hc : c ≠ '/') :
    ∃ x xs, splitSlash cs = x :: xs ∧ splitSlash (c :: cs) = (c :: x) :: xs := by
  cases h : splitSlash cs with
  | nil => exact absurd h (splitSlash_ne_nil cs)
  | cons x xs => exact ⟨x, xs, rfl, by simp [splitSlash, h, hc]⟩

theorem splitSlash_append (s t : List Char) (hs : '/' ∉ s) :
    ∃ x xs, splitSlash t = x :: xs ∧ splitSlash (s ++ t) = (s ++ x) :: xs := by
  induction s with
  | nil =>
    cases h : splitSlash t with
    | nil => exact absurd h (splitSlash_ne_nil t)
    | cons x xs => exact ⟨x, xs, rfl, by simpa using h⟩
  | cons c s ih =>
    have hc : c ≠ '/' := fun h => hs (by simp [h])
    have hs2 : '/' ∉ s := fun h => hs (by simp [h])
    obtain ⟨x, xs, h1, h2⟩ := ih hs2
    obtain ⟨y, ys, h3, h4⟩ := splitSlash_cons_other c (s ++ t) hc
    rw [h2] at h3
    cases h3
    exact ⟨x, xs, h1, by simpa using h4⟩

theorem joinPath_data (segs : List String) :
    (joinPath segs).data = segs.flatMap (fun s => '/' :: s.data) := by
  induction segs with
  | nil => rfl
  | cons s ss ih => simp [joinPath, String.data_append, ih]

theorem splitSlash_joined (segs : List String) (h : ∀ s ∈ segs, '/' ∉ s.data) :
    splitSlash (segs.flatMap (fun s => '/' :: s.data)) = [] :: segs.map String.data := by
  induction segs with
  | nil => rfl
  | cons s ss ih =>
    have hs : '/' ∉ s.data := h s (by simp)
    have hss : ∀ x ∈ ss, '/' ∉ x.data := fun x hx => h x (by simp [hx])
    simp only [List.flatMap_cons, List.cons_append, splitSlash_cons_slash, List.map_cons]
    obtain ⟨x, xs, h1, h2⟩ := splitSlash_append s.data (ss.flatMap (fun s => '/' :: s.data)) hs
    rw [ih hss] at h1
    cases h1
    rw [h2]
    simp

theorem splitPath_joinPath (segs : List String) (h : ∀ s ∈ segs, '/' ∉ s.data) :
    splitPath (joinPath segs) = segs := by
  unfold splitPath
  rw [joinPath_data, splitSlash_joined segs h]
  simp [List.map_map, Function.comp_def]

/-! ## The route tree against the matcher of one pattern -/

theorem orElse_notFound_iff (a b : Resolution) :
    a.orElse b = .notFound ↔ a = .notFound ∧ b = .notFound := by
  cases a <;> cases b <;> simp [Resolution.orElse]

theorem orElse_found_iff (a b : Resolution) (e : RouteEntry) (ps : Params) :
    a.orElse b = .found e ps ↔
      a = .found e ps ∨ (a.isFound = false ∧ b = .found e ps) := by
  cases a <;> cases b <;> simp [Resolution.orElse, Resolution.isFound]

theorem orElse_isFound (a b : Resolution) :
    (a.orElse b).isFound = (a.isFound || b.isFound) := by
  cases a <;> cases b <;> simp [Resolution.orElse, Resolution.isFound]

theorem orElse_of_found (a b : Resolution) (e : RouteEntry) (ps : Params) (h : a = .found e ps) :
    a.orElse b = .found e ps := by
  subst h; rfl

theorem orElse_of_not_found (a b : Resolution) (h : a.isFound = false) (hb : b.isFound = true) :
    a.orElse b = b := by
  cases a <;> cases b <;> simp_all [Resolution.orElse, Resolution.isFound]

theorem isFound_iff (r : Resolution) : r.isFound = true ↔ ∃ e ps, r = .found e ps := by
  cases r <;> simp [Resolution.isFound]

theorem scanEntries_notFound_iff (m : String) (ps : Params) (es : List RouteEntry) :
    scanEntries m ps es = .notFound ↔ es = [] := by
  cases es with
  | nil => simp [scanEntries]
  | cons e es =>
    simp only [scanEntries]
    split
    · simp
    · cases scanEntries m ps es <;> simp [Resolution.orElse]

theorem scanEntries_found (m : String) (ps : Params) (es : List RouteEntry) (e : RouteEntry)
    (qs : Params) (h : scanEntries m ps es = .found e qs) :
    e ∈ es ∧ e.methods.accepts m = true ∧ qs = ps := by
  induction es with
  | nil => simp [scanEntries] at h
  | cons x xs ih =>
    simp only [scanEntries] at h
    split at h
    · next hx =>
      cases h
      exact ⟨by simp, hx, rfl⟩
    · have h2 : scanEntries m ps xs = .found e qs := by
        cases hs : scanEntries m ps xs <;> simp [hs, Resolution.orElse] at h ⊢
        exact h
      obtain ⟨h3, h4, h5⟩ := ih h2
      exact ⟨by simp [h3], h4, h5⟩

theorem scanEntries_isFound (m : String) (ps : Params) (es : List RouteEntry) (e : RouteEntry)
    (he : e ∈ es) (ha : e.methods.accepts m = true) : (scanEntries m ps es).isFound = true := by
  induction es with
  | nil => simp at he
  | cons x xs ih =>
    simp only [scanEntries]
    split
    · rfl
    · next hx =>
      have hne : e ≠ x := fun h => hx (h ▸ ha)
      have he2 : e ∈ xs := by
        rcases List.mem_cons.mp he with h | h
        · exact absurd h hne
        · exact h
      rw [orElse_isFound, ih he2]
      simp

theorem tryPatterns_notFound_iff (seg : String) (visit : RouteNode → Params → Resolution)
    (l : List (List Part × RouteNode)) :
    tryPatterns seg visit l = .notFound ↔
      ∀ ps c, (ps, c) ∈ l → ∀ bs, matchParts ps seg.data = some bs → visit c bs = .notFound := by
  induction l with
  | nil => simp [tryPatterns]
  | cons x xs ih =>
    obtain ⟨qs, d⟩ := x
    simp only [tryPatterns]
    cases hm : matchParts qs seg.data with
    | none =>
      simp only [ih]
      constructor
      · intro h ps c hmem bs hb
        rcases List.mem_cons.mp hmem with h1 | h1
        · cases h1
          rw [hm] at hb
          cases hb
        · exact h ps c h1 bs hb
      · intro h ps c hmem bs hb
        exact h ps c (List.mem_cons_of_mem _ hmem) bs hb
    | some b =>
      simp only [orElse_notFound_iff, ih]
      constructor
      · rintro ⟨h0, h⟩ ps c hmem bs hb
        rcases List.mem_cons.mp hmem with h1 | h1
        · cases h1
          rw [hm] at hb
          cases hb
          exact h0
        · exact h ps c h1 bs hb
      · intro h
        exact ⟨h qs d (by simp) b hm, fun ps c hmem bs hb => h ps c (List.mem_cons_of_mem _ hmem) bs hb⟩

theorem tryPatterns_found (seg : String) (visit : RouteNode → Params → Resolution)
    (l : List (List Part × RouteNode)) (e : RouteEntry) (r : Params)
    (h : tryPatterns seg visit l = .found e r) :
    ∃ ps c bs, (ps, c) ∈ l ∧ matchParts ps seg.data = some bs ∧ visit c bs = .found e r := by
  induction l with
  | nil => simp [tryPatterns] at h
  | cons x xs ih =>
    obtain ⟨qs, d⟩ := x
    simp only [tryPatterns] at h
    cases hm : matchParts qs seg.data with
    | none =>
      rw [hm] at h
      obtain ⟨ps, c, bs, h1, h2, h3⟩ := ih h
      exact ⟨ps, c, bs, List.mem_cons_of_mem _ h1, h2, h3⟩
    | some b =>
      rw [hm] at h
      rcases (orElse_found_iff _ _ _ _).mp h with h1 | ⟨_, h1⟩
      · exact ⟨qs, d, b, by simp, hm, h1⟩
      · obtain ⟨ps, c, bs, h2, h3, h4⟩ := ih h1
        exact ⟨ps, c, bs, List.mem_cons_of_mem _ h2, h3, h4⟩

theorem tryPatterns_isFound (seg : String) (visit : RouteNode → Params → Resolution)
    (l : List (List Part × RouteNode)) (ps : List Part) (c : RouteNode) (bs : Params)
    (hmem : (ps, c) ∈ l) (hm : matchParts ps seg.data = some bs)
    (hv : (visit c bs).isFound = true) : (tryPatterns seg visit l).isFound = true := by
  induction l with
  | nil => simp at hmem
  | cons x xs ih =>
    obtain ⟨qs, d⟩ := x
    simp only [tryPatterns]
    rcases List.mem_cons.mp hmem with h1 | h1
    · cases h1
      rw [hm, orElse_isFound, hv]
      rfl
    · cases hq : matchParts qs seg.data with
      | none => exact ih h1
      | some b =>
        simp only [orElse_isFound, ih h1]
        simp

theorem matchNode_nil (m : String) (n : RouteNode) (acc : Params) :
    n.matchNode m [] acc = scanEntries m acc n.entries := by
  simp [RouteNode.matchNode]

theorem matchNode_cons (m seg : String) (rest : List String) (n : RouteNode) (acc : Params) :
    n.matchNode m (seg :: rest) acc =
      ((match findChild seg n.literals with
        | some c => c.matchNode m rest acc
        | none => Resolution.notFound).orElse
        (tryPatterns seg (fun c bs => c.matchNode m rest (acc ++ bs)) n.patterns)).orElse
        (match n.wildcard with
         | some w => scanEntries m (acc ++ [(splatKey, joinSlash (seg :: rest))]) w.entries
         | none => Resolution.notFound) := by
  simp [RouteNode.matchNode]

theorem matchSegments_nil_right (p : List Segment) (bs : Params)
    (h : matchSegments p [] = some bs) : p = [] ∧ bs = [] := by
  cases p with
  | nil => simp [matchSegments] at h; exact ⟨rfl, h⟩
  | cons s ss => simp [matchSegments] at h

theorem matchSegments_literal (t seg : String) (ss : List Segment) (rest : List String) :
    matchSegments (.literal t :: ss) (seg :: rest) =
      if seg = t then matchSegments ss rest else none := by
  simp only [matchSegments, Segment.matchSeg]
  split <;> simp_all

theorem matchSegments_pattern (ps : List Part) (seg : String) (ss : List Segment)
    (rest : List String) :
    matchSegments (.pattern ps :: ss) (seg :: rest) =
      match matchParts ps seg.data with
      | none => none
      | some bs => (matchSegments ss rest).map (fun more => bs ++ more) := by
  simp only [matchSegments, Segment.matchSeg]

theorem matchSegments_wildcard (seg : String) (ss : List Segment) (rest : List String) :
    matchSegments (.wildcard :: ss) (seg :: rest) = some [(splatKey, joinSlash (seg :: rest))] := by
  simp only [matchSegments]

theorem matchNode_notFound_iff (m : String) (segs : List String) :
    ∀ (n : RouteNode) (acc : Params),
      n.matchNode m segs acc = .notFound ↔
        ∀ p e, RouteNode.Holds n p e → matchSegments p segs = none := by
  induction segs with
  | nil =>
    intro n acc
    rw [matchNode_nil, scanEntries_notFound_iff]
    constructor
    · intro h p e hh
      cases hh with
      | here he => rw [h] at he; simp at he
      | lit _ _ => simp [matchSegments]
      | pat _ _ => simp [matchSegments]
      | wild _ _ => simp [matchSegments]
    · intro h
      cases hes : n.entries with
      | nil => rfl
      | cons e es =>
        have := h [] e (.here (by rw [hes]; simp))
        simp [matchSegments] at this
  | cons seg rest ih =>
    intro n acc
    rw [matchNode_cons, orElse_notFound_iff, orElse_notFound_iff, tryPatterns_notFound_iff]
    constructor
    · rintro ⟨⟨hA, hB⟩, hC⟩ p e hh
      cases hh with
      | here he => simp [matchSegments]
      | @lit _ c t p2 _ hf hc =>
        rw [matchSegments_literal]
        split
        · next hst =>
          subst hst
          rw [hf] at hA
          exact (ih c acc).mp hA p2 e hc
        · rfl
      | @pat _ c ps p2 _ hmem hc =>
        rw [matchSegments_pattern]
        cases hm : matchParts ps seg.data with
        | none => rfl
        | some bs =>
          have := (ih c (acc ++ bs)).mp (hB ps c hmem bs hm) p2 e hc
          simp [this]
      | @wild _ w _ hw he =>
        rw [hw] at hC
        rw [(scanEntries_notFound_iff _ _ _).mp hC] at he
        simp at he
    · intro h
      refine ⟨⟨?_, ?_⟩, ?_⟩
      · cases hf : findChild seg n.literals with
        | none => rfl
        | some c =>
          refine (ih c acc).mpr (fun p e hc => ?_)
          have := h (.literal seg :: p) e (.lit hf hc)
          rw [matchSegments_literal] at this
          simpa using this
      · intro ps c hmem bs hm
        refine (ih c (acc ++ bs)).mpr (fun p e hc => ?_)
        have := h (.pattern ps :: p) e (.pat hmem hc)
        rw [matchSegments_pattern, hm] at this
        simpa using this
      · cases hw : n.wildcard with
        | none => rfl
        | some w =>
          rw [scanEntries_notFound_iff]
          cases hes : w.entries with
          | nil => rfl
          | cons e es =>
            have := h [.wildcard] e (.wild hw (by rw [hes]; simp))
            simp [matchSegments] at this

theorem matchNode_found_sound (m : String) (segs : List String) :
    ∀ (n : RouteNode) (acc : Params) (e : RouteEntry) (ps : Params),
      n.matchNode m segs acc = .found e ps →
        ∃ p bs, RouteNode.Holds n p e ∧ matchSegments p segs = some bs ∧ ps = acc ++ bs ∧
          e.methods.accepts m = true := by
  induction segs with
  | nil =>
    intro n acc e ps h
    rw [matchNode_nil] at h
    obtain ⟨h1, h2, h3⟩ := scanEntries_found _ _ _ _ _ h
    exact ⟨[], [], .here h1, by simp [matchSegments], by simp [h3], h2⟩
  | cons seg rest ih =>
    intro n acc e ps h
    rw [matchNode_cons] at h
    rcases (orElse_found_iff _ _ _ _).mp h with h1 | ⟨_, h1⟩
    · rcases (orElse_found_iff _ _ _ _).mp h1 with h2 | ⟨_, h2⟩
      · cases hf : findChild seg n.literals with
        | none => rw [hf] at h2; cases h2
        | some c =>
          rw [hf] at h2
          obtain ⟨p, bs, hh, hm, hp, ha⟩ := ih c acc e ps h2
          refine ⟨.literal seg :: p, bs, .lit hf hh, ?_, hp, ha⟩
          rw [matchSegments_literal]
          simp [hm]
      · obtain ⟨qs, c, b, hmem, hq, hv⟩ := tryPatterns_found _ _ _ _ _ h2
        obtain ⟨p, bs, hh, hm, hp, ha⟩ := ih c (acc ++ b) e ps hv
        refine ⟨.pattern qs :: p, b ++ bs, .pat hmem hh, ?_, ?_, ha⟩
        · rw [matchSegments_pattern, hq]
          simp [hm]
        · simp [hp]
    · cases hw : n.wildcard with
      | none => rw [hw] at h1; cases h1
      | some w =>
        rw [hw] at h1
        obtain ⟨h2, h3, h4⟩ := scanEntries_found _ _ _ _ _ h1
        exact ⟨[.wildcard], _, .wild hw h2, matchSegments_wildcard _ _ _, h4, h3⟩

theorem matchNode_found_complete (m : String) (segs : List String) :
    ∀ (n : RouteNode) (acc : Params) (p : List Segment) (e : RouteEntry) (bs : Params),
      RouteNode.Holds n p e → matchSegments p segs = some bs → e.methods.accepts m = true →
        (n.matchNode m segs acc).isFound = true := by
  induction segs with
  | nil =>
    intro n acc p e bs hh hm ha
    rw [matchNode_nil]
    obtain ⟨hp, _⟩ := matchSegments_nil_right p bs hm
    subst hp
    cases hh with
    | here he => exact scanEntries_isFound _ _ _ e he ha
  | cons seg rest ih =>
    intro n acc p e bs hh hm ha
    rw [matchNode_cons, orElse_isFound, orElse_isFound]
    cases hh with
    | here he => simp [matchSegments] at hm
    | @lit _ c t p2 _ hf hc =>
      rw [matchSegments_literal] at hm
      split at hm
      · next hst =>
        subst hst
        rw [hf, ih c acc p2 e bs hc hm ha]
        rfl
      · cases hm
    | @pat _ c ps p2 _ hmem hc =>
      rw [matchSegments_pattern] at hm
      cases hq : matchParts ps seg.data with
      | none => rw [hq] at hm; cases hm
      | some b =>
        rw [hq] at hm
        cases hr : matchSegments p2 rest with
        | none => rw [hr] at hm; cases hm
        | some more =>
          have := tryPatterns_isFound seg (fun c bs => c.matchNode m rest (acc ++ bs)) n.patterns
            ps c b hmem hq (ih c (acc ++ b) p2 e more hc hr ha)
          rw [this]
          simp
    | @wild _ w _ hw he =>
      rw [hw, scanEntries_isFound _ _ _ e he ha]
      simp

/-! ## Insertion into the route tree -/

theorem holds_empty (p : List Segment) (e : RouteEntry) : ¬ RouteNode.Holds RouteNode.empty p e := by
  intro h
  cases h with
  | here he => simp [RouteNode.empty, RouteNode.entries] at he
  | lit hf _ => simp [RouteNode.empty, RouteNode.literals, findChild] at hf
  | pat hm _ => simp [RouteNode.empty, RouteNode.patterns] at hm
  | wild hw _ => simp [RouteNode.empty, RouteNode.wildcard] at hw

theorem findChild_upsert_same {κ : Type} [DecidableEq κ] (key : κ) (f : RouteNode → RouteNode)
    (l : List (κ × RouteNode)) :
    findChild key (upsertChild key f l) = some (f ((findChild key l).getD RouteNode.empty)) := by
  induction l with
  | nil => simp [upsertChild, findChild]
  | cons x xs ih =>
    obtain ⟨k, c⟩ := x
    by_cases hk : k = key
    · simp [upsertChild, findChild, hk]
    · simp [upsertChild, findChild, hk, ih]

theorem findChild_upsert_other {κ : Type} [DecidableEq κ] (key k : κ) (f : RouteNode → RouteNode)
    (l : List (κ × RouteNode)) (hk : k ≠ key) :
    findChild k (upsertChild key f l) = findChild k l := by
  induction l with
  | nil => simp [upsertChild, findChild, Ne.symm hk]
  | cons x xs ih =>
    obtain ⟨k2, c⟩ := x
    by_cases h2 : k2 = key
    · subst h2
      simp [upsertChild, findChild, Ne.symm hk]
    · by_cases h3 : k2 = k
      · subst h3
        simp [upsertChild, findChild, h2]
      · simp [upsertChild, findChild, h2, h3, ih]

theorem mem_upsert_inv {κ : Type} [DecidableEq κ] (key k : κ) (f : RouteNode → RouteNode)
    (l : List (κ × RouteNode)) (c : RouteNode) (h : (k, c) ∈ upsertChild key f l) :
    (k, c) ∈ l ∨ (k = key ∧ ∃ c0, c = f c0 ∧ ((key, c0) ∈ l ∨ c0 = RouteNode.empty)) := by
  induction l with
  | nil =>
    simp only [upsertChild, List.mem_singleton, Prod.mk.injEq] at h
    exact .inr ⟨h.1, RouteNode.empty, h.2, .inr rfl⟩
  | cons x xs ih =>
    obtain ⟨k2, c2⟩ := x
    by_cases h2 : k2 = key
    · subst h2
      simp only [upsertChild, if_true, List.mem_cons, Prod.mk.injEq] at h
      rcases h with ⟨h3, h4⟩ | h
      · exact .inr ⟨h3, c2, h4, .inl (by simp)⟩
      · exact .inl (List.mem_cons_of_mem _ h)
    · simp only [upsertChild, h2, if_false, List.mem_cons, Prod.mk.injEq] at h
      rcases h with ⟨h3, h4⟩ | h
      · exact .inl (by simp [h3, h4])
      · rcases ih h with h5 | ⟨h5, c0, h6, h7⟩
        · exact .inl (List.mem_cons_of_mem _ h5)
        · refine .inr ⟨h5, c0, h6, ?_⟩
          rcases h7 with h7 | h7
          · exact .inl (List.mem_cons_of_mem _ h7)
          · exact .inr h7

theorem mem_upsert_mono {κ : Type} [DecidableEq κ] (key k : κ) (f : RouteNode → RouteNode)
    (l : List (κ × RouteNode)) (c : RouteNode) (h : (k, c) ∈ l) :
    (k, c) ∈ upsertChild key f l ∨ (k = key ∧ (key, f c) ∈ upsertChild key f l) := by
  induction l with
  | nil => simp at h
  | cons x xs ih =>
    obtain ⟨k2, c2⟩ := x
    by_cases h2 : k2 = key
    · subst h2
      simp only [upsertChild, if_true, List.mem_cons, Prod.mk.injEq]
      rcases List.mem_cons.mp h with h3 | h3
      · cases h3
        exact .inr ⟨rfl, by simp⟩
      · exact .inl (.inr h3)
    · simp only [upsertChild, h2, if_false, List.mem_cons, Prod.mk.injEq]
      rcases List.mem_cons.mp h with h3 | h3
      · cases h3
        exact .inl (by simp)
      · rcases ih h3 with h4 | ⟨h4, h5⟩
        · exact .inl (.inr h4)
        · exact .inr ⟨h4, .inr h5⟩

theorem mem_upsert_new {κ : Type} [DecidableEq κ] (key : κ) (f : RouteNode → RouteNode)
    (l : List (κ × RouteNode)) : ∃ c0, (key, f c0) ∈ upsertChild key f l := by
  induction l with
  | nil => exact ⟨RouteNode.empty, by simp [upsertChild]⟩
  | cons x xs ih =>
    obtain ⟨k2, c2⟩ := x
    by_cases h2 : k2 = key
    · subst h2
      exact ⟨c2, by simp [upsertChild]⟩
    · obtain ⟨c0, h⟩ := ih
      exact ⟨c0, by simp [upsertChild, h2, h]⟩

theorem wildcardLast_tail (s : Segment) (ss : List Segment) (h : wildcardLast (s :: ss) = true) :
    wildcardLast ss = true := by
  cases ss with
  | nil => rfl
  | cons t ts =>
    simp only [wildcardLast, Bool.and_eq_true] at h
    exact h.2

theorem wildcardLast_wildcard (ss : List Segment) (h : wildcardLast (.wildcard :: ss) = true) :
    ss = [] := by
  cases ss with
  | nil => rfl
  | cons t ts => simp [wildcardLast] at h

theorem insert_holds_new (p : List Segment) (e : RouteEntry) :
    ∀ n : RouteNode, wildcardLast p = true → RouteNode.Holds (RouteNode.insert p e n) p e := by
  induction p with
  | nil =>
    intro n _
    cases n with
    | mk l ps w es => exact .here (by simp [RouteNode.insert, RouteNode.addEntry, RouteNode.entries])
  | cons s ss ih =>
    intro n hw
    have hw2 := wildcardLast_tail s ss hw
    cases n with
    | mk l ps w es =>
      cases s with
      | literal t =>
        simp only [RouteNode.insert]
        refine .lit ?_ (ih ((findChild t l).getD RouteNode.empty) hw2)
        simp [RouteNode.literals, findChild_upsert_same]
      | pattern qs =>
        simp only [RouteNode.insert]
        obtain ⟨c0, hc0⟩ := mem_upsert_new qs (fun c => RouteNode.insert ss e c) ps
        exact .pat (by simpa [RouteNode.patterns] using hc0) (ih c0 hw2)
      | wildcard =>
        rw [wildcardLast_wildcard ss hw]
        simp only [RouteNode.insert]
        refine .wild rfl ?_
        cases (w.getD RouteNode.empty) with
        | mk l2 p2 w2 es2 => simp [RouteNode.addEntry, RouteNode.entries]

theorem insert_holds_mono (p : List Segment) (e : RouteEntry) :
    ∀ (n : RouteNode) (q : List Segment) (x : RouteEntry),
      RouteNode.Holds n q x → RouteNode.Holds (RouteNode.insert p e n) q x := by
  induction p with
  | nil =>
    intro n q x h
    cases n with
    | mk l ps w es =>
      cases h with
      | here he =>
        exact .here (by
          simp only [RouteNode.entries] at he
          simp [RouteNode.insert, RouteNode.addEntry, RouteNode.entries, he])
      | lit hf hc => exact .lit hf hc
      | pat hm hc => exact .pat hm hc
      | wild hw he => exact .wild hw he
  | cons s ss ih =>
    intro n q x h
    cases n with
    | mk l ps w es =>
      cases s with
      | literal t =>
        simp only [RouteNode.insert]
        cases h with
        | here he => exact .here he
        | @lit _ c t2 q2 _ hf hc =>
          simp only [RouteNode.literals] at hf
          by_cases ht : t2 = t
          · subst ht
            refine .lit (c := RouteNode.insert ss e c) ?_ (ih c q2 x hc)
            simp [RouteNode.literals, findChild_upsert_same, hf]
          · refine .lit (c := c) ?_ hc
            simp only [RouteNode.literals]
            rw [findChild_upsert_other _ _ _ _ ht]
            exact hf
        | pat hm hc => exact .pat hm hc
        | wild hw he => exact .wild hw he
      | pattern qs =>
        simp only [RouteNode.insert]
        cases h with
        | here he => exact .here he
        | lit hf hc => exact .lit hf hc
        | @pat _ c qs2 q2 _ hm hc =>
          simp only [RouteNode.patterns] at hm
          rcases mem_upsert_mono qs qs2 (fun c => RouteNode.insert ss e c) ps c hm with h1 | ⟨h1, h2⟩
          · exact .pat (by simpa [RouteNode.patterns] using h1) hc
          · subst h1
            exact .pat (by simpa [RouteNode.patterns] using h2) (ih c q2 x hc)
        | wild hw he => exact .wild hw he
      | wildcard =>
        simp only [RouteNode.insert]
        cases h with
        | here he => exact .here he
        | lit hf hc => exact .lit hf hc
        | pat hm hc => exact .pat hm hc
        | @wild _ w2 _ hw he =>
          simp only [RouteNode.wildcard] at hw
          subst hw
          refine .wild rfl ?_
          cases w2 with
          | mk l2 p2 w3 es2 =>
            simp only [RouteNode.entries] at he
            simp [RouteNode.addEntry, RouteNode.entries, he]

theorem insert_holds_inv (p : List Segment) (e : RouteEntry) :
    ∀ (n : RouteNode) (q : List Segment) (x : RouteEntry), wildcardLast p = true →
      RouteNode.Holds (RouteNode.insert p e n) q x → RouteNode.Holds n q x ∨ (q = p ∧ x = e) := by
  induction p with
  | nil =>
    intro n q x _ h
    cases n with
    | mk l ps w es =>
      cases h with
      | here he =>
        simp only [RouteNode.insert, RouteNode.addEntry, RouteNode.entries, List.mem_append,
          List.mem_singleton] at he
        rcases he with he | he
        · exact .inl (.here he)
        · exact .inr ⟨rfl, he⟩
      | lit hf hc => exact .inl (.lit hf hc)
      | pat hm hc => exact .inl (.pat hm hc)
      | wild hw he => exact .inl (.wild hw he)
  | cons s ss ih =>
    intro n q x hwl h
    have hw2 := wildcardLast_tail s ss hwl
    cases n with
    | mk l ps w es =>
      cases s with
      | literal t =>
        simp only [RouteNode.insert] at h
        cases h with
        | here he => exact .inl (.here he)
        | @lit _ c t2 q2 _ hf hc =>
          simp only [RouteNode.literals] at hf
          by_cases ht : t2 = t
          · subst ht
            rw [findChild_upsert_same] at hf
            cases hf
            rcases ih _ q2 x hw2 hc with h1 | ⟨h1, h2⟩
            · cases hfc : findChild t2 l with
              | none =>
                rw [hfc] at h1
                exact absurd h1 (holds_empty _ _)
              | some c0 =>
                rw [hfc] at h1
                exact .inl (.lit (by simpa [RouteNode.literals] using hfc) h1)
            · exact .inr ⟨by rw [h1], h2⟩
          · rw [findChild_upsert_other _ _ _ _ ht] at hf
            exact .inl (.lit (by simpa [RouteNode.literals] using hf) hc)
        | pat hm hc => exact .inl (.pat hm hc)
        | wild hw he => exact .inl (.wild hw he)
      | pattern qs =>
        simp only [RouteNode.insert] at h
        cases h with
        | here he => exact .inl (.here he)
        | lit hf hc => exact .inl (.lit hf hc)
        | @pat _ c qs2 q2 _ hm hc =>
          simp only [RouteNode.patterns] at hm
          rcases mem_upsert_inv qs qs2 _ ps c hm with h1 | ⟨h1, c0, h2, h3⟩
          · exact .inl (.pat (by simpa [RouteNode.patterns] using h1) hc)
          · subst h1
            subst h2
            rcases ih c0 q2 x hw2 hc with h4 | ⟨h4, h5⟩
            · rcases h3 with h3 | h3
              · exact .inl (.pat (by simpa [RouteNode.patterns] using h3) h4)
              · subst h3
                exact absurd h4 (holds_empty _ _)
            · exact .inr ⟨by rw [h4], h5⟩
        | wild hw he => exact .inl (.wild hw he)
      | wildcard =>
        have hss := wildcardLast_wildcard ss hwl
        subst hss
        simp only [RouteNode.insert] at h
        cases h with
        | here he => exact .inl (.here he)
        | lit hf hc => exact .inl (.lit hf hc)
        | pat hm hc => exact .inl (.pat hm hc)
        | @wild _ w2 _ hw he =>
          simp only [RouteNode.wildcard, Option.some.injEq] at hw
          subst hw
          cases w with
          | none =>
            simp [RouteNode.empty, RouteNode.addEntry, RouteNode.entries] at he
            exact .inr ⟨rfl, he⟩
          | some w0 =>
            cases w0 with
            | mk l2 p2 w3 es2 =>
              simp only [Option.getD, RouteNode.addEntry, RouteNode.entries, List.mem_append,
                List.mem_singleton] at he
              rcases he with he | he
              · exact .inl (.wild rfl (by simpa [RouteNode.entries] using he))
              · exact .inr ⟨rfl, he⟩

/-! ## Invariants of built registers -/

theorem compile_ok (text : String) (p : RoutePattern) (h : PatternCompiler.compile text = .ok p) :
    p.text = text ∧ wildcardLast p.segments = true ∧ (segmentKeys p.segments).Nodup ∧
      compileSegments ((splitPath text).map String.data) = .ok p.segments := by
  unfold PatternCompiler.compile at h
  split at h
  · cases h
  · next segs hs =>
    split at h
    · cases h
    · next hw =>
      split at h
      · cases h
      · next hn =>
        cases h
        simp only [Bool.not_eq_true, Bool.not_eq_false', decide_eq_false_iff_not, not_not,
          Bool.not_eq_eq_eq_not, Bool.not_true] at hw hn
        exact ⟨rfl, by simpa using hw, by simpa using hn, hs⟩

theorem add_ok (r r2 : ControllerRegister) (pattern : String) (handler : HandlerId)
    (methods : List String) (so : Option Bool) (h : r.Add pattern handler methods so = .ok r2) :
    ∃ p ms, PatternCompiler.compile pattern = .ok p ∧ compileMethods methods = .ok ms ∧
      r2 = { r with tree := r.tree.insert p.segments ⟨p, ms, handler, so⟩,
                    entries := r.entries ++ [⟨p, ms, handler, so⟩] } := by
  unfold ControllerRegister.Add at h
  split at h
  · cases h
  · next p hp =>
    split at h
    · cases h
    · next ms hms =>
      cases h
      exact ⟨p, ms, hp, hms, rfl⟩

theorem insertFilter_ok (r r2 : ControllerRegister) (scope : String) (point : ExecPoint) (f : Context → Context)
    (opts : FilterOptions) (h : r.InsertFilter scope point f opts = .ok r2) :
    r2.tree = r.tree ∧ r2.entries = r.entries ∧
      ∃ p, PatternCompiler.compile scope = .ok p ∧
        r2.filters = r.filters ++ [⟨point, .pattern p, f, opts.returnOnOutput, opts.resetParams⟩] := by
  unfold ControllerRegister.InsertFilter at h
  split at h
  · cases h
  · next p hp =>
    cases h
    exact ⟨rfl, rfl, p, hp, rfl⟩

theorem built_holds_iff (reg : ControllerRegister) (hb : ControllerRegister.Built reg) :
    (∀ p e, RouteNode.Holds reg.tree p e ↔ (e ∈ reg.entries ∧ p = e.pattern.segments)) ∧
      (∀ e ∈ reg.entries, PatternCompiler.compile e.pattern.text = .ok e.pattern) := by
  induction hb with
  | empty =>
    refine ⟨fun p e => ⟨fun h => absurd h (holds_empty p e), fun h => ?_⟩, fun e he => ?_⟩
    · simp [NewControllerRegister] at h
    · simp [NewControllerRegister] at he
  | @Add r r2 pattern handler methods so _ hadd ih =>
    obtain ⟨p, ms, hp, _, hr2⟩ := add_ok r r2 pattern handler methods so hadd
    obtain ⟨htext, hwl, _, _⟩ := compile_ok pattern p hp
    subst hr2
    refine ⟨fun q x => ⟨fun h => ?_, fun h => ?_⟩, fun x hx => ?_⟩
    · rcases insert_holds_inv _ _ _ q x hwl h with h1 | ⟨h1, h2⟩
      · obtain ⟨h3, h4⟩ := (ih.1 q x).mp h1
        exact ⟨by simp [h3], h4⟩
      · subst h2
        exact ⟨by simp, h1⟩
    · obtain ⟨h1, h2⟩ := h
      simp only [List.mem_append, List.mem_singleton] at h1
      rcases h1 with h1 | h1
      · exact insert_holds_mono _ _ _ q x ((ih.1 q x).mpr ⟨h1, h2⟩)
      · subst h1
        subst h2
        exact insert_holds_new _ _ _ hwl
    · simp only [List.mem_append, List.mem_singleton] at hx
      rcases hx with hx | hx
      · exact ih.2 x hx
      · subst hx
        simp only
        rw [htext]
        exact hp
  | @InsertFilter r r2 scope point f opts _ hins ih =>
    obtain ⟨h1, h2, _⟩ := insertFilter_ok r r2 scope point f opts hins
    rw [h1, h2]
    exact ih
  | insertFilterAll _ ih => exact ih

theorem resolve_notFound_iff (reg : ControllerRegister) (hb : ControllerRegister.Built reg) (m path : String) :
    reg.resolve m path = .notFound ↔ ∀ e ∈ reg.entries, e.pattern.matchPath path = none := by
  unfold ControllerRegister.resolve RouteNode.resolve
  rw [matchNode_notFound_iff]
  constructor
  · intro h e he
    exact h _ e (((built_holds_iff reg hb).1 _ e).mpr ⟨he, rfl⟩)
  · intro h p e hh
    obtain ⟨h1, h2⟩ := ((built_holds_iff reg hb).1 p e).mp hh
    subst h2
    exact h e h1

theorem resolve_found_sound (reg : ControllerRegister) (hb : ControllerRegister.Built reg) (m path : String)
    (e : RouteEntry) (ps : Params) (h : reg.resolve m path = .found e ps) :
    e ∈ reg.entries ∧ e.pattern.matchPath path = some ps ∧ e.methods.accepts m = true := by
  unfold ControllerRegister.resolve RouteNode.resolve at h
  obtain ⟨p, bs, h1, h2, h3, h4⟩ := matchNode_found_sound m _ _ _ _ _ h
  obtain ⟨h5, h6⟩ := ((built_holds_iff reg hb).1 p e).mp h1
  subst h6
  simp only [List.nil_append] at h3
  subst h3
  exact ⟨h5, h2, h4⟩

theorem resolve_found_complete (reg : ControllerRegister) (hb : ControllerRegister.Built reg) (m path : String)
    (e : RouteEntry) (bs : Params) (he : e ∈ reg.entries)
    (hm : e.pattern.matchPath path = some bs) (ha : e.methods.accepts m = true) :
    (reg.resolve m path).isFound = true := by
  unfold ControllerRegister.resolve RouteNode.resolve
  exact matchNode_found_complete m _ _ _ _ e bs
    (((built_holds_iff reg hb).1 _ e).mpr ⟨he, rfl⟩) hm ha

theorem resolve_methodNotAllowed_iff (reg : ControllerRegister) (hb : ControllerRegister.Built reg) (m path : String) :
    reg.resolve m path = .methodNotAllowed ↔
      (∃ e ∈ reg.entries, e.pattern.matchPath path ≠ none) ∧
        ∀ e ∈ reg.entries, e.pattern.matchPath path ≠ none → e.methods.accepts m = false := by
  constructor
  · intro h
    constructor
    · by_contra hne
      push_neg at hne
      have := (resolve_notFound_iff reg hb m path).mpr hne
      rw [h] at this
      cases this
    · intro e he hm
      cases hmm : e.pattern.matchPath path with
      | none => exact absurd hmm hm
      | some bs =>
        by_contra ha
        have hf := resolve_found_complete reg hb m path e bs he hmm (by simpa using ha)
        rw [h] at hf
        cases hf
  · rintro ⟨⟨e, he, hm⟩, hall⟩
    cases hr : reg.resolve m path with
    | found x ps =>
      obtain ⟨h1, h2, h3⟩ := resolve_found_sound reg hb m path x ps hr
      have := hall x h1 (by simp [h2])
      rw [h3] at this
      cases this
    | notFound =>
      exact absurd ((resolve_notFound_iff reg hb m path).mp hr e he) hm
    | methodNotAllowed => rfl

/-! ## Named segments -/

theorem char_toNat_inj (c d : Char) (h : c.toNat = d.toNat) : c = d := by
  apply Char.ext
  cases c with | mk cv cp => cases d with | mk dv dp =>
  cases cv with | mk cf => cases dv with | mk df =>
  simp only [Char.toNat, UInt32.toNat] at h
  exact congrArg UInt32.mk (BitVec.eq_of_toNat_eq h)

theorem starLoop_isEmpty (ok : Char → Bool) (s : List Char) :
    starLoop ok (fun t => t.isEmpty) s = s.all ok := by
  induction s with
  | nil => rfl
  | cons c cs ih => simp [starLoop, ih]

theorem matchChars_nil : Regex.matchChars [] = fun s => s.isEmpty := by
  funext s
  simp [Regex.matchChars]

theorem matchChars_plus (k : CharClass) (s : List Char) :
    Regex.matchChars [⟨k, .plus⟩] s = (!s.isEmpty && s.all k.accepts) := by
  cases s with
  | nil => simp [Regex.matchChars]
  | cons c cs =>
    simp only [Regex.matchChars, matchChars_nil, starLoop_isEmpty]
    simp

theorem except_map_ok {ε α β : Type} (f : α → β) (x : Except ε α) (b : β)
    (h : x.map f = .ok b) : ∃ a, x = .ok a ∧ f a = b := by
  cases x with
  | error e => simp [Except.map] at h
  | ok a => exact ⟨a, rfl, by simpa [Except.map] using h⟩

theorem parseParts_nil (fuel : Nat) (s : List Char) (h : parseParts fuel s = .ok []) : s = [] := by
  cases s with
  | nil => rfl
  | cons c rest =>
    cases fuel with
    | zero => simp [parseParts] at h
    | succ fuel =>
      simp only [parseParts] at h
      split at h
      · split at h
        · cases h
        · split at h
          · split at h
            · cases h
            · split at h
              · cases h
              · obtain ⟨a, _, ha⟩ := except_map_ok _ _ _ h
                cases ha
          · obtain ⟨a, _, ha⟩ := except_map_ok _ _ _ h
            cases ha
      · split at h
        · cases h
        · obtain ⟨a, _, ha⟩ := except_map_ok _ _ _ h
          cases ha

theorem routeOk_add :
    NewControllerRegister.Add "/person/:last/:first" getParamsId ["get"] none = .ok routeOkRegister := by
  rfl

theorem routeOk_built : ControllerRegister.Built routeOkRegister := .Add .empty routeOk_add

theorem startsWith_spec (p s : List Char) (h : startsWith p s = true) :
    s = p ++ s.drop p.length := by
  induction p generalizing s with
  | nil => simp
  | cons a as ih =>
    cases s with
    | nil => simp [startsWith] at h
    | cons b bs =>
      simp only [startsWith, Bool.and_eq_true, decide_eq_true_eq] at h
      obtain ⟨h1, h2⟩ := h
      subst h1
      simpa using ih bs h2

theorem splitGroup_spec (d : Nat) (r acc : List Char) :
    ∀ (expr r2 : List Char), splitGroup d r acc = some (expr, r2) →
      acc.reverse ++ r = expr ++ ')' :: r2 := by
  induction d, r, acc using splitGroup.induct with
  | case1 d acc => intro expr r2 h; simp [splitGroup] at h
  | case2 d c rest acc ih =>
    intro expr r2 h
    rw [splitGroup] at h
    simpa using ih expr r2 h
  | case3 d rest acc ih =>
    intro expr r2 h
    rw [splitGroup] at h
    simpa using ih expr r2 h
  | case4 rest acc =>
    intro expr r2 h
    rw [splitGroup] at h
    simp only [Option.some.injEq, Prod.mk.injEq] at h
    rw [← h.1, ← h.2]
  | case5 d rest acc ih =>
    intro expr r2 h
    rw [splitGroup] at h
    simpa using ih expr r2 h
  | case6 d c rest acc h1 h2 h3 h4 ih =>
    intro expr r2 h
    rw [splitGroup] at h
    · simpa using ih expr r2 h
    all_goals assumption

theorem typedSuffix_spec (after : List Char) :
    (typedSuffix after).1.suffix.data ++ (typedSuffix after).2 = after := by
  unfold typedSuffix
  simp only
  split
  · next h =>
    simp only [Bool.and_eq_true] at h
    have := startsWith_spec _ _ h.1
    simpa [CaptureKind.suffix] using this.symm
  · split
    · next h =>
      simp only [Bool.and_eq_true] at h
      have := startsWith_spec _ _ h.1
      simpa [CaptureKind.suffix] using this.symm
    · simp [CaptureKind.suffix]

theorem parseParts_render (fuel : Nat) :
    ∀ (s : List Char) (parts : List Part), parseParts fuel s = .ok parts →
      (renderParts captureSource parts).data = s := by
  induction fuel with
  | zero =>
    intro s parts h
    cases s with
    | nil =>
      simp only [parseParts, Except.ok.injEq] at h
      subst h
      rfl
    | cons c cs => simp [parseParts] at h
  | succ fuel ih =>
    intro s parts h
    cases s with
    | nil =>
      simp only [parseParts, Except.ok.injEq] at h
      subst h
      rfl
    | cons c rest =>
      simp only [parseParts] at h
      split at h
      · next hc =>
        subst hc
        have htd := List.takeWhile_append_dropWhile isNameChar rest
        split at h
        · cases h
        · split at h
          · next r hafter =>
            split at h
            · cases h
            · next expr r2 hsg =>
              split at h
              · cases h
              · obtain ⟨ps, h1, h2⟩ := except_map_ok _ _ _ h
                subst h2
                have h3 := ih r2 ps h1
                have h4 := splitGroup_spec 0 r [] expr r2 hsg
                simp only [List.reverse_nil, List.nil_append] at h4
                rw [hafter, h4] at htd
                generalize List.takeWhile isNameChar rest = name at htd
                subst htd
                simp [renderParts, captureSource, paramKey, CaptureKind.suffix, String.data_append,
                  h3]
          · obtain ⟨ps, h1, h2⟩ := except_map_ok _ _ _ h
            subst h2
            have h3 := ih _ ps h1
            have h4 := typedSuffix_spec (List.dropWhile isNameChar rest)
            generalize typedSuffix (List.dropWhile isNameChar rest) = ts at h3 h4
            rw [← h4] at htd
            generalize List.takeWhile isNameChar rest = name at htd
            subst htd
            simp [renderParts, captureSource, paramKey, String.data_append, h3]
      · split at h
        · cases h
        · obtain ⟨ps, h1, h2⟩ := except_map_ok _ _ _ h
          subst h2
          have h3 := ih _ ps h1
          have htd := List.takeWhile_append_dropWhile (fun x => x != ':' && x != '*') (c :: rest)
          generalize List.dropWhile (fun x => x != ':' && x != '*') (c :: rest) = after at h3 htd
          generalize List.takeWhile (fun x => x != ':' && x != '*') (c :: rest) = text at htd
          rw [← htd]
          simp [renderParts, String.data_append, h3]

theorem compileSegment_render (s : List Char) (seg : Segment) (h : compileSegment s = .ok seg) :
    (seg.render captureSource).data = s := by
  unfold compileSegment at h
  split at h
  · next hs =>
    cases h
    rw [hs]
    rfl
  · split at h
    · cases h
    · next hp =>
      cases h
      exact (parseParts_nil _ _ hp).symm
    · next t hp =>
      cases h
      simpa [Segment.render, renderParts] using parseParts_render _ _ _ hp
    · next ps _ _ hp =>
      cases h
      simpa [Segment.render] using parseParts_render _ _ _ hp

theorem compileSegments_render (l : List (List Char)) :
    ∀ segs, compileSegments l = .ok segs →
      (segs.map (Segment.render captureSource)).map String.data = l := by
  induction l with
  | nil =>
    intro segs h
    simp only [compileSegments, Except.ok.injEq] at h
    subst h
    rfl
  | cons x xs ih =>
    intro segs h
    simp only [compileSegments] at h
    split at h
    · cases h
    · next sg hsg =>
      split at h
      · cases h
      · next sgs hsgs =>
        cases h
        simp [compileSegment_render x sg hsg, ih sgs hsgs]

theorem splitSlash_flatMap (cs : List Char) :
    (splitSlash cs).flatMap (fun s => '/' :: s) = '/' :: cs := by
  induction cs with
  | nil => rfl
  | cons c cs ih =>
    by_cases hc : c = '/'
    · subst hc
      rw [splitSlash_cons_slash]
      simp [ih]
    · obtain ⟨y, ys, h1, h2⟩ := splitSlash_cons_other c cs hc
      rw [h2]
      rw [h1] at ih
      simp only [List.flatMap_cons, List.cons_append, List.cons.injEq, true_and] at ih ⊢
      rw [ih]

theorem joinSlash_data (segs : List String) :
    '/' :: (joinSlash segs).data = if segs = [] then ['/'] else
      segs.flatMap (fun s => '/' :: s.data) := by
  induction segs with
  | nil => rfl
  | cons s ss ih =>
    cases ss with
    | nil => simp [joinSlash]
    | cons t ts =>
      simp only [joinSlash, String.data_append, List.append_assoc, reduceCtorEq, if_false,
        List.flatMap_cons, List.cons_append] at ih ⊢
      have ih2 := (List.cons.inj ih).2
      simp [ih2]

theorem flatMap_mk (l : List (List Char)) :
    (l.map String.mk).flatMap (fun s => '/' :: s.data) = l.flatMap (fun s => '/' :: s) := by
  induction l with
  | nil => rfl
  | cons x xs ih => simp [ih]

theorem render_source (text : String) (p : RoutePattern)
    (h : PatternCompiler.compile text = .ok p) : p.render captureSource = p.text := by
  obtain ⟨htext, _, _, hc⟩ := compile_ok text p h
  have hr := compileSegments_render _ _ hc
  have hsegs : p.segments.map (Segment.render captureSource) = splitPath text := by
    have := congrArg (List.map String.mk) hr
    simpa [List.map_map, Function.comp_def] using this
  have hflat := splitSlash_flatMap text.data
  unfold RoutePattern.render
  rw [hsegs, htext]
  apply String.ext
  cases htd : text.data with
  | nil =>
    have : splitPath text = [] := by simp [splitPath, htd, splitSlash]
    simp [startsWith, this, joinSlash]
  | cons c cs =>
    by_cases hcs : c = '/'
    · subst hcs
      have hsp : splitPath text = (splitSlash cs).map String.mk := by
        simp [splitPath, htd, splitSlash_cons_slash]
      rw [htd, splitSlash_cons_slash] at hflat
      simp only [List.flatMap_cons, List.cons_append, List.nil_append, List.cons.injEq,
        true_and] at hflat
      simp only [startsWith, decide_True, Bool.and_self, if_true, hsp, joinPath_data, flatMap_mk,
        hflat]
    · obtain ⟨y, ys, h1, h2⟩ := splitSlash_cons_other c cs hcs
      have hsp : splitPath text = ((c :: y) :: ys).map String.mk := by
        simp [splitPath, htd, h2]
      rw [htd, h2] at hflat
      have hj := joinSlash_data (((c :: y) :: ys).map String.mk)
      simp only [List.map_cons, reduceCtorEq, if_false] at hj
      rw [← List.map_cons, flatMap_mk, hflat] at hj
      have hsw : startsWith ['/'] (c :: cs) = false := by
        simp [startsWith, Ne.symm hcs]
      simp only [hsw, Bool.false_eq_true, if_false, hsp]
      exact List.cons.inj hj |>.2

/-! ## Reverse lookup -/

theorem getParam_isSome_iff (kvs : Params) (k : String) :
    (getParam kvs k).isSome = true ↔ k ∈ kvs.map Prod.fst := by
  induction kvs with
  | nil => simp [getParam]
  | cons x xs ih =>
    obtain ⟨k2, v2⟩ := x
    simp only [getParam, List.map_cons, List.mem_cons]
    split
    · next h => simp [h]
    · next h =>
      rw [ih]
      constructor
      · exact fun h2 => .inr h2
      · rintro (h2 | h2)
        · exact absurd h2.symm h
        · exact h2

theorem getParam_mem (kvs : Params) (k v : String) (h : getParam kvs k = some v) :
    (k, v) ∈ kvs := by
  induction kvs with
  | nil => simp [getParam] at h
  | cons x xs ih =>
    obtain ⟨k2, v2⟩ := x
    simp only [getParam] at h
    split at h
    · next hk =>
      cases h
      simp [hk]
    · exact List.mem_cons_of_mem _ (ih h)

theorem satisfiedBy_iff (e : RouteEntry) (kvs : Params) :
    e.satisfiedBy kvs = true ↔ ∀ k ∈ e.pattern.keys, k ∈ kvs.map Prod.fst := by
  simp only [RouteEntry.satisfiedBy, List.all_eq_true, getParam_isSome_iff]

theorem find_first {α : Type} (p : α → Bool) (before after : List α) (e : α)
    (hb : ∀ x ∈ before, p x = false) (he : p e = true) :
    (before ++ e :: after).find? p = some e := by
  induction before with
  | nil => simp [List.find?, he]
  | cons x xs ih =>
    have hx := hb x (by simp)
    simp only [List.cons_append, List.find?, hx]
    exact ih (fun y hy => hb y (by simp [hy]))

theorem built_add (r : ControllerRegister) (pattern : String) (handler : HandlerId) (methods : List String)
    (hb : ControllerRegister.Built r) (h : (r.Add pattern handler methods none).toBool = true) :
    ControllerRegister.Built (r.addRoute pattern handler methods) := by
  unfold ControllerRegister.addRoute
  cases hr : r.Add pattern handler methods none with
  | error e => simp [hr, Except.toBool] at h
  | ok r2 => exact .Add hb hr

theorem urlForRegister_built : ControllerRegister.Built urlForRegister :=
  built_add _ _ _ _ (built_add _ _ _ _ .empty (by rfl)) (by rfl)

theorem urlFor2Register_built : ControllerRegister.Built urlFor2Register :=
  built_add _ _ _ _ (built_add _ _ _ _ (built_add _ _ _ _ (built_add _ _ _ _ .empty (by rfl))
    (by rfl)) (by rfl)) (by rfl)

theorem prefixRegister_built : ControllerRegister.Built prefixRegister :=
  built_add _ _ _ _ .empty (by rfl)

/-- C2: `urlFor` selects the first-registered entry of the handler whose
declared parameters are all among the supplied keys and returns the pattern
text of that entry with every named capture (match expression or type suffix
included, also in composite segments) replaced by the value supplied for it;
`/person/:last/:first` gives `/person/xie/asta` and
`/v1/:v/cms_:id(.+)_:page(.+).html` gives `/v1/za/cms_12_123.html`. -/
theorem urlFor_first_satisfied (reg : ControllerRegister) (hb : ControllerRegister.Built reg) (id : HandlerId)
    (kvs : Params) (before after : List RouteEntry) (e : RouteEntry)
    (hsplit : reg.entries = before ++ e :: after)
    (hfirst : ∀ x ∈ before, x.handler = id → ∃ k ∈ x.pattern.keys, k ∉ kvs.map Prod.fst)
    (hid : e.handler = id) (hsat : ∀ k ∈ e.pattern.keys, k ∈ kvs.map Prod.fst) :
    reg.URLFor id kvs = e.pattern.render (suppliedValue kvs) ∧
      e.pattern.render captureSource = e.pattern.text ∧
      (∀ n, paramKey n ∈ e.pattern.keys →
        ∃ v, (paramKey n, v) ∈ kvs ∧ ∀ k, suppliedValue kvs n k = v) ∧
      urlForRegister.URLFor (.method "TestController" "Param")
        [(":last", "xie"), (":first", "asta")] = "/person/xie/asta" ∧
      urlFor2Register.URLFor (.method "TestController" "List")
        [(":v", "za"), (":id", "12"), (":page", "123")] = "/v1/za/cms_12_123.html" := by
  refine ⟨?_, ?_, ?_, by decide, by decide⟩
  · unfold ControllerRegister.URLFor
    rw [hsplit, find_first _ before after e]
    · intro x hx
      by_cases hxi : x.handler = id
      · obtain ⟨k, hk, hk2⟩ := hfirst x hx hxi
        have : x.satisfiedBy kvs = false := by
          rw [Bool.eq_false_iff]
          intro hs
          exact hk2 ((satisfiedBy_iff x kvs).mp hs k hk)
        simp [this]
      · simp [hxi]
    · simp [hid, (satisfiedBy_iff e kvs).mpr hsat]
  · have he : e ∈ reg.entries := by rw [hsplit]; simp
    exact render_source _ _ ((built_holds_iff reg hb).2 e he)
  · intro n hn
    have h1 := (getParam_isSome_iff kvs (paramKey n)).mpr (hsat _ hn)
    cases hg : getParam kvs (paramKey n) with
    | none => simp [hg] at h1
    | some v => exact ⟨v, getParam_mem kvs _ v hg, fun k => by simp [suppliedValue, hg]⟩

theorem urlFor_first_satisfied_witness :
    urlFor2Register.URLFor (.method "TestController" "Param")
        [(":v", "za"), (":id", "12"), (":page", "123")] = "/v1/za_cms/ttt_12_123.html" :=
  (urlFor_first_satisfied urlFor2Register urlFor2Register_built (.method "TestController" "Param")
    [(":v", "za"), (":id", "12"), (":page", "123")]
    (urlFor2Register.entries.take 2) (urlFor2Register.entries.drop 3)
    (urlFor2Register.entries.getD 2 routeOkEntry)
    (by decide) (by decide) (by decide) (by decide)).1

/-- C3: `urlFor` gives the empty string, and no error, when no entry is
registered for the handler identifier, or when no entry registered for it has
all of its named parameters among the supplied keys. -/
theorem urlFor_empty (reg : ControllerRegister) (id : HandlerId) (kvs : Params)
    (h : (∀ e ∈ reg.entries, e.handler ≠ id) ∨
      (∀ e ∈ reg.entries, e.handler = id → ∃ k ∈ e.pattern.keys, k ∉ kvs.map Prod.fst)) :
    reg.URLFor id kvs = "" := by
  unfold ControllerRegister.URLFor
  have hnone : reg.entries.find? (fun e => decide (e.handler = id) && e.satisfiedBy kvs) = none := by
    rw [List.find?_eq_none]
    intro x hx
    rcases h with h | h
    · simp [h x hx]
    · by_cases hxi : x.handler = id
      · obtain ⟨k, hk, hk2⟩ := h x hx hxi
        have : x.satisfiedBy kvs = false := by
          rw [Bool.eq_false_iff]
          intro hs
          exact hk2 ((satisfiedBy_iff x kvs).mp hs k hk)
        simp [this]
      · simp [hxi]
  rw [hnone]

theorem urlFor_empty_witness :
    prefixRegister.URLFor (.method "TestController" "PrefixList") [] = "" ∧
      urlFor2Register.URLFor (.method "TestController" "Get") [(":year", "1111")] = "" :=
  ⟨urlFor_empty prefixRegister (.method "TestController" "PrefixList") [] (.inl (by decide)),
   urlFor_empty urlFor2Register (.method "TestController" "Get") [(":year", "1111")]
     (.inr (by decide))⟩

/-! ## The filter chain and the dispatcher -/

theorem runFilters_trace (pt : ExecPoint) (segs : List String) (fs : List FilterEntry) :
    ∀ (i : Nat) (st : DispatchState),
      ∃ evs, (runFilters pt segs fs i st).1.trace = st.trace ++ evs ∧
        (∀ ev ∈ evs, ∃ j w, ev = Event.filter pt j w ∧ i ≤ j ∧ j < i + fs.length) ∧
        (∀ j f, fs[j]? = some f → f.returnOnOutput = true →
          Event.filter pt (i + j) true ∈ evs → (runFilters pt segs fs i st).2 = true) := by
  induction fs with
  | nil =>
    intro i st
    exact ⟨[], by simp [runFilters], by simp, by simp⟩
  | cons f fs ih =>
    intro i st
    simp only [runFilters]
    split
    · exact ⟨[], by simp, by simp, fun _ _ _ _ _ => rfl⟩
    · next hpre =>
      split
      · obtain ⟨evs, h1, h2, h3⟩ := ih (i + 1) st
        refine ⟨evs, h1, fun ev hev => ?_, fun j g hj hg hmem => ?_⟩
        · obtain ⟨j, w, h4, h5, h6⟩ := h2 ev hev
          exact ⟨j, w, h4, by omega, by simp only [List.length_cons]; omega⟩
        · cases j with
          | zero =>
            obtain ⟨j2, w, h4, h5, _⟩ := h2 _ hmem
            simp only [Event.filter.injEq, true_and] at h4
            omega
          | succ j =>
            simp only [List.getElem?_cons_succ] at hj
            exact h3 j g hj hg (by
              have : i + 1 + j = i + (j + 1) := by omega
              rw [this]
              exact hmem)
      · next c hrun =>
        split
        · exact ⟨[Event.filter pt i c.started], rfl,
            fun ev hev => ⟨i, c.started, by simpa using hev, by omega, by simp⟩,
            fun _ _ _ _ _ => rfl⟩
        · next hpost =>
          obtain ⟨evs, h1, h2, h3⟩ :=
            ih (i + 1) ⟨c, st.trace ++ [Event.filter pt i c.started]⟩
          refine ⟨Event.filter pt i c.started :: evs, by simp [h1], fun ev hev => ?_,
            fun j g hj hg hmem => ?_⟩
          · rcases List.mem_cons.mp hev with h | h
            · exact ⟨i, c.started, h, by omega, by simp⟩
            · obtain ⟨j, w, h4, h5, h6⟩ := h2 ev h
              exact ⟨j, w, h4, by omega, by simp only [List.length_cons]; omega⟩
          · cases j with
            | zero =>
              simp only [List.getElem?_cons_zero, Option.some.injEq] at hj
              subst hj
              rcases List.mem_cons.mp hmem with h | h
              · simp only [Nat.add_zero, Event.filter.injEq, true_and] at h
                simp [hg, ← h] at hpost
              · obtain ⟨j2, w, h4, h5, _⟩ := h2 _ h
                simp only [Event.filter.injEq, true_and] at h4
                omega
            | succ j =>
              simp only [List.getElem?_cons_succ] at hj
              rcases List.mem_cons.mp hmem with h | h
              · simp only [Event.filter.injEq, true_and] at h
                omega
              · exact h3 j g hj hg (by
                  have : i + 1 + j = i + (j + 1) := by omega
                  rw [this]
                  exact h)

theorem isFilterOf_other (pt q : ExecPoint) (ev : Event) (hne : pt ≠ q)
    (h : ev.isFilterOf pt = true) : ev.isFilterOf q = false := by
  cases ev with
  | filter p j w =>
    simp only [Event.isFilterOf, decide_eq_true_eq, decide_eq_false_iff_not] at h ⊢
    rw [h]
    exact hne
  | _ => rfl

theorem isFilterOf_not_handler (pt : ExecPoint) (ev : Event) (h : ev.isFilterOf pt = true) :
    ev.isHandler = false := by
  cases ev with
  | filter p j w => rfl
  | _ => simp [Event.isFilterOf] at h

theorem runPoint_trace (reg : ControllerRegister) (pt : ExecPoint) (segs : List String)
    (st : DispatchState) :
    ∃ evs, (reg.runPoint pt segs st).1.trace = st.trace ++ evs ∧
      (∀ ev ∈ evs, ev.isFilterOf pt = true) ∧
      (∀ j f, (reg.chain pt)[j]? = some f → f.returnOnOutput = true →
        Event.filter pt j true ∈ evs → (reg.runPoint pt segs st).2 = true) := by
  obtain ⟨evs, h1, h2, h3⟩ := runFilters_trace pt segs (reg.chain pt) 0 st
  refine ⟨evs, h1, fun ev hev => ?_, fun j f hj hf hmem => ?_⟩
  · obtain ⟨j, w, h4, _, _⟩ := h2 ev hev
    subst h4
    simp [Event.isFilterOf]
  · exact h3 j f hj hf (by simpa using hmem)

theorem finish_trace (reg : ControllerRegister) (segs : List String) (st : DispatchState) :
    ∃ evs, (reg.finish segs st).trace = st.trace ++ evs ∧
      ∀ ev ∈ evs, ev.isFilterOf .FinishRouter = true := by
  obtain ⟨evs, h1, h2, _⟩ := runPoint_trace reg .FinishRouter segs st
  exact ⟨evs, h1, h2⟩

theorem invokeHandler_trace (cfg : Config) (impl : HandlerId → Handler) (e : RouteEntry)
    (st : DispatchState) :
    ∃ evs, (invokeHandler cfg impl e st).trace = st.trace ++ evs ∧
      ∀ ev ∈ evs, ev = Event.handler e.handler ∨ ev = Event.fault e.handler := by
  unfold invokeHandler
  split
  · exact ⟨[Event.handler e.handler], rfl, by simp⟩
  · exact ⟨[Event.handler e.handler, Event.fault e.handler], by simp [respondError], by simp⟩

theorem execute_trace (reg : ControllerRegister) (cfg : Config) (impl : HandlerId → Handler)
    (segs : List String) (e : RouteEntry) (ps : Params) (st : DispatchState) :
    ∃ evs, (reg.execute cfg impl segs e ps st).trace = st.trace ++ evs ∧
      ∀ ev ∈ evs, ev.isFilterOf .BeforeRouter = false := by
  unfold ControllerRegister.execute
  simp only
  obtain ⟨e1, h1, h1b, _⟩ := runPoint_trace reg .BeforeExec segs
    ⟨{ st.ctx with params := bindParams st.ctx.params ps,
                   sessionOn := e.sessionOn.getD cfg.sessionOn }, st.trace⟩
  have notBR : ∀ (pt : ExecPoint) (ev : Event), pt ≠ .BeforeRouter → ev.isFilterOf pt = true →
      ev.isFilterOf .BeforeRouter = false :=
    fun pt ev hpt hev => isFilterOf_other pt .BeforeRouter ev hpt hev
  split
  · obtain ⟨e2, h2, h2b⟩ := finish_trace reg segs (reg.runPoint .BeforeExec segs
      ⟨{ st.ctx with params := bindParams st.ctx.params ps,
                     sessionOn := e.sessionOn.getD cfg.sessionOn }, st.trace⟩).1
    refine ⟨e1 ++ e2, by rw [h2, h1]; simp, fun ev hev => ?_⟩
    rcases List.mem_append.mp hev with h | h
    · exact notBR _ ev (by decide) (h1b ev h)
    · exact notBR _ ev (by decide) (h2b ev h)
  · obtain ⟨e2, h2, h2b⟩ := invokeHandler_trace cfg impl e (reg.runPoint .BeforeExec segs
      ⟨{ st.ctx with params := bindParams st.ctx.params ps,
                     sessionOn := e.sessionOn.getD cfg.sessionOn }, st.trace⟩).1
    obtain ⟨e3, h3, h3b, _⟩ := runPoint_trace reg .AfterExec segs
      (invokeHandler cfg impl e (reg.runPoint .BeforeExec segs
        ⟨{ st.ctx with params := bindParams st.ctx.params ps,
                       sessionOn := e.sessionOn.getD cfg.sessionOn }, st.trace⟩).1)
    obtain ⟨e4, h4, h4b⟩ := finish_trace reg segs (reg.runPoint .AfterExec segs
      (invokeHandler cfg impl e (reg.runPoint .BeforeExec segs
        ⟨{ st.ctx with params := bindParams st.ctx.params ps,
                       sessionOn := e.sessionOn.getD cfg.sessionOn }, st.trace⟩).1)).1
    refine ⟨e1 ++ e2 ++ e3 ++ e4, by rw [h4, h3, h2, h1]; simp, fun ev hev => ?_⟩
    simp only [List.mem_append] at hev
    rcases hev with ((h | h) | h) | h
    · exact notBR _ ev (by decide) (h1b ev h)
    · rcases h2b ev h with h | h <;> (subst h; rfl)
    · exact notBR _ ev (by decide) (h3b ev h)
    · exact notBR _ ev (by decide) (h4b ev h)

/-- C4: when a BeforeRouter filter registered with `returnOnOutput` set (the
value also used when no option is passed) has run and left the response
written, the trace of the request holds no handler invocation and no run of a
BeforeExec or AfterExec filter. -/
theorem beforeRouter_output_skips_handler (reg : ControllerRegister) (cfg : Config)
    (impl : HandlerId → Handler) (req : Request) (i : Nat) (f : FilterEntry)
    (hf : (reg.chain .BeforeRouter)[i]? = some f) (hroo : f.returnOnOutput = true)
    (hran : Event.filter .BeforeRouter i true ∈ (reg.ServeHTTP cfg impl req).trace) :
    (∀ ev ∈ (reg.ServeHTTP cfg impl req).trace,
        ev.isHandler = false ∧ ev.isFilterOf .BeforeExec = false ∧
          ev.isFilterOf .AfterExec = false) ∧
      ({} : FilterOptions).returnOnOutput = true := by
  refine ⟨?_, rfl⟩
  unfold ControllerRegister.ServeHTTP at hran ⊢
  split at hran
  · simp [respondError] at hran
  · next hsize =>
    rw [if_neg hsize]
    simp only at hran ⊢
    obtain ⟨e1, h1, h1b, h1c⟩ := runPoint_trace reg .BeforeRouter (splitPath req.path)
      ⟨Context.initial cfg, []⟩
    have hself : (Event.filter .BeforeRouter i true).isFilterOf .BeforeRouter = true := by
      simp [Event.isFilterOf]
    by_cases hshort : (reg.runPoint .BeforeRouter (splitPath req.path) ⟨Context.initial cfg, []⟩).2 = true
    · rw [if_pos hshort]
      obtain ⟨e2, h2, h2b⟩ := finish_trace reg (splitPath req.path)
        (reg.runPoint .BeforeRouter (splitPath req.path) ⟨Context.initial cfg, []⟩).1
      rw [h2, h1]
      intro ev hev
      simp only [List.nil_append, List.mem_append] at hev
      rcases hev with h | h
      · exact ⟨isFilterOf_not_handler _ ev (h1b ev h),
          isFilterOf_other _ _ ev (by decide) (h1b ev h),
          isFilterOf_other _ _ ev (by decide) (h1b ev h)⟩
      · exact ⟨isFilterOf_not_handler _ ev (h2b ev h),
          isFilterOf_other _ _ ev (by decide) (h2b ev h),
          isFilterOf_other _ _ ev (by decide) (h2b ev h)⟩
    · exfalso
      rw [if_neg hshort] at hran
      apply hshort
      apply h1c i f hf hroo
      have key : ∀ (later : List Event) (tr : List Event),
          tr = (reg.runPoint .BeforeRouter (splitPath req.path) ⟨Context.initial cfg, []⟩).1.trace
            ++ later →
          (∀ ev ∈ later, ev.isFilterOf .BeforeRouter = false) →
          Event.filter .BeforeRouter i true ∈ tr → Event.filter .BeforeRouter i true ∈ e1 := by
        intro later tr htr hl hm
        rw [htr, h1] at hm
        simp only [List.nil_append, List.mem_append] at hm
        rcases hm with h | h
        · exact h
        · have := hl _ h
          rw [hself] at this
          cases this
      split at hran
      · obtain ⟨e2, h2, h2b⟩ := finish_trace reg (splitPath req.path)
          (respondError cfg 404 Event.notFound
            (reg.runPoint .BeforeRouter (splitPath req.path) ⟨Context.initial cfg, []⟩).1)
        refine key ([Event.notFound] ++ e2) _ (by rw [h2]; simp [respondError]) ?_ hran
        intro ev hev
        rcases List.mem_append.mp hev with h | h
        · simp only [List.mem_singleton] at h
          subst h
          rfl
        · exact isFilterOf_other _ _ ev (by decide) (h2b ev h)
      · obtain ⟨e2, h2, h2b⟩ := finish_trace reg (splitPath req.path)
          (respondError cfg 405 Event.methodNotAllowed
            (reg.runPoint .BeforeRouter (splitPath req.path) ⟨Context.initial cfg, []⟩).1)
        refine key ([Event.methodNotAllowed] ++ e2) _ (by rw [h2]; simp [respondError]) ?_ hran
        intro ev hev
        rcases List.mem_append.mp hev with h | h
        · simp only [List.mem_singleton] at h
          subst h
          rfl
        · exact isFilterOf_other _ _ ev (by decide) (h2b ev h)
      · next e ps _ =>
        obtain ⟨e2, h2, h2b⟩ := execute_trace reg cfg impl (splitPath req.path) e ps
          (reg.runPoint .BeforeRouter (splitPath req.path) ⟨Context.initial cfg, []⟩).1
        exact key e2 _ h2 h2b hran

theorem beforeRouter_output_skips_handler_witness :
    Event.filter .BeforeRouter 0 true ∈
        (beforeRouterRegister.ServeHTTP testConfig helloImpl ⟨"GET", "/beforeRouter", ""⟩).trace ∧
      Event.handler filterFuncId ∉
        (beforeRouterRegister.ServeHTTP testConfig helloImpl ⟨"GET", "/beforeRouter", ""⟩).trace :=
  ⟨by decide, fun h =>
    absurd ((beforeRouter_output_skips_handler beforeRouterRegister testConfig helloImpl
      ⟨"GET", "/beforeRouter", ""⟩ 0
      ⟨.BeforeRouter, .pattern ⟨"/beforeRouter", [.literal "beforeRouter"]⟩,
        fun c => c.WriteString "|BeforeRouter1", true, false⟩
      rfl rfl (by decide)).1 _ h).1 (by decide)⟩

theorem run_isSome (f : FilterEntry) (segs : List String) (c : Context)
    (h : f.scope.matchPath segs ≠ none) : ∃ out, f.run segs c = some out := by
  unfold FilterEntry.run
  cases hm : f.scope.matchPath segs with
  | none => exact absurd hm h
  | some bs => exact ⟨_, rfl⟩

theorem runFilters_runs (pt : ExecPoint) (segs : List String) (fs : List FilterEntry) :
    ∀ (i : Nat) (st : DispatchState) (j : Nat) (f : FilterEntry), fs[j]? = some f →
      f.scope.matchPath segs ≠ none →
      (∀ k g, k ≤ j → fs[k]? = some g → g.returnOnOutput = false) →
      ∃ w, Event.filter pt (i + j) w ∈ (runFilters pt segs fs i st).1.trace := by
  induction fs with
  | nil => intro i st j f hj; simp at hj
  | cons f0 fs ih =>
    intro i st j f hj hm hroo
    have h0 : f0.returnOnOutput = false := hroo 0 f0 (by omega) (by simp)
    simp only [runFilters, h0, Bool.false_and, Bool.false_eq_true, if_false]
    cases j with
    | zero =>
      simp only [List.getElem?_cons_zero, Option.some.injEq] at hj
      subst hj
      obtain ⟨c, hc⟩ := run_isSome f0 segs st.ctx hm
      rw [hc]
      obtain ⟨evs, h1, _, _⟩ := runFilters_trace pt segs fs (i + 1)
        ⟨c, st.trace ++ [Event.filter pt i c.started]⟩
      exact ⟨c.started, by rw [h1]; simp⟩
    | succ j =>
      simp only [List.getElem?_cons_succ] at hj
      have hroo2 : ∀ k g, k ≤ j → fs[k]? = some g → g.returnOnOutput = false :=
        fun k g hk hg => hroo (k + 1) g (by omega) (by simpa using hg)
      have hidx : i + (j + 1) = i + 1 + j := by omega
      rw [hidx]
      split
      · exact ih (i + 1) st j f hj hm hroo2
      · exact ih (i + 1) _ j f hj hm hroo2

theorem dispatch_finishes (reg : ControllerRegister) (cfg : Config) (impl : HandlerId → Handler)
    (req : Request) (h : (cfg.CopyRequestBody && decide (cfg.MaxMemory < req.bodySize)) = false) :
    ∃ st, reg.ServeHTTP cfg impl req = reg.finish (splitPath req.path) st := by
  unfold ControllerRegister.ServeHTTP
  simp only [h, Bool.false_eq_true, if_false]
  split
  · exact ⟨_, rfl⟩
  · split
    · exact ⟨_, rfl⟩
    · exact ⟨_, rfl⟩
    · unfold ControllerRegister.execute
      simp only
      split
      · exact ⟨_, rfl⟩
      · exact ⟨_, rfl⟩

/-- C5 (as amended): a FinishRouter filter whose scope matches the request path
runs at the end of every request that got past the body-size check, whatever
the filters of the earlier points short-circuited and whatever resolution
produced, provided it and the FinishRouter filters registered before it were
registered with `returnOnOutput` clear. -/
theorem finishRouter_runs (reg : ControllerRegister) (cfg : Config) (impl : HandlerId → Handler)
    (req : Request) (hsize : (cfg.CopyRequestBody && decide (cfg.MaxMemory < req.bodySize)) = false)
    (i : Nat) (f : FilterEntry) (hf : (reg.chain .FinishRouter)[i]? = some f)
    (hscope : f.scope.matchPath (splitPath req.path) ≠ none)
    (hroo : ∀ k g, k ≤ i → (reg.chain .FinishRouter)[k]? = some g → g.returnOnOutput = false) :
    ∃ w, Event.filter .FinishRouter i w ∈ (reg.ServeHTTP cfg impl req).trace := by
  obtain ⟨st, hst⟩ := dispatch_finishes reg cfg impl req hsize
  rw [hst]
  have := runFilters_runs .FinishRouter (splitPath req.path) (reg.chain .FinishRouter) 0 st i f hf
    hscope hroo
  simpa [ControllerRegister.finish, ControllerRegister.runPoint] using this

theorem finishRouter_runs_witness :
    Event.filter .FinishRouter 1 true ∈
        (finishRouterMultiRegister.ServeHTTP testConfig helloImpl
          ⟨"GET", "/finishRouterMulti", ""⟩).trace ∨
      Event.filter .FinishRouter 1 false ∈
        (finishRouterMultiRegister.ServeHTTP testConfig helloImpl
          ⟨"GET", "/finishRouterMulti", ""⟩).trace :=
  Exists.elim (finishRouter_runs finishRouterMultiRegister testConfig helloImpl
    ⟨"GET", "/finishRouterMulti", ""⟩ (by decide) 1
    ⟨.FinishRouter, .pattern ⟨"/finishRouterMulti", [.literal "finishRouterMulti"]⟩,
      fun c => c.WriteString "|FinishRouter2", false, false⟩
    rfl (by decide)
    (by
      intro k g hk hg
      have hk2 : k = 0 ∨ k = 1 := by omega
      rcases hk2 with h | h
      · subst h
        have h2 : g = ⟨.FinishRouter,
            .pattern ⟨"/finishRouterMulti", [.literal "finishRouterMulti"]⟩,
            fun c => c.WriteString "|FinishRouter1", false, false⟩ :=
          (Option.some.inj hg).symm
        rw [h2]
      · subst h
        have h2 : g = ⟨.FinishRouter,
            .pattern ⟨"/finishRouterMulti", [.literal "finishRouterMulti"]⟩,
            fun c => c.WriteString "|FinishRouter2", false, false⟩ :=
          (Option.some.inj hg).symm
        rw [h2]))
    (fun w hw => by
      cases w
      · exact .inr hw
      · exact .inl hw)

/-- C5 (counterexample): in TestFilterFinishRouter the request reaches route
resolution and the handler, the scope of the FinishRouter filter matches the
path, and yet the filter, registered with `returnOnOutput` set, does not run:
the trace ends with the handler. -/
theorem finishRouter_skipped :
    ((finishRouterRegister.chain .FinishRouter).map
        (fun f => (f.returnOnOutput, f.scope.matchPath (splitPath "/finishRouter")))) =
        [(true, some [])] ∧
      (finishRouterRegister.ServeHTTP testConfig helloImpl ⟨"GET", "/finishRouter", ""⟩).trace =
        [.filter .BeforeRouter 0 false, .filter .BeforeExec 0 false, .handler filterFuncId] ∧
      (finishRouterRegister.ServeHTTP testConfig helloImpl ⟨"GET", "/finishRouter", ""⟩).ctx.body =
        "hello" := by
  decide

theorem run_reset (f : FilterEntry) (segs : List String) (c out : Context)
    (hreset : f.resetParams = true) (hrun : f.run segs c = some out) : out.params = c.params := by
  unfold FilterEntry.run at hrun
  split at hrun
  · cases hrun
  · simp only [hreset, if_true, Option.some.injEq] at hrun
    rw [← hrun]

theorem runFilters_reset (pt : ExecPoint) (segs : List String) (fs : List FilterEntry)
    (hall : ∀ g ∈ fs, g.resetParams = true) :
    ∀ (i : Nat) (st : DispatchState),
      (runFilters pt segs fs i st).1.ctx.params = st.ctx.params := by
  induction fs with
  | nil => intro i st; rfl
  | cons f fs ih =>
    intro i st
    have hf := hall f (by simp)
    have ih2 := ih (fun g hg => hall g (by simp [hg]))
    simp only [runFilters]
    split
    · rfl
    · split
      · exact ih2 (i + 1) st
      · next c hrun =>
        have hc := run_reset f segs st.ctx c hf hrun
        split
        · exact hc
        · rw [ih2]
          exact hc

/-- C6: a filter registered with `resetParams` leaves the parameter map as it
was right before the filter ran, whatever its scope matching and its body bound,
and a chain of such filters hands the parameters on unchanged; with route
`/beego/*`, a `*`-scoped BeforeExec reset filter and path
`/beego/routes/routes` the handler reads `:splat` as `routes/routes` (without
the reset it would read the `beego/routes/routes` bound by the filter scope). -/
theorem resetParams_restores (f : FilterEntry) (segs : List String) (c out : Context)
    (hreset : f.resetParams = true) (hrun : f.run segs c = some out) :
    out.params = c.params ∧
      (∀ (pt : ExecPoint) (fs : List FilterEntry) (i : Nat) (st : DispatchState),
        (∀ g ∈ fs, g.resetParams = true) →
          (runFilters pt segs fs i st).1.ctx.params = st.ctx.params) ∧
      ((paramResetRegister true).ServeHTTP testConfig resetImpl
          ⟨"GET", "/beego/routes/routes", ""⟩).ctx.headers = [("Splat", "routes/routes")] ∧
      ((paramResetRegister false).ServeHTTP testConfig resetImpl
          ⟨"GET", "/beego/routes/routes", ""⟩).ctx.headers =
        [("Splat", "beego/routes/routes")] :=
  ⟨run_reset f segs c out hreset hrun,
   fun pt fs i st hall => runFilters_reset pt segs fs hall i st, by decide, by decide⟩

theorem resetParams_restores_witness :
    FilterEntry.run ⟨.BeforeExec, .pattern ⟨"*", [.wildcard]⟩, beegoResetParams, true, true⟩
        ["beego", "routes", "routes"] ⟨[(":splat", "routes/routes")], false, 200, "", [], false⟩ =
        some ⟨[(":splat", "routes/routes")], false, 200, "",
          [("Splat", "beego/routes/routes")], false⟩ ∧
      (⟨[(":splat", "routes/routes")], false, 200, "", [("Splat", "beego/routes/routes")],
        false⟩ : Context).params =
        (⟨[(":splat", "routes/routes")], false, 200, "", [], false⟩ : Context).params :=
  ⟨by decide,
   (resetParams_restores
    ⟨.BeforeExec, .pattern ⟨"*", [.wildcard]⟩, beegoResetParams, true, true⟩
    ["beego", "routes", "routes"]
    ⟨[(":splat", "routes/routes")], false, 200, "", [], false⟩
    ⟨[(":splat", "routes/routes")], false, 200, "", [("Splat", "beego/routes/routes")], false⟩
    rfl (by decide)).1⟩

/-- C8: with request-body copying enabled, a request whose body is longer than
the configured maximum is answered with 413 and nothing else is run for it: no
filter, no resolution, no handler. -/
theorem oversized_body_rejected (reg : ControllerRegister) (cfg : Config) (impl : HandlerId → Handler)
    (req : Request) (hcopy : cfg.CopyRequestBody = true) (hsize : cfg.MaxMemory < req.bodySize) :
    (reg.ServeHTTP cfg impl req).ctx.status = 413 ∧
      (reg.ServeHTTP cfg impl req).trace = [Event.payloadTooLarge] ∧
      ∀ id, Event.handler id ∉ (reg.ServeHTTP cfg impl req).trace := by
  have h : reg.ServeHTTP cfg impl req =
      respondError cfg 413 Event.payloadTooLarge ⟨Context.initial cfg, []⟩ := by
    unfold ControllerRegister.ServeHTTP
    simp [hcopy, hsize]
  rw [h]
  simp [respondError, Context.writeStatus]

theorem oversized_body_rejected_witness :
    (entityRegister.ServeHTTP copyBodyConfig userIdImpl
        ⟨"POST", "/user/123", "barbarbarbarbarbarbarbarbarbar"⟩).ctx.status = 413 ∧
      Event.handler (.func "userId") ∉
        (entityRegister.ServeHTTP copyBodyConfig userIdImpl
          ⟨"POST", "/user/123", "barbarbarbarbarbarbarbarbarbar"⟩).trace :=
  ⟨(oversized_body_rejected entityRegister copyBodyConfig userIdImpl
      ⟨"POST", "/user/123", "barbarbarbarbarbarbarbarbarbar"⟩ rfl (by decide)).1,
   (oversized_body_rejected entityRegister copyBodyConfig userIdImpl
      ⟨"POST", "/user/123", "barbarbarbarbarbarbarbarbarbar"⟩ rfl (by decide)).2.2 _⟩

theorem chain_nil (reg : ControllerRegister) (pt : ExecPoint) (h : reg.filters = []) : reg.chain pt = [] := by
  simp [ControllerRegister.chain, h]

theorem dispatch_unfiltered (reg : ControllerRegister) (cfg : Config) (impl : HandlerId → Handler)
    (req : Request) (hf : reg.filters = [])
    (hsize : (cfg.CopyRequestBody && decide (cfg.MaxMemory < req.bodySize)) = false) :
    (reg.resolve req.method req.path = .notFound →
        (reg.ServeHTTP cfg impl req).ctx.status = 404 ∧
          (reg.ServeHTTP cfg impl req).trace = [Event.notFound]) ∧
      (reg.resolve req.method req.path = .methodNotAllowed →
        (reg.ServeHTTP cfg impl req).ctx.status = 405 ∧
          (reg.ServeHTTP cfg impl req).trace = [Event.methodNotAllowed]) := by
  constructor
  · intro h
    unfold ControllerRegister.ServeHTTP
    simp [hsize, ControllerRegister.runPoint, ControllerRegister.finish, chain_nil reg _ hf, runFilters, h,
      respondError, Context.writeStatus]
  · intro h
    unfold ControllerRegister.ServeHTTP
    simp [hsize, ControllerRegister.runPoint, ControllerRegister.finish, chain_nil reg _ hf, runFilters, h,
      respondError, Context.writeStatus]

/-- C7: resolving a method and a path gives not found exactly when no registered
entry matches the path, and the distinct outcome method not allowed exactly when
some entry matches the path and no matching entry accepts the method; a register
without routes gives not found for every path; a request that reaches resolution
unfiltered is answered 404 for not found and 405 for method not allowed. -/
theorem resolve_outcomes (reg : ControllerRegister) (hb : ControllerRegister.Built reg) (m path : String) :
    (reg.resolve m path = .notFound ↔ ∀ e ∈ reg.entries, e.pattern.matchPath path = none) ∧
      (reg.resolve m path = .methodNotAllowed ↔
        (∃ e ∈ reg.entries, e.pattern.matchPath path ≠ none) ∧
          ∀ e ∈ reg.entries, e.pattern.matchPath path ≠ none → e.methods.accepts m = false) ∧
      (reg.entries = [] → reg.resolve m path = .notFound) ∧
      (∀ (cfg : Config) (impl : HandlerId → Handler) (body : String), reg.filters = [] →
        (cfg.CopyRequestBody && decide (cfg.MaxMemory < (⟨m, path, body⟩ : Request).bodySize))
          = false →
        (reg.resolve m path = .notFound →
          (reg.ServeHTTP cfg impl ⟨m, path, body⟩).ctx.status = 404) ∧
        (reg.resolve m path = .methodNotAllowed →
          (reg.ServeHTTP cfg impl ⟨m, path, body⟩).ctx.status = 405)) := by
  refine ⟨resolve_notFound_iff reg hb m path, resolve_methodNotAllowed_iff reg hb m path, ?_, ?_⟩
  · intro h
    rw [resolve_notFound_iff reg hb m path, h]
    simp
  · intro cfg impl body hf hsize
    have := dispatch_unfiltered reg cfg impl ⟨m, path, body⟩ hf hsize
    exact ⟨fun h => (this.1 h).1, fun h => (this.2 h).1⟩

theorem resolve_outcomes_witness :
    routeOkRegister.resolve "POST" "/person/anderson/thomas" = .methodNotAllowed ∧
      routeOkRegister.resolve "GET" "/person/anderson" = .notFound ∧
      (NewControllerRegister.ServeHTTP testConfig helloImpl ⟨"GET", "/", ""⟩).ctx.status = 404 :=
  ⟨(resolve_outcomes routeOkRegister routeOk_built "POST" "/person/anderson/thomas").2.1.mpr
      ⟨⟨routeOkEntry, by decide, by decide⟩, by decide⟩,
   (resolve_outcomes routeOkRegister routeOk_built "GET" "/person/anderson").1.mpr (by decide),
   ((resolve_outcomes NewControllerRegister .empty "GET" "/").2.2.2 testConfig helloImpl "" rfl
      (by decide)).1
     ((resolve_outcomes NewControllerRegister .empty "GET" "/").2.2.1 rfl)⟩

/-! ## Composite segments -/

theorem longestSplit_none (k : List Char → List Char → Option Params) (s : List Char) :
    ∀ pre : List Char, (∀ a b, s = a ++ b → k (pre ++ a) b = none) →
      longestSplit k pre s = none := by
  induction s with
  | nil =>
    intro pre h
    simpa [longestSplit] using h [] [] rfl
  | cons c cs ih =>
    intro pre h
    have h1 := ih (pre ++ [c]) (fun a b hab => by
      have := h (c :: a) b (by rw [hab]; rfl)
      simpa using this)
    have h2 := h [] (c :: cs) rfl
    simp only [List.append_nil] at h2
    simp [longestSplit, h1, h2]

theorem longestSplit_stop (k : List Char → List Char → Option Params) (x rest : List Char)
    (r : Params) :
    ∀ pre : List Char, (∀ a b, a ≠ [] → rest = a ++ b → k (pre ++ x ++ a) b = none) →
      k (pre ++ x) rest = some r → longestSplit k pre (x ++ rest) = some r := by
  induction x with
  | nil =>
    intro pre hno hk
    simp only [List.append_nil, List.nil_append] at hno hk ⊢
    cases rest with
    | nil => simpa [longestSplit] using hk
    | cons c cs =>
      have h1 := longestSplit_none k cs (pre ++ [c]) (fun a b hab => by
        have := hno (c :: a) b (by simp) (by rw [hab]; rfl)
        simpa using this)
      simp [longestSplit, h1, hk]
  | cons c cs ih =>
    intro pre hno hk
    have := ih (pre ++ [c]) (fun a b ha hab => by
      have := hno a b ha hab
      simpa using this) (by simpa using hk)
    simp [longestSplit, this]

theorem digit_accepts (c : Char) : CharClass.digit.accepts c = c.isDigit := by
  simp only [CharClass.accepts, CharClass.digit, List.any_cons, List.any_nil, Bool.or_false,
    Bool.false_bne, Char.isDigit, Char.toNat, ge_iff_le, UInt32.le_def]
  rfl

theorem digits_accepts (s : List Char) :
    digitsKind.accepts s = (!s.isEmpty && s.all Char.isDigit) := by
  unfold CaptureKind.accepts digitsKind CaptureKind.expr
  rw [matchChars_plus]
  congr 1
  induction s with
  | nil => rfl
  | cons c cs ih => simp [List.all_cons, digit_accepts, ih]

theorem digits_reject (x a : List Char) (c : Char) (hc : c.isDigit = false) :
    digitsKind.accepts (x ++ c :: a) = false := by
  rw [digits_accepts]
  simp [hc]

theorem startsWith_append (p t : List Char) : startsWith p (p ++ t) = true := by
  induction p with
  | nil => rfl
  | cons a as ih => simp [startsWith, ih]

theorem matchParts_lit (t : String) (ps : List Part) (s : List Char) :
    matchParts (.lit t :: ps) (t.data ++ s) = matchParts ps s := by
  simp [matchParts, startsWith_append]

theorem matchParts_digits (n : String) (ps : List Part) (x rest : List Char) (c : Char)
    (bs : Params) (hx : x ≠ []) (hxd : ∀ d ∈ x, d.isDigit = true) (hc : c.isDigit = false)
    (hrest : matchParts ps (c :: rest) = some bs) :
    matchParts (.cap n digitsKind :: ps) (x ++ c :: rest) =
      some ((paramKey n, String.mk x) :: bs) := by
  simp only [matchParts]
  apply longestSplit_stop
  · intro a b ha hab
    cases a with
    | nil => exact absurd rfl ha
    | cons a0 as =>
      simp only [List.cons_append, List.cons.injEq] at hab
      rw [← hab.1]
      simp [digits_reject x as c hc]
  · have : digitsKind.accepts x = true := by
      rw [digits_accepts]
      simp only [Bool.and_eq_true, Bool.not_eq_eq_eq_not, Bool.not_true, List.all_eq_true]
      exact ⟨by simpa using hx, hxd⟩
    simp [this, hrest]

theorem manyRoute_compiles :
    PatternCompiler.compile "/beego:id([0-9]+)-:page([0-9]+).html" = .ok manyRoutePattern := by
  rfl

theorem manyRoute_built : ControllerRegister.Built manyRouteRegister :=
  built_add _ _ _ _ .empty (by rfl)

theorem manyRoute_match (X Y : String) (hX : X.data ≠ []) (hXd : ∀ c ∈ X.data, c.isDigit = true)
    (hY : Y.data ≠ []) (hYd : ∀ c ∈ Y.data, c.isDigit = true) :
    manyRoutePattern.matchPath ("/beego" ++ X ++ "-" ++ Y ++ ".html") =
      some [(":id", X), (":page", Y)] := by
  have hnoslash : '/' ∉ ("beego" ++ X ++ "-" ++ Y ++ ".html").data := by
    simp only [String.data_append, List.mem_append, not_or]
    refine ⟨⟨⟨⟨by decide, fun h => ?_⟩, by decide⟩, fun h => ?_⟩, by decide⟩
    · exact absurd (hXd _ h) (by decide)
    · exact absurd (hYd _ h) (by decide)
  have hpath : "/beego" ++ X ++ "-" ++ Y ++ ".html" =
      joinPath ["beego" ++ X ++ "-" ++ Y ++ ".html"] := by
    apply String.ext
    simp [joinPath, String.data_append]
  unfold RoutePattern.matchPath
  rw [hpath, splitPath_joinPath _ (by simpa using hnoslash)]
  have hY2 : matchParts [.cap "page" digitsKind, .lit ".html"] (Y.data ++ '.' :: "html".data) =
      some [(paramKey "page", String.mk Y.data)] :=
    matchParts_digits "page" _ Y.data _ '.' [] hY hYd (by decide) (by decide)
  have hX2 : matchParts [.cap "id" digitsKind, .lit "-", .cap "page" digitsKind, .lit ".html"]
      (X.data ++ '-' :: (Y.data ++ '.' :: "html".data)) =
      some [(paramKey "id", String.mk X.data), (paramKey "page", String.mk Y.data)] :=
    matchParts_digits "id" _ X.data _ '-' _ hX hXd (by decide)
      (by
        have := matchParts_lit "-" [.cap "page" digitsKind, .lit ".html"]
          (Y.data ++ '.' :: "html".data)
        rw [show ("-" : String).data ++ (Y.data ++ '.' :: "html".data) =
          '-' :: (Y.data ++ '.' :: "html".data) from rfl] at this
        rw [this, hY2])
  have hseg : ("beego" ++ X ++ "-" ++ Y ++ ".html").data =
      ("beego" : String).data ++ (X.data ++ '-' :: (Y.data ++ '.' :: "html".data)) := by
    simp [String.data_append]
  show matchSegments [.pattern [.lit "beego", .cap "id" digitsKind, .lit "-",
    .cap "page" digitsKind, .lit ".html"]] ["beego" ++ X ++ "-" ++ Y ++ ".html"] = _
  rw [matchSegments_pattern, hseg, matchParts_lit, hX2]
  simp only [matchSegments, Option.map_some', List.append_nil]
  rfl

/-- C10: for all non-empty digit strings X and Y the pattern
`/beego:id([0-9]+)-:page([0-9]+).html`, a single segment mixing literal text
with two regex captures, matches `/beegoX-Y.html` and binds exactly `:id` to X
and `:page` to Y, as compiled pattern and as route of the register of
TestManyRoute. -/
theorem composite_segment_binds (X Y : String) (hX : X.data ≠ [])
    (hXd : ∀ c ∈ X.data, c.isDigit = true) (hY : Y.data ≠ [])
    (hYd : ∀ c ∈ Y.data, c.isDigit = true) :
    PatternCompiler.compile "/beego:id([0-9]+)-:page([0-9]+).html" = .ok manyRoutePattern ∧
      manyRoutePattern.matchPath ("/beego" ++ X ++ "-" ++ Y ++ ".html") =
        some [(":id", X), (":page", Y)] ∧
      manyRouteRegister.resolve "GET" ("/beego" ++ X ++ "-" ++ Y ++ ".html") =
        .found manyRouteEntry [(":id", X), (":page", Y)] := by
  have hm := manyRoute_match X Y hX hXd hY hYd
  refine ⟨manyRoute_compiles, hm, ?_⟩
  have hent : manyRouteRegister.entries = [manyRouteEntry] := by decide
  have hmem : manyRouteEntry ∈ manyRouteRegister.entries := by rw [hent]; simp
  obtain ⟨x, ps, hx⟩ := (isFound_iff _).mp
    (resolve_found_complete manyRouteRegister manyRoute_built "GET" _ manyRouteEntry _ hmem hm
      (by decide))
  obtain ⟨h1, h2, _⟩ := resolve_found_sound manyRouteRegister manyRoute_built "GET" _ x ps hx
  rw [hent, List.mem_singleton] at h1
  subst h1
  rw [show manyRouteEntry.pattern = manyRoutePattern from rfl, hm] at h2
  cases h2
  exact hx

theorem composite_segment_binds_witness :
    manyRouteRegister.resolve "GET" "/beego32-12.html" =
      .found manyRouteEntry [(":id", "32"), (":page", "12")] :=
  (composite_segment_binds "32" "12" (by decide) (by decide) (by decide) (by decide)).2.2

/-! ## Order of the children of a node -/

theorem tryPatterns_cons (seg : String) (visit : RouteNode → Params → Resolution)
    (qs : List Part) (c : RouteNode) (rest : List (List Part × RouteNode)) :
    tryPatterns seg visit ((qs, c) :: rest) =
      match matchParts qs seg.data with
      | some bs => (visit c bs).orElse (tryPatterns seg visit rest)
      | none => tryPatterns seg visit rest := rfl

theorem insert_literal_empty (t : String) (ss : List Segment) (e : RouteEntry) :
    RouteNode.insert (.literal t :: ss) e RouteNode.empty =
      .mk [(t, RouteNode.insert ss e RouteNode.empty)] [] none [] := rfl

theorem insert_pattern_empty (qs : List Part) (ss : List Segment) (e : RouteEntry) :
    RouteNode.insert (.pattern qs :: ss) e RouteNode.empty =
      .mk [] [(qs, RouteNode.insert ss e RouteNode.empty)] none [] := rfl

theorem insert_wildcard_empty (ss : List Segment) (e : RouteEntry) :
    RouteNode.insert (.wildcard :: ss) e RouteNode.empty = .mk [] [] (some (.mk [] [] none [e])) [] :=
  rfl

theorem insert_literal_single (t : String) (ss : List Segment) (e : RouteEntry) (c : RouteNode) :
    RouteNode.insert (.literal t :: ss) e (.mk [(t, c)] [] none []) =
      .mk [(t, RouteNode.insert ss e c)] [] none [] := by
  simp [RouteNode.insert, upsertChild]

theorem insert_pattern_single (qs : List Part) (ss : List Segment) (e : RouteEntry)
    (c : RouteNode) :
    RouteNode.insert (.pattern qs :: ss) e (.mk [] [(qs, c)] none []) =
      .mk [] [(qs, RouteNode.insert ss e c)] none [] := by
  simp [RouteNode.insert, upsertChild]

theorem insert_pattern_other (qs qs2 : List Part) (hne : qs2 ≠ qs) (ss : List Segment)
    (e : RouteEntry) (c : RouteNode) :
    RouteNode.insert (.pattern qs :: ss) e (.mk [] [(qs2, c)] none []) =
      .mk [] [(qs2, c), (qs, RouteNode.insert ss e RouteNode.empty)] none [] := by
  simp [RouteNode.insert, upsertChild, hne]

theorem tryPatterns_first (seg : String) (visit : RouteNode → Params → Resolution)
    (before after : List (List Part × RouteNode)) (qs : List Part) (c : RouteNode)
    (bs : Params) (e : RouteEntry) (ps : Params)
    (hbefore : ∀ x ∈ before, ∀ b, matchParts x.1 seg.data = some b → (visit x.2 b).isFound = false)
    (hm : matchParts qs seg.data = some bs) (hv : visit c bs = .found e ps) :
    tryPatterns seg visit (before ++ (qs, c) :: after) = .found e ps := by
  induction before with
  | nil => simp [tryPatterns, hm, hv, Resolution.orElse]
  | cons x xs ih =>
    obtain ⟨xs1, xc⟩ := x
    have ih2 := ih (fun y hy b hb => hbefore y (by simp [hy]) b hb)
    rw [List.cons_append, tryPatterns_cons]
    cases hx : matchParts xs1 seg.data with
    | none => exact ih2
    | some b =>
      have h0 := hbefore (xs1, xc) (by simp) b hx
      simp only
      rw [orElse_of_not_found _ _ h0 (by rw [ih2]; rfl)]
      exact ih2

theorem tryPatterns_none_found (seg : String) (visit : RouteNode → Params → Resolution)
    (l : List (List Part × RouteNode))
    (h : ∀ x ∈ l, ∀ b, matchParts x.1 seg.data = some b → (visit x.2 b).isFound = false) :
    (tryPatterns seg visit l).isFound = false := by
  induction l with
  | nil => rfl
  | cons x xs ih =>
    obtain ⟨xs1, xc⟩ := x
    have ih2 := ih (fun y hy b hb => h y (by simp [hy]) b hb)
    rw [tryPatterns_cons]
    cases hx : matchParts xs1 seg.data with
    | none => exact ih2
    | some b =>
      simp only [orElse_isFound, h (xs1, xc) (by simp) b hx, ih2]
      rfl

theorem upsert_keys {κ : Type} [DecidableEq κ] (key : κ) (f : RouteNode → RouteNode)
    (l : List (κ × RouteNode)) :
    (upsertChild key f l).map Prod.fst =
      if key ∈ l.map Prod.fst then l.map Prod.fst else l.map Prod.fst ++ [key] := by
  induction l with
  | nil => simp [upsertChild]
  | cons x xs ih =>
    obtain ⟨k, c⟩ := x
    by_cases hk : k = key
    · subst hk
      simp [upsertChild]
    · have hk2 : ¬ key = k := fun h => hk h.symm
      simp only [upsertChild, hk, if_false, List.map_cons, ih, List.mem_cons, hk2, false_or]
      split <;> simp

theorem insert_pattern_keys (p : List Segment) (e : RouteEntry) (n : RouteNode) :
    ∃ extra, (RouteNode.insert p e n).patterns.map Prod.fst = n.patterns.map Prod.fst ++ extra := by
  cases n with
  | mk l ps w es =>
    cases p with
    | nil => exact ⟨[], by simp [RouteNode.insert, RouteNode.addEntry, RouteNode.patterns]⟩
    | cons s ss =>
      cases s with
      | literal t => exact ⟨[], by simp [RouteNode.insert, RouteNode.patterns]⟩
      | wildcard => exact ⟨[], by simp [RouteNode.insert, RouteNode.patterns]⟩
      | pattern qs =>
        simp only [RouteNode.insert, RouteNode.patterns, upsert_keys]
        split
        · exact ⟨[], by simp⟩
        · exact ⟨[qs], rfl⟩

theorem chain_found (m : String) (e : RouteEntry) (ha : e.methods.accepts m = true)
    (p : List Segment) :
    ∀ (segs : List String) (acc bs : Params), matchSegments p segs = some bs →
      (RouteNode.insert p e RouteNode.empty).matchNode m segs acc = .found e (acc ++ bs) := by
  induction p with
  | nil =>
    intro segs acc bs h
    obtain ⟨h1, h2⟩ : segs = [] ∧ bs = [] := by
      cases segs with
      | nil => simp [matchSegments] at h; exact ⟨rfl, h⟩
      | cons s ss => simp [matchSegments] at h
    subst h1 h2
    simp [RouteNode.insert, RouteNode.empty, RouteNode.addEntry, matchNode_nil,
      RouteNode.entries, scanEntries, ha]
  | cons s ss ih =>
    intro segs acc bs h
    cases segs with
    | nil => simp [matchSegments] at h
    | cons seg rest =>
      cases s with
      | literal t =>
        rw [matchSegments_literal] at h
        split at h
        · next hst =>
          subst hst
          have := ih rest acc bs h
          rw [insert_literal_empty, matchNode_cons]
          simp [RouteNode.literals, RouteNode.patterns, RouteNode.wildcard, findChild,
            tryPatterns, this, Resolution.orElse]
        · cases h
      | pattern qs =>
        rw [matchSegments_pattern] at h
        cases hq : matchParts qs seg.data with
        | none => rw [hq] at h; cases h
        | some b =>
          rw [hq] at h
          cases hr : matchSegments ss rest with
          | none => rw [hr] at h; cases h
          | some more =>
            rw [hr] at h
            simp only [Option.map_some', Option.some.injEq] at h
            subst h
            have := ih rest (acc ++ b) more hr
            rw [insert_pattern_empty, matchNode_cons]
            simp [RouteNode.literals, RouteNode.patterns, RouteNode.wildcard, findChild,
              tryPatterns, this, Resolution.orElse, hq]
      | wildcard =>
        rw [matchSegments_wildcard] at h
        cases h
        rw [insert_wildcard_empty, matchNode_cons]
        simp [RouteNode.literals, RouteNode.patterns, RouteNode.wildcard, findChild,
          tryPatterns, RouteNode.entries, scanEntries, ha, Resolution.orElse]

theorem wildcardLast_append_ne (x : Segment) (xs ys : List Segment) (y : Segment)
    (h : wildcardLast (x :: (xs ++ y :: ys)) = true) : x ≠ .wildcard := by
  intro hx
  subst hx
  have := wildcardLast_wildcard _ h
  simp at this

theorem sibling_found (m : String) (ea eb : RouteEntry) (ha : ea.methods.accepts m = true)
    (sa sb : List Part) (hne : sa ≠ sb) (ra rb : List Segment) (pre : List Segment) :
    ∀ (segs : List String) (acc bs : Params),
      wildcardLast (pre ++ .pattern sa :: ra) = true →
      matchSegments (pre ++ .pattern sa :: ra) segs = some bs →
      (RouteNode.insert (pre ++ .pattern sb :: rb) eb
        (RouteNode.insert (pre ++ .pattern sa :: ra) ea RouteNode.empty)).matchNode m segs acc =
        .found ea (acc ++ bs) := by
  induction pre with
  | nil =>
    intro segs acc bs _ h
    cases segs with
    | nil => simp [matchSegments] at h
    | cons seg rest =>
      simp only [List.nil_append] at h ⊢
      rw [matchSegments_pattern] at h
      cases hq : matchParts sa seg.data with
      | none => rw [hq] at h; cases h
      | some b =>
        rw [hq] at h
        cases hr : matchSegments ra rest with
        | none => rw [hr] at h; cases h
        | some more =>
          rw [hr] at h
          simp only [Option.map_some', Option.some.injEq] at h
          subst h
          have := chain_found m ea ha ra rest (acc ++ b) more hr
          rw [insert_pattern_empty, insert_pattern_other sb sa hne, matchNode_cons]
          simp [RouteNode.literals, RouteNode.patterns, RouteNode.wildcard, findChild,
            tryPatterns, this, Resolution.orElse, hq]
  | cons s ss ih =>
    intro segs acc bs hwl h
    have hsw := wildcardLast_append_ne s ss ra (.pattern sa) hwl
    have hwl2 := wildcardLast_tail _ _ hwl
    cases segs with
    | nil => simp [matchSegments] at h
    | cons seg rest =>
      cases s with
      | wildcard => exact absurd rfl hsw
      | literal t =>
        simp only [List.cons_append] at h ⊢
        rw [matchSegments_literal] at h
        split at h
        · next hst =>
          subst hst
          have := ih rest acc bs hwl2 h
          rw [insert_literal_empty, insert_literal_single, matchNode_cons]
          simp [RouteNode.literals, RouteNode.patterns, RouteNode.wildcard, findChild,
            tryPatterns, this, Resolution.orElse]
        · cases h
      | pattern qs =>
        simp only [List.cons_append] at h ⊢
        rw [matchSegments_pattern] at h
        cases hq : matchParts qs seg.data with
        | none => rw [hq] at h; cases h
        | some b =>
          rw [hq] at h
          cases hr : matchSegments (ss ++ .pattern sa :: ra) rest with
          | none => rw [hr] at h; cases h
          | some more =>
            rw [hr] at h
            simp only [Option.map_some', Option.some.injEq] at h
            subst h
            have := ih rest (acc ++ b) more hwl2 hr
            rw [insert_pattern_empty, insert_pattern_single, matchNode_cons]
            simp [RouteNode.literals, RouteNode.patterns, RouteNode.wildcard, findChild,
              tryPatterns, this, Resolution.orElse, hq]

/-- C9 (as amended): at every level of the route tree a full match found below
the literal child wins; otherwise the first pattern child in list order whose
fragments match the segment and below which the rest of the path is fully
matched wins; otherwise the wildcard child decides.  Registration keeps the
pattern children of a node in their order and puts a new one last, so the
entry below the sibling child registered first is the one resolved; of two
sibling pattern routes registered into an empty register the one registered
first is resolved whenever it matches the path, also when the later one matches
too. -/
theorem first_registered_sibling_wins (m : String) :
    (∀ (n : RouteNode) (seg : String) (rest : List String) (acc : Params) (c : RouteNode)
        (e : RouteEntry) (ps : Params),
      findChild seg n.literals = some c → c.matchNode m rest acc = .found e ps →
        n.matchNode m (seg :: rest) acc = .found e ps) ∧
    (∀ (n : RouteNode) (seg : String) (rest : List String) (acc : Params)
        (before after : List (List Part × RouteNode)) (qs : List Part) (c : RouteNode)
        (bs : Params) (e : RouteEntry) (ps : Params),
      n.patterns = before ++ (qs, c) :: after →
      (∀ d, findChild seg n.literals = some d → (d.matchNode m rest acc).isFound = false) →
      (∀ x ∈ before, ∀ b, matchParts x.1 seg.data = some b →
        (x.2.matchNode m rest (acc ++ b)).isFound = false) →
      matchParts qs seg.data = some bs → c.matchNode m rest (acc ++ bs) = .found e ps →
        n.matchNode m (seg :: rest) acc = .found e ps) ∧
    (∀ (n : RouteNode) (seg : String) (rest : List String) (acc : Params) (w : RouteNode)
        (e : RouteEntry) (ps : Params),
      n.wildcard = some w →
      (∀ d, findChild seg n.literals = some d → (d.matchNode m rest acc).isFound = false) →
      (∀ x ∈ n.patterns, ∀ b, matchParts x.1 seg.data = some b →
        (x.2.matchNode m rest (acc ++ b)).isFound = false) →
      scanEntries m (acc ++ [(splatKey, joinSlash (seg :: rest))]) w.entries = .found e ps →
        n.matchNode m (seg :: rest) acc = .found e ps) ∧
    (∀ (n : RouteNode) (p : List Segment) (e : RouteEntry),
      ∃ extra, (RouteNode.insert p e n).patterns.map Prod.fst =
        n.patterns.map Prod.fst ++ extra) ∧
    (∀ (ta tb : String) (ida idb : HandlerId) (msa msb : List String) (soa sob : Option Bool)
        (r1 r2 : ControllerRegister) (ea eb : RouteEntry) (pre : List Segment) (sa sb : List Part)
        (ra rb : List Segment) (path : String) (bs : Params),
      NewControllerRegister.Add ta ida msa soa = .ok r1 → r1.Add tb idb msb sob = .ok r2 →
      r2.entries = [ea, eb] →
      ea.pattern.segments = pre ++ .pattern sa :: ra →
      eb.pattern.segments = pre ++ .pattern sb :: rb → sa ≠ sb →
      ea.pattern.matchPath path = some bs → ea.methods.accepts m = true →
        r2.resolve m path = .found ea bs) := by
  refine ⟨?_, ?_, ?_, fun n p e => insert_pattern_keys p e n, ?_⟩
  · intro n seg rest acc c e ps hf hc
    rw [matchNode_cons, hf]
    exact orElse_of_found _ _ e ps (orElse_of_found _ _ e ps hc)
  · intro n seg rest acc before after qs c bs e ps hpat hlit hbefore hm hc
    rw [matchNode_cons, hpat]
    apply orElse_of_found
    have htp := tryPatterns_first seg (fun c bs => c.matchNode m rest (acc ++ bs)) before after
      qs c bs e ps hbefore hm hc
    rw [orElse_of_not_found _ _ _ (by rw [htp]; rfl)]
    · exact htp
    · cases hf : findChild seg n.literals with
      | none => rfl
      | some d => exact hlit d hf
  · intro n seg rest acc w e ps hw hlit hpats hscan
    rw [matchNode_cons, hw]
    simp only
    rw [orElse_of_not_found _ _ _ (by rw [hscan]; rfl)]
    · exact hscan
    · rw [orElse_isFound, tryPatterns_none_found seg _ n.patterns hpats]
      cases hf : findChild seg n.literals with
      | none => rfl
      | some d => simp [hlit d hf]
  · intro ta tb ida idb msa msb soa sob r1 r2 ea eb pre sa sb ra rb path bs h1 h2 hent hsa hsb hne
      hmatch ha
    obtain ⟨pa, ma, hpa, _, hr1⟩ := add_ok _ _ _ _ _ _ h1
    obtain ⟨pb, mb, hpb, _, hr2⟩ := add_ok _ _ _ _ _ _ h2
    obtain ⟨_, hwl, _, _⟩ := compile_ok ta pa hpa
    subst hr1
    subst hr2
    simp only [NewControllerRegister, List.nil_append, List.cons_append, List.cons.injEq, and_true]
      at hent
    obtain ⟨hea, heb⟩ := hent
    have hpa2 : pa = ea.pattern := by rw [← hea]
    have hpb2 : pb = eb.pattern := by rw [← heb]
    unfold ControllerRegister.resolve RouteNode.resolve
    simp only [NewControllerRegister]
    rw [hea, heb, hpa2, hpb2, hsa, hsb]
    have hwl2 : wildcardLast (pre ++ .pattern sa :: ra) = true := by
      rw [← hsa, ← hpa2]
      exact hwl
    have hm2 : matchSegments (pre ++ .pattern sa :: ra) (splitPath path) = some bs := by
      rw [← hsa]
      exact hmatch
    have := sibling_found m ea eb ha sa sb hne ra rb pre (splitPath path) [] bs hwl2 hm2
    simpa using this

theorem first_registered_sibling_wins_witness :
    siblingSecond.pattern.matchPath "/blog/7/edit" = some [(":name", "7")] ∧
      siblingRegister.resolve "GET" "/blog/7/edit" = .found siblingFirst [(":id", "7")] :=
  ⟨by decide,
   (first_registered_sibling_wins "GET").2.2.2.2 "/blog/:id/edit" "/blog/:name/edit"
     (.func "editById") (.func "editByName") ["GET"] ["GET"] none none
     (NewControllerRegister.addRoute "/blog/:id/edit" (.func "editById") ["GET"]) siblingRegister
     siblingFirst siblingSecond [.literal "blog"] [.cap "id" .any] [.cap "name" .any]
     [.literal "edit"] [.literal "edit"] "/blog/7/edit" [(":id", "7")]
     rfl rfl (by decide) rfl rfl (by decide) (by decide) (by decide)⟩

/-- C9 (counterexample): `/:org/:repo` is registered before `/:user/:page`,
the two are sibling patterns of equal specificity and both match `/acme/site`,
yet the entry resolved is the later one, because its sibling child `:user` was
put into the tree earlier by `/:user/settings`. -/
theorem later_entry_of_earlier_sibling_wins :
    sharedSiblingRegister.entries.map (fun e => (e.pattern.text, e.pattern.matchPath "/acme/site"))
        = [("/:user/settings", none),
           ("/:org/:repo", some [(":org", "acme"), (":repo", "site")]),
           ("/:user/:page", some [(":user", "acme"), (":page", "site")])] ∧
      sharedSiblingRegister.entries.map (fun e => e.pattern.segments.map Segment.rank) =
        [[2, 3], [2, 2], [2, 2]] ∧
      sharedSiblingRegister.resolve "GET" "/acme/site" =
        .found ⟨⟨"/:user/:page", [.pattern [.cap "user" .any], .pattern [.cap "page" .any]]⟩,
          .only ["GET"], .func "page", none⟩ [(":user", "acme"), (":page", "site")] := by
  decide

/-! ## The trailing wildcard -/

theorem joinSlash_cons_data (s t : String) (ss : List String) :
    (joinSlash (s :: t :: ss)).data = s.data ++ '/' :: (joinSlash (t :: ss)).data := by
  simp [joinSlash, String.data_append]

theorem joinSlash_splitSlash_data (cs : List Char) :
    (joinSlash ((splitSlash cs).map String.mk)).data = cs := by
  induction cs with
  | nil => rfl
  | cons c cs ih =>
    by_cases hc : c = '/'
    · subst hc
      rw [splitSlash_cons_slash]
      cases h : splitSlash cs with
      | nil => exact absurd h (splitSlash_ne_nil cs)
      | cons x xs =>
        rw [h] at ih
        simp only [List.map_cons] at ih ⊢
        rw [joinSlash_cons_data, ih]
        rfl
    · obtain ⟨x, xs, h1, h2⟩ := splitSlash_cons_other c cs hc
      rw [h1] at ih
      rw [h2]
      cases xs with
      | nil =>
        simp only [List.map_cons, List.map_nil, joinSlash] at ih ⊢
        rw [ih]
      | cons y ys =>
        simp only [List.map_cons] at ih ⊢
        rw [joinSlash_cons_data] at ih ⊢
        simp only [List.cons_append, List.cons.injEq, true_and]
        exact ih

theorem joinSlash_splitSlash (text : String) :
    joinSlash ((splitSlash text.data).map String.mk) = text := by
  have h := joinSlash_splitSlash_data text.data
  exact String.ext h

theorem splitPath_beego (text : String) :
    splitPath ("/beego/" ++ text) = "beego" :: (splitSlash text.data).map String.mk := by
  unfold splitPath
  have hd : ("/beego/" ++ text).data = '/' :: ("beego".data ++ ('/' :: text.data)) := by
    rw [String.data_append]
    rfl
  rw [hd, splitSlash_cons_slash]
  obtain ⟨x, xs, h1, h2⟩ := splitSlash_append "beego".data ('/' :: text.data) (by decide)
  rw [splitSlash_cons_slash] at h1
  cases h1
  rw [h2]
  simp

theorem matchSegments_trailing_wildcard (ss : List Segment) :
    ∀ (pre : List String) (bs : Params) (seg : String) (rest : List String),
      (∀ s ∈ ss, s ≠ Segment.wildcard) → matchSegments ss pre = some bs →
        matchSegments (ss ++ [.wildcard]) (pre ++ seg :: rest) =
          some (bs ++ [(splatKey, joinSlash (seg :: rest))]) := by
  induction ss with
  | nil =>
    intro pre bs seg rest _ hm
    cases pre with
    | nil =>
      simp only [matchSegments, Option.some.injEq] at hm
      subst hm
      simp [matchSegments_wildcard]
    | cons a as => simp [matchSegments] at hm
  | cons s ss ih =>
    intro pre bs seg rest hw hm
    cases pre with
    | nil => exact absurd (matchSegments_nil_right _ _ hm).1 (by simp)
    | cons a as =>
      have hs : s ≠ Segment.wildcard := hw s (by simp)
      have hss : ∀ x ∈ ss, x ≠ Segment.wildcard := fun x hx => hw x (by simp [hx])
      cases s with
      | wildcard => exact absurd rfl hs
      | literal t =>
        simp only [List.cons_append]
        rw [matchSegments_literal] at hm ⊢
        by_cases ha : a = t
        · simp only [ha, if_true] at hm ⊢
          exact ih as bs seg rest hss hm
        · simp [ha] at hm
      | pattern ps =>
        simp only [List.cons_append]
        rw [matchSegments_pattern] at hm ⊢
        cases hp : matchParts ps a.data with
        | none => simp [hp] at hm
        | some b =>
          simp only [hp] at hm ⊢
          cases hr : matchSegments ss as with
          | none => simp [hr] at hm
          | some more =>
            rw [hr] at hm
            simp only [Option.map_some', Option.some.injEq] at hm
            subst hm
            rw [ih as more seg rest hss hr]
            simp

theorem paramReset_tree :
    (paramResetRegister false).tree =
      .mk [("beego", .mk [] [] (some (.mk [] [] none [beegoEntry])) [])] [] none [] := by
  rfl

theorem beego_resolve (rest : String) :
    (paramResetRegister false).resolve "GET" ("/beego/" ++ rest) =
      .found beegoEntry [(":splat", rest)] := by
  unfold ControllerRegister.resolve RouteNode.resolve
  rw [splitPath_beego, paramReset_tree]
  have hj := joinSlash_splitSlash rest
  cases h : splitSlash rest.data with
  | nil => exact absurd h (splitSlash_ne_nil _)
  | cons x xs =>
    rw [h] at hj
    simp only [List.map_cons] at hj ⊢
    rw [matchNode_cons]
    simp only [RouteNode.literals, findChild, if_true, RouteNode.patterns, tryPatterns,
      RouteNode.wildcard]
    rw [matchNode_cons]
    simp only [RouteNode.literals, findChild, RouteNode.patterns, tryPatterns,
      RouteNode.wildcard, RouteNode.entries, hj]
    rfl

/-- C11: a trailing wildcard takes the whole remainder of the path under
`:splat`: when the segments in front of the wildcard match the front of a path,
the pattern with the wildcard appended matches the path with one or more further
segments and binds `:splat` to those segments joined by `/`; joining the pieces
of a text split on `/` gives the text back, slashes included.  The pattern
`/beego/*` compiles to the literal `beego` followed by the wildcard; every path
`/beego/` followed by a text splits into `beego` and one or more segments, is
matched by the pattern with `:splat` bound to the text, and is resolved by the
register of TestParamResetFilter to the entry of `/beego/*` with that binding;
`/beego/routes/routes` gives `routes/routes`, and `/beego` is not matched. -/
theorem wildcard_captures_remainder :
    (∀ (ss : List Segment) (pre : List String) (bs : Params) (seg : String) (rest : List String),
      (∀ s ∈ ss, s ≠ Segment.wildcard) → matchSegments ss pre = some bs →
        matchSegments (ss ++ [.wildcard]) (pre ++ seg :: rest) =
          some (bs ++ [(splatKey, joinSlash (seg :: rest))])) ∧
    (∀ text : String, joinSlash ((splitSlash text.data).map String.mk) = text) ∧
    PatternCompiler.compile "/beego/*" = .ok beegoPattern ∧
    (∀ rest : String, ∃ seg more,
      splitPath ("/beego/" ++ rest) = "beego" :: seg :: more ∧ joinSlash (seg :: more) = rest ∧
      beegoPattern.matchPath ("/beego/" ++ rest) = some [(":splat", rest)] ∧
      (paramResetRegister false).resolve "GET" ("/beego/" ++ rest) =
        .found beegoEntry [(":splat", rest)]) ∧
    (paramResetRegister false).resolve "GET" "/beego/routes/routes" =
      .found beegoEntry [(":splat", "routes/routes")] ∧
    beegoPattern.matchPath "/beego" = none := by
  refine ⟨fun ss => matchSegments_trailing_wildcard ss, joinSlash_splitSlash, rfl, ?_,
    beego_resolve "routes/routes", by decide⟩
  intro rest
  have hj := joinSlash_splitSlash rest
  cases h : splitSlash rest.data with
  | nil => exact absurd h (splitSlash_ne_nil _)
  | cons x xs =>
    rw [h] at hj
    refine ⟨String.mk x, xs.map String.mk, ?_, hj, ?_, beego_resolve rest⟩
    · rw [splitPath_beego, h]
      rfl
    · unfold RoutePattern.matchPath
      rw [splitPath_beego, h]
      simp only [beegoPattern, List.map_cons]
      rw [matchSegments_literal, if_pos rfl, matchSegments_wildcard]
      simp only [List.map_cons] at hj
      rw [hj]
      rfl

theorem wildcard_captures_remainder_witness :
    matchSegments [.literal "beego"] ["beego"] = some [] ∧
      matchSegments [.literal "beego", .wildcard] ["beego", "routes", "routes"] =
        some [(":splat", "routes/routes")] :=
  ⟨by decide,
   wildcard_captures_remainder.1 [.literal "beego"] ["beego"] [] "routes" ["routes"]
     (by decide) (by decide)⟩

/-! ## The FinishRouter point and `returnOnOutput` -/

theorem run_started (f : FilterEntry) (segs : List String) (c out : Context)
    (h : f.run segs c = some out)
    (hk : ∀ x : Context, x.started = true → (f.filterFunc x).started = true)
    (hc : c.started = true) : out.started = true := by
  unfold FilterEntry.run at h
  cases hm : f.scope.matchPath segs with
  | none => simp [hm] at h
  | some bs =>
    simp only [hm, Option.some.injEq] at h
    subst h
    have := hk { c with params := bindParams c.params bs } hc
    split <;> simpa using this

theorem runFilters_written_stops (pt : ExecPoint) (segs : List String) (f : FilterEntry)
    (fs : List FilterEntry) (i : Nat) (st : DispatchState) (hf : f.returnOnOutput = true)
    (hs : st.ctx.started = true) : runFilters pt segs (f :: fs) i st = (st, true) := by
  simp [runFilters, hf, hs]

theorem runFilters_skips (pt : ExecPoint) (segs : List String) (fs : List FilterEntry) :
    ∀ (i : Nat) (st : DispatchState) (j : Nat) (f : FilterEntry) (evs : List Event),
      fs[j]? = some f → f.returnOnOutput = true →
      (∀ k g, k < j → fs[k]? = some g →
        ∀ x : Context, x.started = true → (g.filterFunc x).started = true) →
      (runFilters pt segs fs i st).1.trace = st.trace ++ evs →
      (st.ctx.started = true ∨ ∃ k, k < j ∧ Event.filter pt (i + k) true ∈ evs) →
      ∀ w, Event.filter pt (i + j) w ∉ evs := by
  induction fs with
  | nil => intro i st j f evs hj; simp at hj
  | cons f0 fs ih =>
    intro i st j f evs hj hroo hkeep htr hw w
    cases j with
    | zero =>
      simp only [List.getElem?_cons_zero, Option.some.injEq] at hj
      subst hj
      have hs : st.ctx.started = true := by
        rcases hw with h | ⟨k, hk, _⟩
        · exact h
        · omega
      rw [runFilters_written_stops pt segs f0 fs i st hroo hs] at htr
      have : evs = [] := by simpa using htr
      simp [this]
    | succ j =>
      simp only [List.getElem?_cons_succ] at hj
      have hkeep0 : ∀ x : Context, x.started = true → (f0.filterFunc x).started = true :=
        hkeep 0 f0 (by omega) (by simp)
      have hkeep2 : ∀ k g, k < j → fs[k]? = some g →
          ∀ x : Context, x.started = true → (g.filterFunc x).started = true :=
        fun k g hk hg => hkeep (k + 1) g (by omega) (by simpa using hg)
      simp only [runFilters] at htr
      split at htr
      · have : evs = [] := by simpa using htr
        simp [this]
      · cases hrun : f0.run segs st.ctx with
        | none =>
          simp only [hrun] at htr
          obtain ⟨evs2, h1, h2, _⟩ := runFilters_trace pt segs fs (i + 1) st
          have he : evs = evs2 := by
            rw [h1] at htr
            exact (List.append_cancel_left htr).symm
          have hw2 : st.ctx.started = true ∨
              ∃ k, k < j ∧ Event.filter pt (i + 1 + k) true ∈ evs := by
            rcases hw with h | ⟨k, hk, hmem⟩
            · exact .inl h
            · right
              rw [he] at hmem
              obtain ⟨j2, w2, h3, h4, _⟩ := h2 _ hmem
              cases h3
              cases k with
              | zero => omega
              | succ k =>
                refine ⟨k, by omega, ?_⟩
                rw [he]
                have : i + 1 + k = i + (k + 1) := by omega
                rw [this]
                exact hmem
          have := ih (i + 1) st j f evs hj hroo hkeep2 htr hw2 w
          have he2 : i + 1 + j = i + (j + 1) := by omega
          rw [he2] at this
          exact this
        | some c =>
          simp only [hrun] at htr
          split at htr
          · have : evs = [Event.filter pt i c.started] := by
              simp only at htr
              exact (List.append_cancel_left htr).symm
            simp [this]
          · obtain ⟨evs2, h1, h2, _⟩ := runFilters_trace pt segs fs (i + 1)
              ⟨c, st.trace ++ [Event.filter pt i c.started]⟩
            have he : evs = Event.filter pt i c.started :: evs2 := by
              rw [h1] at htr
              simp only [List.append_assoc, List.singleton_append] at htr
              exact (List.append_cancel_left htr).symm
            have hw2 : c.started = true ∨
                ∃ k, k < j ∧ Event.filter pt (i + 1 + k) true ∈ evs2 := by
              rcases hw with h | ⟨k, hk, hmem⟩
              · exact .inl (run_started f0 segs st.ctx c hrun hkeep0 h)
              · rw [he] at hmem
                cases k with
                | zero =>
                  left
                  simp only [Nat.add_zero, List.mem_cons, Event.filter.injEq, true_and] at hmem
                  rcases hmem with h | h
                  · exact h.symm
                  · obtain ⟨j2, w2, h3, h4, _⟩ := h2 _ h
                    cases h3
                    omega
                | succ k =>
                  right
                  refine ⟨k, by omega, ?_⟩
                  have hne : Event.filter pt (i + (k + 1)) true ≠ Event.filter pt i c.started := by
                    simp
                  have : i + 1 + k = i + (k + 1) := by omega
                  rw [this]
                  exact (List.mem_cons.mp hmem).resolve_left hne
            have h5 := ih (i + 1) ⟨c, st.trace ++ [Event.filter pt i c.started]⟩ j f evs2 hj hroo
              hkeep2 h1 hw2 w
            have he2 : i + 1 + j = i + (j + 1) := by omega
            rw [he2] at h5
            rw [he]
            simp only [List.mem_cons, Event.filter.injEq, true_and, not_or]
            exact ⟨by omega, h5⟩

theorem runFilters_all (pt : ExecPoint) (segs : List String) (fs : List FilterEntry) :
    ∀ (i : Nat) (st : DispatchState),
      (∀ f ∈ fs, f.returnOnOutput = false) → (∀ f ∈ fs, f.scope.matchPath segs ≠ none) →
      ∃ ws : List Bool, ws.length = fs.length ∧
        (runFilters pt segs fs i st).1.trace =
          st.trace ++ (List.enumFrom i ws).map (fun p => Event.filter pt p.1 p.2) ∧
        (runFilters pt segs fs i st).1.ctx =
          fs.foldl (fun c f => (f.run segs c).getD c) st.ctx := by
  induction fs with
  | nil =>
    intro i st _ _
    exact ⟨[], rfl, by simp [runFilters], by simp [runFilters]⟩
  | cons f fs ih =>
    intro i st hroo hscope
    have h0 : f.returnOnOutput = false := hroo f (by simp)
    obtain ⟨c, hc⟩ := run_isSome f segs st.ctx (hscope f (by simp))
    obtain ⟨ws, h1, h2, h3⟩ := ih (i + 1) ⟨c, st.trace ++ [Event.filter pt i c.started]⟩
      (fun g hg => hroo g (by simp [hg])) (fun g hg => hscope g (by simp [hg]))
    refine ⟨c.started :: ws, by simp [h1], ?_, ?_⟩
    · simp only [runFilters, h0, Bool.false_and, Bool.false_eq_true, if_false, hc]
      rw [h2]
      simp [List.enumFrom]
    · simp only [runFilters, h0, Bool.false_and, Bool.false_eq_true, if_false, hc]
      rw [h3]
      simp [hc]

theorem runFilters_runs_in (pt : ExecPoint) (segs : List String) (fs : List FilterEntry) :
    ∀ (i : Nat) (st : DispatchState) (j : Nat) (f : FilterEntry) (evs : List Event),
      fs[j]? = some f → f.scope.matchPath segs ≠ none →
      (∀ k g, k ≤ j → fs[k]? = some g → g.returnOnOutput = false) →
      (runFilters pt segs fs i st).1.trace = st.trace ++ evs →
      ∃ w, Event.filter pt (i + j) w ∈ evs := by
  induction fs with
  | nil => intro i st j f evs hj; simp at hj
  | cons f0 fs ih =>
    intro i st j f evs hj hm hroo htr
    have h0 : f0.returnOnOutput = false := hroo 0 f0 (by omega) (by simp)
    simp only [runFilters, h0, Bool.false_and, Bool.false_eq_true, if_false] at htr
    cases j with
    | zero =>
      simp only [List.getElem?_cons_zero, Option.some.injEq] at hj
      subst hj
      obtain ⟨c, hc⟩ := run_isSome f0 segs st.ctx hm
      rw [hc] at htr
      obtain ⟨evs2, h1, _, _⟩ := runFilters_trace pt segs fs (i + 1)
        ⟨c, st.trace ++ [Event.filter pt i c.started]⟩
      simp only at htr
      rw [h1] at htr
      simp only [List.append_assoc, List.singleton_append] at htr
      have he := List.append_cancel_left htr
      exact ⟨c.started, by rw [← he]; simp⟩
    | succ j =>
      simp only [List.getElem?_cons_succ] at hj
      have hroo2 : ∀ k g, k ≤ j → fs[k]? = some g → g.returnOnOutput = false :=
        fun k g hk hg => hroo (k + 1) g (by omega) (by simpa using hg)
      have hidx : i + (j + 1) = i + 1 + j := by omega
      rw [hidx]
      cases hrun : f0.run segs st.ctx with
      | none =>
        simp only [hrun] at htr
        exact ih (i + 1) st j f evs hj hm hroo2 htr
      | some c =>
        simp only [hrun] at htr
        obtain ⟨evs2, h1, _, _⟩ := runFilters_trace pt segs fs (i + 1)
          ⟨c, st.trace ++ [Event.filter pt i c.started]⟩
        have he : evs = Event.filter pt i c.started :: evs2 := by
          rw [h1] at htr
          simp only [List.append_assoc, List.singleton_append] at htr
          exact (List.append_cancel_left htr).symm
        obtain ⟨w, hw⟩ := ih (i + 1) ⟨c, st.trace ++ [Event.filter pt i c.started]⟩ j f evs2 hj hm
          hroo2 h1
        exact ⟨w, by rw [he]; exact List.mem_cons_of_mem _ hw⟩

theorem runFilters_stops (pt : ExecPoint) (segs : List String) (fs : List FilterEntry) :
    ∀ (i : Nat) (st : DispatchState) (k : Nat) (g : FilterEntry) (evs : List Event),
      fs[k]? = some g → g.returnOnOutput = true →
      (∀ n h, n < k → fs[n]? = some h →
        ∀ x : Context, x.started = true → (h.filterFunc x).started = true) →
      (runFilters pt segs fs i st).1.trace = st.trace ++ evs →
      st.ctx.started = true →
      ∀ j w, k ≤ j → Event.filter pt (i + j) w ∉ evs := by
  induction fs with
  | nil => intro i st k g evs hk; simp at hk
  | cons f0 fs ih =>
    intro i st k g evs hk hroo hkeep htr hs j w hj
    cases k with
    | zero =>
      simp only [List.getElem?_cons_zero, Option.some.injEq] at hk
      subst hk
      rw [runFilters_written_stops pt segs f0 fs i st hroo hs] at htr
      have : evs = [] := by simpa using htr
      simp [this]
    | succ k =>
      simp only [List.getElem?_cons_succ] at hk
      have hkeep0 : ∀ x : Context, x.started = true → (f0.filterFunc x).started = true :=
        hkeep 0 f0 (by omega) (by simp)
      have hkeep2 : ∀ n h, n < k → fs[n]? = some h →
          ∀ x : Context, x.started = true → (h.filterFunc x).started = true :=
        fun n h hn hh => hkeep (n + 1) h (by omega) (by simpa using hh)
      obtain ⟨j2, hj2⟩ : ∃ j2, j = j2 + 1 := ⟨j - 1, by omega⟩
      subst hj2
      have hidx : i + (j2 + 1) = i + 1 + j2 := by omega
      simp only [runFilters] at htr
      split at htr
      · have : evs = [] := by simpa using htr
        simp [this]
      · cases hrun : f0.run segs st.ctx with
        | none =>
          simp only [hrun] at htr
          rw [hidx]
          exact ih (i + 1) st k g evs hk hroo hkeep2 htr hs j2 w (by omega)
        | some c =>
          simp only [hrun] at htr
          have hc : c.started = true := run_started f0 segs st.ctx c hrun hkeep0 hs
          split at htr
          · have : evs = [Event.filter pt i c.started] := by
              simp only at htr
              exact (List.append_cancel_left htr).symm
            simp [this]
          · obtain ⟨evs2, h1, _, _⟩ := runFilters_trace pt segs fs (i + 1)
              ⟨c, st.trace ++ [Event.filter pt i c.started]⟩
            have he : evs = Event.filter pt i c.started :: evs2 := by
              rw [h1] at htr
              simp only [List.append_assoc, List.singleton_append] at htr
              exact (List.append_cancel_left htr).symm
            have h5 := ih (i + 1) ⟨c, st.trace ++ [Event.filter pt i c.started]⟩ k g evs2 hk hroo
              hkeep2 h1 hc j2 w (by omega)
            rw [he, hidx]
            simp only [List.mem_cons, Event.filter.injEq, true_and, not_or]
            exact ⟨by omega, h5⟩

theorem runFilters_ordered (pt : ExecPoint) (segs : List String) (fs : List FilterEntry) :
    ∀ (i : Nat) (st : DispatchState),
      ∃ js : List (Nat × Bool),
        (runFilters pt segs fs i st).1.trace =
          st.trace ++ js.map (fun p => Event.filter pt p.1 p.2) ∧
        (∀ p ∈ js, i ≤ p.1) ∧ (js.map Prod.fst).Pairwise (fun a b => a < b) := by
  induction fs with
  | nil =>
    intro i st
    exact ⟨[], by simp [runFilters], by simp, by simp⟩
  | cons f0 fs ih =>
    intro i st
    simp only [runFilters]
    split
    · exact ⟨[], by simp, by simp, by simp⟩
    · split
      · obtain ⟨js, h1, h2, h3⟩ := ih (i + 1) st
        exact ⟨js, h1, fun p hp => by have := h2 p hp; omega, h3⟩
      · next c hrun =>
        split
        · exact ⟨[(i, c.started)], by simp, by simp, by simp⟩
        · obtain ⟨js, h1, h2, h3⟩ := ih (i + 1) ⟨c, st.trace ++ [Event.filter pt i c.started]⟩
          refine ⟨(i, c.started) :: js, by simp [h1], ?_, ?_⟩
          · intro p hp
            rcases List.mem_cons.mp hp with h | h
            · subst h; exact Nat.le_refl _
            · have := h2 p h; omega
          · simp only [List.map_cons, List.pairwise_cons]
            refine ⟨fun a ha => ?_, h3⟩
            obtain ⟨p, hp, rfl⟩ := List.mem_map.mp ha
            have := h2 p hp
            omega

/-- C15 (as amended): the options of a filter registered without option have
`returnOnOutput` set.  At the FinishRouter point, a filter registered with
`returnOnOutput` set does not run (no event of its index is recorded) when the
response was already written on entry to the point, for instance by the handler,
or when an earlier FinishRouter filter ran and left the response written, the
filters in front of it never clearing the output-written flag.  Such a filter
also ends the point: when the response is written on entry to the point, a
filter registered with `returnOnOutput` clear whose scope matches the path runs
if and only if every FinishRouter filter registered before it was registered
with `returnOnOutput` clear (the filters in front of it never clearing the
output-written flag).  The filters that run do so in registration order: the
events recorded at the point have increasing indices.  When all FinishRouter
filters are registered with `returnOnOutput` clear and their scopes match the
path, every one of them runs: the events recorded at the point are those of the
indices 0, 1, 2, ... in this order, and the context is the one obtained by
running the filters one after the other.  In TestFilterFinishRouter the handler
writes `hello` and the FinishRouter filter does not run; in
TestFilterFinishRouterMultiFirstOnly the first filter runs after the handler and
the second, registered without option, does not; in TestFilterFinishRouterMulti
both run after the handler, in registration order. -/
theorem finishRouter_returnOnOutput (reg : ControllerRegister) (segs : List String)
    (st : DispatchState) :
    ({} : FilterOptions).returnOnOutput = true ∧
    (∀ (j : Nat) (f : FilterEntry) (evs : List Event),
      (reg.chain .FinishRouter)[j]? = some f → f.returnOnOutput = true →
      (∀ k g, k < j → (reg.chain .FinishRouter)[k]? = some g →
        ∀ x : Context, x.started = true → (g.filterFunc x).started = true) →
      (reg.finish segs st).trace = st.trace ++ evs →
      (st.ctx.started = true ∨ ∃ k, k < j ∧ Event.filter .FinishRouter k true ∈ evs) →
      ∀ w, Event.filter .FinishRouter j w ∉ evs) ∧
    (∀ (j : Nat) (f : FilterEntry) (evs : List Event),
      (reg.chain .FinishRouter)[j]? = some f → f.returnOnOutput = false →
      f.scope.matchPath segs ≠ none →
      (∀ k g, k < j → (reg.chain .FinishRouter)[k]? = some g →
        ∀ x : Context, x.started = true → (g.filterFunc x).started = true) →
      (reg.finish segs st).trace = st.trace ++ evs → st.ctx.started = true →
      ((∃ w, Event.filter .FinishRouter j w ∈ evs) ↔
        ∀ k g, k < j → (reg.chain .FinishRouter)[k]? = some g → g.returnOnOutput = false)) ∧
    (∃ js : List (Nat × Bool),
      (reg.finish segs st).trace =
        st.trace ++ js.map (fun p => Event.filter .FinishRouter p.1 p.2) ∧
      (js.map Prod.fst).Pairwise (fun a b => a < b)) ∧
    ((∀ f ∈ reg.chain .FinishRouter, f.returnOnOutput = false) →
      (∀ f ∈ reg.chain .FinishRouter, f.scope.matchPath segs ≠ none) →
      ∃ ws : List Bool, ws.length = (reg.chain .FinishRouter).length ∧
        (reg.finish segs st).trace =
          st.trace ++ (List.enumFrom 0 ws).map (fun p => Event.filter .FinishRouter p.1 p.2) ∧
        (reg.finish segs st).ctx =
          (reg.chain .FinishRouter).foldl (fun c f => (f.run segs c).getD c) st.ctx) ∧
    ((finishRouterRegister.ServeHTTP testConfig helloImpl ⟨"GET", "/finishRouter", ""⟩).trace =
        [.filter .BeforeRouter 0 false, .filter .BeforeExec 0 false, .handler filterFuncId] ∧
      (finishRouterRegister.ServeHTTP testConfig helloImpl ⟨"GET", "/finishRouter", ""⟩).ctx.body =
        "hello") ∧
    ((finishRouterFirstOnlyRegister.ServeHTTP testConfig helloImpl
          ⟨"GET", "/finishRouterMultiFirstOnly", ""⟩).trace =
        [.handler filterFuncId, .filter .FinishRouter 0 true] ∧
      (finishRouterFirstOnlyRegister.ServeHTTP testConfig helloImpl
          ⟨"GET", "/finishRouterMultiFirstOnly", ""⟩).ctx.body = "hello|FinishRouter1") ∧
    ((finishRouterMultiRegister.ServeHTTP testConfig helloImpl
          ⟨"GET", "/finishRouterMulti", ""⟩).trace =
        [.handler filterFuncId, .filter .FinishRouter 0 true, .filter .FinishRouter 1 true] ∧
      (finishRouterMultiRegister.ServeHTTP testConfig helloImpl
          ⟨"GET", "/finishRouterMulti", ""⟩).ctx.body = "hello|FinishRouter1|FinishRouter2") := by
  refine ⟨rfl, ?_, ?_, ?_, ?_, by decide, by decide, by decide⟩
  · intro j f evs hj hroo hkeep htr hw w
    have := runFilters_skips .FinishRouter segs (reg.chain .FinishRouter) 0 st j f evs hj hroo
      hkeep htr (by simpa using hw) w
    simpa using this
  · intro j f evs hj hroo hscope hkeep htr hs
    constructor
    · intro hrun k g hk hg
      cases hg2 : g.returnOnOutput with
      | false => rfl
      | true =>
        obtain ⟨w, hw⟩ := hrun
        have := runFilters_stops .FinishRouter segs (reg.chain .FinishRouter) 0 st k g evs hg hg2
          (fun n h hn hh => hkeep n h (by omega) hh) htr hs j w (by omega)
        exact absurd hw (by simpa using this)
    · intro hall
      have := runFilters_runs_in .FinishRouter segs (reg.chain .FinishRouter) 0 st j f evs hj
        hscope (fun k g hk hg => by
          rcases Nat.lt_or_eq_of_le hk with h | h
          · exact hall k g h hg
          · subst h
            rw [hj] at hg
            exact (Option.some.inj hg) ▸ hroo) htr
      simpa using this
  · obtain ⟨js, h1, _, h3⟩ := runFilters_ordered .FinishRouter segs (reg.chain .FinishRouter) 0 st
    exact ⟨js, h1, h3⟩
  · intro hroo hscope
    exact runFilters_all .FinishRouter segs (reg.chain .FinishRouter) 0 st hroo hscope

theorem finishRouter_returnOnOutput_witness :
    (finishRouterFirstOnlyRegister.finish ["finishRouterMultiFirstOnly"]
        ⟨(Context.initial testConfig).WriteString "hello", [.handler filterFuncId]⟩).trace =
        [.handler filterFuncId] ++ [.filter .FinishRouter 0 true] ∧
      ∀ w, Event.filter .FinishRouter 1 w ∉ [Event.filter .FinishRouter 0 true] :=
  ⟨by decide,
   (finishRouter_returnOnOutput finishRouterFirstOnlyRegister ["finishRouterMultiFirstOnly"]
      ⟨(Context.initial testConfig).WriteString "hello", [.handler filterFuncId]⟩).2.1 1
      ⟨.FinishRouter,
        .pattern ⟨"/finishRouterMultiFirstOnly", [.literal "finishRouterMultiFirstOnly"]⟩,
        fun c => c.WriteString "|FinishRouter2", true, false⟩
      [.filter .FinishRouter 0 true] rfl rfl
      (by
        intro k g hk hg x _
        have hk0 : k = 0 := by omega
        subst hk0
        have h2 : g = ⟨.FinishRouter,
            .pattern ⟨"/finishRouterMultiFirstOnly", [.literal "finishRouterMultiFirstOnly"]⟩,
            fun c => c.WriteString "|FinishRouter1", false, false⟩ :=
          (Option.some.inj hg).symm
        rw [h2]
        rfl)
      (by decide) (.inl rfl)⟩

/-- C15 (counterexample): with a FinishRouter filter registered without option
in front of one registered with `returnOnOutput` clear, both scopes matching the
path, the handler writes `hello` and neither filter runs: the filter registered
with `returnOnOutput` clear does not execute after the handler has written its
output. -/
theorem finishRouter_clear_after_set_skipped :
    ((finishRouterSecondOnlyRegister.chain .FinishRouter).map
        (fun f => (f.returnOnOutput,
          f.scope.matchPath (splitPath "/finishRouterMultiSecondOnly")))) =
        [(true, some []), (false, some [])] ∧
      (finishRouterSecondOnlyRegister.ServeHTTP testConfig helloImpl
          ⟨"GET", "/finishRouterMultiSecondOnly", ""⟩).trace = [.handler filterFuncId] ∧
      (finishRouterSecondOnlyRegister.ServeHTTP testConfig helloImpl
          ⟨"GET", "/finishRouterMultiSecondOnly", ""⟩).ctx.body = "hello" := by
  decide

/-! ## Registration of controller methods -/

theorem compileMethods_single_bad (m : String) (h1 : m ≠ "*") (h2 : upperName m ∉ HTTPMETHOD) :
    compileMethods [m] = .error (.invalidMethod (upperName m)) := by
  have h3 : ¬ ("*" = m) := fun h => h1 h.symm
  simp [compileMethods, List.find?, h2, h3]

theorem compileMethods_single_ok (m : String) (h : m = "*" ∨ upperName m ∈ HTTPMETHOD) :
    ∃ ms, compileMethods [m] = .ok ms := by
  by_cases h1 : m = "*"
  · exact ⟨.any, by simp [compileMethods, h1]⟩
  · have h2 : upperName m ∈ HTTPMETHOD := h.resolve_left h1
    have h3 : ¬ ("*" = m) := fun h => h1 h.symm
    exact ⟨.only [upperName m], by simp [compileMethods, List.find?, h2, h3]⟩

/-- C14: `AddRouterMethod` aborts, giving an error and no register, with the
text `not support http method: ` followed by the upper-cased name when the HTTP
method name is neither `*` nor a supported method; with a supported method name
it aborts with `not a method` when the handler value is not a method, with the
method name followed by ` is not a public method` when the method is not
public, and with the receiver type followed by
` is not implemented ControllerInterface` when the method is public and the
receiver type lacks the capability; when nothing of this holds the call is the
registration `Add` of the method for the pattern. -/
theorem addRouterMethod_aborts (reg : ControllerRegister) (httpMethod pattern : String)
    (f : HandlerValue) :
    (httpMethod ≠ "*" → upperName httpMethod ∉ HTTPMETHOD →
      ∃ e, reg.AddRouterMethod httpMethod pattern f = .error e ∧
        e.message = "not support http method: " ++ upperName httpMethod) ∧
    (httpMethod = "*" ∨ upperName httpMethod ∈ HTTPMETHOD →
      (∀ type, f = .value type →
        ∃ e, reg.AddRouterMethod httpMethod pattern f = .error e ∧ e.message = "not a method") ∧
      (∀ pkg type name c, f = .methodExpr pkg type name c → isPublicName name = false →
        ∃ e, reg.AddRouterMethod httpMethod pattern f = .error e ∧
          e.message = name ++ " is not a public method") ∧
      (∀ pkg type name, f = .methodExpr pkg type name false → isPublicName name = true →
        ∃ e, reg.AddRouterMethod httpMethod pattern f = .error e ∧
          e.message = pkg ++ "." ++ type ++ " is not implemented ControllerInterface") ∧
      (∀ pkg type name, f = .methodExpr pkg type name true → isPublicName name = true →
        reg.AddRouterMethod httpMethod pattern f =
          reg.Add pattern (.method type name) [httpMethod] none)) := by
  constructor
  · intro h1 h2
    refine ⟨.invalidMethod (upperName httpMethod), ?_, rfl⟩
    simp only [ControllerRegister.AddRouterMethod, compileMethods_single_bad httpMethod h1 h2]
  · intro h
    obtain ⟨ms, hms⟩ := compileMethods_single_ok httpMethod h
    refine ⟨?_, ?_, ?_, ?_⟩
    · intro type hf
      subst hf
      exact ⟨.notAMethod, by simp only [ControllerRegister.AddRouterMethod, hms], rfl⟩
    · intro pkg type name c hf hp
      subst hf
      exact ⟨.notPublic name, by simp [ControllerRegister.AddRouterMethod, hms, hp], rfl⟩
    · intro pkg type name hf hp
      subst hf
      exact ⟨.notController (pkg ++ "." ++ type),
        by simp [ControllerRegister.AddRouterMethod, hms, hp], rfl⟩
    · intro pkg type name hf hp
      subst hf
      simp [ControllerRegister.AddRouterMethod, hms, hp]

theorem addRouterMethod_aborts_witness :
    upperName "some random method" = "SOME RANDOM METHOD" ∧
    (∃ e, NewControllerRegister.AddRouterMethod "some random method" "/user"
        (.methodExpr "web" "ExampleController" "Ping" true) = .error e ∧
      e.message = "not support http method: " ++ upperName "some random method") ∧
    (∃ e, NewControllerRegister.AddRouterMethod "GET" "/user" (.value "web.ExampleController") =
        .error e ∧ e.message = "not a method") ∧
    (∃ e, NewControllerRegister.AddRouterMethod "GET" "/user"
        (.methodExpr "web" "ExampleController" "ping" true) = .error e ∧
      e.message = "ping" ++ " is not a public method") ∧
    (∃ e, NewControllerRegister.AddRouterMethod "GET" "/user"
        (.methodExpr "web" "TestControllerWithInterface" "Ping" false) = .error e ∧
      e.message = "web" ++ "." ++ "TestControllerWithInterface" ++
        " is not implemented ControllerInterface") :=
  ⟨by decide,
   (addRouterMethod_aborts NewControllerRegister "some random method" "/user"
      (.methodExpr "web" "ExampleController" "Ping" true)).1 (by decide) (by decide),
   ((addRouterMethod_aborts NewControllerRegister "GET" "/user"
      (.value "web.ExampleController")).2 (.inr (by decide))).1 "web.ExampleController" rfl,
   ((addRouterMethod_aborts NewControllerRegister "GET" "/user"
      (.methodExpr "web" "ExampleController" "ping" true)).2 (.inr (by decide))).2.1
        "web" "ExampleController" "ping" true rfl (by decide),
   ((addRouterMethod_aborts NewControllerRegister "GET" "/user"
      (.methodExpr "web" "TestControllerWithInterface" "Ping" false)).2 (.inr (by decide))).2.2.1
        "web" "TestControllerWithInterface" "Ping" rfl (by decide)⟩

/-! ## Convention routing -/

end Web
namespace Apiauth

/-! ## The filter of `APISecretAuth` -/

theorem firstValues_isSome (params : Values) :
    ∀ (pa : List (String × String)) (keys : List String), (∀ kv ∈ params, kv.2 ≠ []) →
      ∃ r, firstValues params pa keys = some r := by
  induction params with
  | nil => intro pa keys _; exact ⟨_, rfl⟩
  | cons kv rest ih =>
    intro pa keys h
    obtain ⟨k, v⟩ := kv
    cases v with
    | nil => exact absurd rfl (h (k, []) (by simp))
    | cons x xs =>
      simp only [firstValues]
      exact ih _ _ (fun kv hkv => h kv (by simp [hkv]))

theorem signature_isSome (mac : String → String → String) (appsecret method : String)
    (params : Values) (url : String) (h : ∀ kv ∈ params, kv.2 ≠ []) :
    ∃ sig, Signature mac appsecret method params url = some sig := by
  obtain ⟨r, hr⟩ := firstValues_isSome params [] [] h
  unfold Signature
  rw [hr]
  exact ⟨_, rfl⟩

/-- C16: for a request whose form binds every key to at least one value,
`Signature` returns a text, and the filter of `APISecretAuth(f, timeout)`
performs its checks in this order, each check that fails writing the status 403
with its message and ending the filter: the `appid` parameter is empty; `f` of
it is empty; the `signature` parameter is empty; the `timestamp` parameter is
empty; the timestamp does not parse in the layout `2006-01-02 15:04:05`; the
seconds from the timestamp to the current time exceed `timeout`; the
`signature` parameter differs from `Signature` of the secret, the method, the
form and the URL.  So the filter writes a 403 response if and only if at least
one of the seven conditions holds, and when none holds it writes nothing. -/
theorem apiSecretAuth_rejects_iff {τ : Type} (lib : TimeLib τ) (mac : String → String → String)
    (f : String → String) (timeout : Int) (ctx : Input) (hform : ∀ kv ∈ ctx.Form, kv.2 ≠ []) :
    ∃ sig, Signature mac (f (ctx.Query "appid")) ctx.Method ctx.Form ctx.URL = some sig ∧
      (ctx.Query "appid" = "" →
        APISecretAuth lib mac f timeout ctx = some (deny "missing query parameter: appid")) ∧
      (ctx.Query "appid" ≠ "" → f (ctx.Query "appid") = "" →
        APISecretAuth lib mac f timeout ctx = some (deny "appid query parameter missing")) ∧
      (ctx.Query "appid" ≠ "" → f (ctx.Query "appid") ≠ "" → ctx.Query "signature" = "" →
        APISecretAuth lib mac f timeout ctx =
          some (deny "missing query parameter: signature")) ∧
      (ctx.Query "appid" ≠ "" → f (ctx.Query "appid") ≠ "" → ctx.Query "signature" ≠ "" →
        ctx.Query "timestamp" = "" →
        APISecretAuth lib mac f timeout ctx =
          some (deny "missing query parameter: timestamp")) ∧
      (ctx.Query "appid" ≠ "" → f (ctx.Query "appid") ≠ "" → ctx.Query "signature" ≠ "" →
        ctx.Query "timestamp" ≠ "" →
        lib.Parse timestampLayout (ctx.Query "timestamp") = none →
        APISecretAuth lib mac f timeout ctx =
          some (deny "incorrect timestamp format. Should be in the form 2006-01-02 15:04:05")) ∧
      (∀ u, ctx.Query "appid" ≠ "" → f (ctx.Query "appid") ≠ "" → ctx.Query "signature" ≠ "" →
        ctx.Query "timestamp" ≠ "" →
        lib.Parse timestampLayout (ctx.Query "timestamp") = some u →
        (timeout : ℚ) < lib.SubSeconds lib.Now u →
        APISecretAuth lib mac f timeout ctx =
          some (deny "request timer timeout exceeded. Please try again")) ∧
      (∀ u, ctx.Query "appid" ≠ "" → f (ctx.Query "appid") ≠ "" → ctx.Query "signature" ≠ "" →
        ctx.Query "timestamp" ≠ "" →
        lib.Parse timestampLayout (ctx.Query "timestamp") = some u →
        ¬ (timeout : ℚ) < lib.SubSeconds lib.Now u → ctx.Query "signature" ≠ sig →
        APISecretAuth lib mac f timeout ctx = some (deny "authentication failed")) ∧
      (Rejected (APISecretAuth lib mac f timeout ctx) ↔
        (ctx.Query "appid" = "" ∨ f (ctx.Query "appid") = "" ∨ ctx.Query "signature" = "" ∨
          ctx.Query "timestamp" = "" ∨
          lib.Parse timestampLayout (ctx.Query "timestamp") = none ∨
          (∃ u, lib.Parse timestampLayout (ctx.Query "timestamp") = some u ∧
            (timeout : ℚ) < lib.SubSeconds lib.Now u) ∨
          ctx.Query "signature" ≠ sig)) ∧
      (¬ Rejected (APISecretAuth lib mac f timeout ctx) →
        APISecretAuth lib mac f timeout ctx = some []) := by
  obtain ⟨sig, hsig⟩ := signature_isSome mac (f (ctx.Query "appid")) ctx.Method ctx.Form ctx.URL
    hform
  refine ⟨sig, hsig, ?_, ?_, ?_, ?_, ?_, ?_, ?_, ?_, ?_⟩
  · intro h1
    simp [APISecretAuth, h1]
  · intro h1 h2
    simp [APISecretAuth, h1, h2]
  · intro h1 h2 h3
    simp [APISecretAuth, h1, h2, h3]
  · intro h1 h2 h3 h4
    simp [APISecretAuth, h1, h2, h3, h4]
  · intro h1 h2 h3 h4 h5
    simp [APISecretAuth, h1, h2, h3, h4, h5]
  · intro u h1 h2 h3 h4 h5 h6
    simp [APISecretAuth, h1, h2, h3, h4, h5, h6]
  · intro u h1 h2 h3 h4 h5 h6 h7
    simp [APISecretAuth, h1, h2, h3, h4, h5, h6, hsig, h7]
  · unfold Rejected APISecretAuth
    by_cases h1 : ctx.Query "appid" = ""
    · simp [h1, deny]
    by_cases h2 : f (ctx.Query "appid") = ""
    · simp [h1, h2, deny]
    by_cases h3 : ctx.Query "signature" = ""
    · simp [h1, h2, h3, deny]
    by_cases h4 : ctx.Query "timestamp" = ""
    · simp [h1, h2, h3, h4, deny]
    cases h5 : lib.Parse timestampLayout (ctx.Query "timestamp") with
    | none => simp [h1, h2, h3, h4, deny]
    | some u =>
      by_cases h6 : (timeout : ℚ) < lib.SubSeconds lib.Now u
      · simp [h1, h2, h3, h4, h6, deny]
      · by_cases h7 : ctx.Query "signature" = sig
        · have h3b : ¬ sig = "" := h7 ▸ h3
          simp [h1, h2, h3b, h4, h6, hsig, h7, deny]
        · simp [h1, h2, h3, h4, h6, hsig, h7, deny]
  · unfold Rejected APISecretAuth
    by_cases h1 : ctx.Query "appid" = ""
    · simp [h1]
    by_cases h2 : f (ctx.Query "appid") = ""
    · simp [h1, h2]
    by_cases h3 : ctx.Query "signature" = ""
    · simp [h1, h2, h3]
    by_cases h4 : ctx.Query "timestamp" = ""
    · simp [h1, h2, h3, h4]
    cases h5 : lib.Parse timestampLayout (ctx.Query "timestamp") with
    | none => simp [h1, h2, h3, h4]
    | some u =>
      by_cases h6 : (timeout : ℚ) < lib.SubSeconds lib.Now u
      · simp [h1, h2, h3, h4, h6]
      · by_cases h7 : ctx.Query "signature" = sig
        · have h3b : ¬ sig = "" := h7 ▸ h3
          simp [h1, h2, h3b, h4, h6, hsig, h7]
        · simp [h1, h2, h3, h4, h6, hsig, h7]

end Apiauth

namespace Apiauth

theorem apiSecretAuth_rejects_iff_witness :
    (∀ kv ∈ (sampleInput "forged").Form, kv.2 ≠ []) ∧
      Rejected (APISecretAuth sampleTime sampleMac sampleSecret 300 (sampleInput "forged")) ∧
      APISecretAuth sampleTime sampleMac sampleSecret 300 (sampleInput sampleSignature) =
        some [] := by
  refine ⟨by decide, ?_, ?_⟩
  · obtain ⟨sig, hsig, -, -, -, -, -, -, -, hiff, -⟩ :=
      apiSecretAuth_rejects_iff sampleTime sampleMac sampleSecret 300 (sampleInput "forged")
        (by decide)
    have h2 : Signature sampleMac (sampleSecret ((sampleInput "forged").Query "appid"))
        (sampleInput "forged").Method (sampleInput "forged").Form (sampleInput "forged").URL =
        some sampleSignature := by decide
    rw [h2] at hsig
    have hs : sig = sampleSignature := (Option.some.inj hsig).symm
    subst hs
    exact hiff.mpr (.inr (.inr (.inr (.inr (.inr (.inr (by decide)))))))
  · obtain ⟨sig, hsig, -, -, -, -, -, -, -, hiff, hpass⟩ :=
      apiSecretAuth_rejects_iff sampleTime sampleMac sampleSecret 300
        (sampleInput sampleSignature) (by decide)
    have h2 : Signature sampleMac (sampleSecret ((sampleInput sampleSignature).Query "appid"))
        (sampleInput sampleSignature).Method (sampleInput sampleSignature).Form
        (sampleInput sampleSignature).URL = some sampleSignature := by decide
    rw [h2] at hsig
    have hs : sig = sampleSignature := (Option.some.inj hsig).symm
    subst hs
    apply hpass
    rw [hiff]
    intro h
    rcases h with h | h | h | h | h | ⟨u, hu, hlt⟩ | h
    · exact absurd h (by decide)
    · exact absurd h (by decide)
    · exact absurd h (by decide)
    · exact absurd h (by decide)
    · exact absurd h (by decide)
    · have hp : sampleTime.Parse timestampLayout ((sampleInput sampleSignature).Query "timestamp") =
          some 1000 := by decide
      rw [hp] at hu
      have hu2 : u = 1000 := (Option.some.inj hu).symm
      subst hu2
      exact absurd hlt (by decide)
    · exact absurd h (by decide)

end Apiauth
namespace Session

/-! ## The values of a session store -/

theorem findEntry_putEntry_same {κ ν : Type} [DecidableEq κ] (m : ValueMap κ ν) (k : κ)
    (v : Option ν) : findEntry (putEntry m k v) k = some v := by
  induction m with
  | nil => simp [putEntry, findEntry]
  | cons kv rest ih =>
    obtain ⟨k0, v0⟩ := kv
    by_cases h : k0 = k
    · simp [putEntry, findEntry, h]
    · simp [putEntry, findEntry, h, ih]

theorem findEntry_putEntry_other {κ ν : Type} [DecidableEq κ] (m : ValueMap κ ν) (k k2 : κ)
    (v : Option ν) (hne : k2 ≠ k) : findEntry (putEntry m k v) k2 = findEntry m k2 := by
  induction m with
  | nil =>
    have : ¬ k = k2 := fun h => hne h.symm
    simp [putEntry, findEntry, this]
  | cons kv rest ih =>
    obtain ⟨k0, v0⟩ := kv
    by_cases h : k0 = k
    · subst h
      have : ¬ k0 = k2 := fun h => hne h.symm
      simp [putEntry, findEntry, this]
    · by_cases h2 : k0 = k2
      · subst h2
        simp [putEntry, findEntry, h]
      · simp [putEntry, findEntry, h, h2, ih]

theorem findEntry_append_other {κ ν : Type} [DecidableEq κ] (m : ValueMap κ ν) (k k2 : κ)
    (v : Option ν) (hne : k2 ≠ k) : findEntry (m ++ [(k, v)]) k2 = findEntry m k2 := by
  induction m with
  | nil =>
    have : ¬ k = k2 := fun h => hne h.symm
    simp [findEntry, this]
  | cons kv rest ih =>
    obtain ⟨k0, v0⟩ := kv
    by_cases h2 : k0 = k2
    · simp [findEntry, h2]
    · simp [findEntry, h2, ih]

theorem findEntry_dropEntry_same {κ ν : Type} [DecidableEq κ] (m : ValueMap κ ν) (k : κ) :
    findEntry (dropEntry m k) k = none := by
  induction m with
  | nil => rfl
  | cons kv rest ih =>
    obtain ⟨k0, v0⟩ := kv
    by_cases h : k0 = k
    · simp [dropEntry, h, ih]
    · simp [dropEntry, findEntry, h, ih]

theorem findEntry_dropEntry_other {κ ν : Type} [DecidableEq κ] (m : ValueMap κ ν) (k k2 : κ)
    (hne : k2 ≠ k) : findEntry (dropEntry m k) k2 = findEntry m k2 := by
  induction m with
  | nil => rfl
  | cons kv rest ih =>
    obtain ⟨k0, v0⟩ := kv
    by_cases h : k0 = k
    · subst h
      have : ¬ k0 = k2 := fun h => hne h.symm
      simp [dropEntry, findEntry, this, ih]
    · by_cases h2 : k0 = k2
      · subst h2
        simp [dropEntry, findEntry, h]
      · simp [dropEntry, findEntry, h, h2, ih]

theorem mapLookup_assign {κ ν : Type} [DecidableEq κ] (kind : κ → KeyKind) (m : ValueMap κ ν)
    (k : κ) (v : Option ν) (hk : kind k ≠ .unhashable) :
    ∃ m2, mapAssign kind m k v = .ok m2 ∧
      mapLookup kind m2 k = .ok (if kind k = .ordinary then some v else none) ∧
      ∀ k2, k2 ≠ k → mapLookup kind m2 k2 = mapLookup kind m k2 := by
  cases hkind : kind k with
  | unhashable => exact absurd hkind hk
  | irreflexive =>
    refine ⟨m ++ [(k, v)], by simp [mapAssign, hkind], by simp [mapLookup, hkind], ?_⟩
    intro k2 hne
    cases h2 : kind k2 <;> simp [mapLookup, h2, findEntry_append_other m k k2 v hne]
  | ordinary =>
    refine ⟨putEntry m k v, by simp [mapAssign, hkind],
      by simp [mapLookup, hkind, findEntry_putEntry_same], ?_⟩
    intro k2 hne
    cases h2 : kind k2 <;> simp [mapLookup, h2, findEntry_putEntry_other m k k2 v hne]

theorem mapLookup_delete {κ ν : Type} [DecidableEq κ] (kind : κ → KeyKind) (m : ValueMap κ ν)
    (k : κ) (hk : kind k ≠ .unhashable) :
    ∃ m2, mapDelete kind m k = .ok m2 ∧ mapLookup kind m2 k = .ok none ∧
      ∀ k2, k2 ≠ k → mapLookup kind m2 k2 = mapLookup kind m k2 := by
  cases hkind : kind k with
  | unhashable => exact absurd hkind hk
  | irreflexive =>
    exact ⟨m, by simp [mapDelete, hkind], by simp [mapLookup, hkind], fun _ _ => rfl⟩
  | ordinary =>
    refine ⟨dropEntry m k, by simp [mapDelete, hkind],
      by simp [mapLookup, hkind, findEntry_dropEntry_same], ?_⟩
    intro k2 hne
    cases h2 : kind k2 <;> simp [mapLookup, h2, findEntry_dropEntry_other m k k2 hne]

theorem redis_get_of_values {κ ν : Type} [DecidableEq κ] (kind : κ → KeyKind)
    (a b : RedisCluster.SessionStore κ ν) (k : κ)
    (h : mapLookup kind a.values k = mapLookup kind b.values k) : a.Get kind k = b.Get kind k := by
  simp [RedisCluster.SessionStore.Get, h]

theorem postgres_get_of_values {κ ν : Type} [DecidableEq κ] (kind : κ → KeyKind)
    (a b : Postgres.SessionStore κ ν) (k : κ)
    (h : mapLookup kind a.values k = mapLookup kind b.values k) : a.Get kind k = b.Get kind k := by
  simp [Postgres.SessionStore.Get, h]

/-- C17 (as amended): for the session stores of `redis_cluster` and of
`postgres`, in every state of the store: `Set` of a key that is hashable and
equal to itself to a value (nil included) returns, and `Get` of the key then
returns the value; `Set` of a hashable key that differs from itself (a NaN
float) returns, and `Get` of the key then returns nil; in both cases the `Set`
leaves what `Get` does for every other key unchanged; with an unhashable key
`Set` and `Get` panic. -/
theorem get_after_set {κ ν : Type} [DecidableEq κ] (kind : κ → KeyKind)
    (rs : RedisCluster.SessionStore κ ν) (st : Postgres.SessionStore κ ν) (k : κ) (v : Option ν) :
    (kind k = .ordinary →
      (∃ rs2, rs.Set kind k v = .ok rs2 ∧ rs2.Get kind k = .ok v ∧
        ∀ k2, k2 ≠ k → rs2.Get kind k2 = rs.Get kind k2) ∧
      (∃ st2, st.Set kind k v = .ok st2 ∧ st2.Get kind k = .ok v ∧
        ∀ k2, k2 ≠ k → st2.Get kind k2 = st.Get kind k2)) ∧
    (kind k = .irreflexive →
      (∃ rs2, rs.Set kind k v = .ok rs2 ∧ rs2.Get kind k = .ok none ∧
        ∀ k2, k2 ≠ k → rs2.Get kind k2 = rs.Get kind k2) ∧
      (∃ st2, st.Set kind k v = .ok st2 ∧ st2.Get kind k = .ok none ∧
        ∀ k2, k2 ≠ k → st2.Get kind k2 = st.Get kind k2)) ∧
    (kind k = .unhashable →
      rs.Set kind k v = .error .unhashableKey ∧ rs.Get kind k = .error .unhashableKey ∧
      st.Set kind k v = .error .unhashableKey ∧ st.Get kind k = .error .unhashableKey) := by
  refine ⟨fun hk => ⟨?_, ?_⟩, fun hk => ⟨?_, ?_⟩, fun hk => ?_⟩
  · obtain ⟨m2, h1, h2, h3⟩ := mapLookup_assign kind rs.values k v (by simp [hk])
    refine ⟨{ rs with values := m2 }, by simp [RedisCluster.SessionStore.Set, h1], ?_,
      fun k2 hne => redis_get_of_values kind _ _ k2 (h3 k2 hne)⟩
    cases v <;> simp [RedisCluster.SessionStore.Get, h2, hk]
  · obtain ⟨m2, h1, h2, h3⟩ := mapLookup_assign kind st.values k v (by simp [hk])
    refine ⟨{ st with values := m2 }, by simp [Postgres.SessionStore.Set, h1], ?_,
      fun k2 hne => postgres_get_of_values kind _ _ k2 (h3 k2 hne)⟩
    cases v <;> simp [Postgres.SessionStore.Get, h2, hk]
  · obtain ⟨m2, h1, h2, h3⟩ := mapLookup_assign kind rs.values k v (by simp [hk])
    exact ⟨{ rs with values := m2 }, by simp [RedisCluster.SessionStore.Set, h1],
      by simp [RedisCluster.SessionStore.Get, h2, hk],
      fun k2 hne => redis_get_of_values kind _ _ k2 (h3 k2 hne)⟩
  · obtain ⟨m2, h1, h2, h3⟩ := mapLookup_assign kind st.values k v (by simp [hk])
    exact ⟨{ st with values := m2 }, by simp [Postgres.SessionStore.Set, h1],
      by simp [Postgres.SessionStore.Get, h2, hk],
      fun k2 hne => postgres_get_of_values kind _ _ k2 (h3 k2 hne)⟩
  · simp [RedisCluster.SessionStore.Set, RedisCluster.SessionStore.Get, Postgres.SessionStore.Set,
      Postgres.SessionStore.Get, mapAssign, mapLookup, hk]

theorem get_after_set_witness :
    ∃ rs2, RedisCluster.namedStore.Set textKind "password" (some "1qaz2wsx") = .ok rs2 ∧
      rs2.Get textKind "password" = .ok (some "1qaz2wsx") ∧
      ∀ k2, k2 ≠ "password" → rs2.Get textKind k2 = RedisCluster.namedStore.Get textKind k2 :=
  ((get_after_set textKind RedisCluster.namedStore
    (⟨"sid-1", []⟩ : Postgres.SessionStore String String) "password" (some "1qaz2wsx")).1 rfl).1

/-- C17 (counterexample): `Get` of the key NaN after `Set` of the key NaN to a
value returns nil, the binding being in the map; `Set` of a key that is a slice
panics. -/
theorem get_after_set_nan_is_nil :
    SampleKey.floatNaN.kind = .irreflexive ∧
      RedisCluster.kindStore.Set SampleKey.kind .floatNaN (some "astaxie") =
        .ok ⟨"sid-1", [(.floatNaN, some "astaxie")], 3600⟩ ∧
      (⟨"sid-1", [(.floatNaN, some "astaxie")], 3600⟩ :
          RedisCluster.SessionStore SampleKey String).Get SampleKey.kind .floatNaN = .ok none ∧
      RedisCluster.kindStore.Set SampleKey.kind (.intSlice [1]) (some "astaxie") =
        .error .unhashableKey := by
  exact ⟨rfl, rfl, rfl, rfl⟩

/-- C18 (as amended): for the session stores of `redis_cluster` and of
`postgres`, in every state of the store: `Delete` of a hashable key returns,
`Get` of the key then returns nil, and the `Delete` leaves what `Get` does for
every other key unchanged; after `Flush`, `Get` returns nil for every hashable
key; with an unhashable key `Delete` panics, and so does `Get` after `Flush`.
-/
theorem get_after_delete_flush {κ ν : Type} [DecidableEq κ] (kind : κ → KeyKind)
    (rs : RedisCluster.SessionStore κ ν) (st : Postgres.SessionStore κ ν) (k : κ) :
    (kind k ≠ .unhashable →
      (∃ rs2, rs.Delete kind k = .ok rs2 ∧ rs2.Get kind k = .ok none ∧
        ∀ k2, k2 ≠ k → rs2.Get kind k2 = rs.Get kind k2) ∧
      rs.Flush.Get kind k = .ok none ∧
      (∃ st2, st.Delete kind k = .ok st2 ∧ st2.Get kind k = .ok none ∧
        ∀ k2, k2 ≠ k → st2.Get kind k2 = st.Get kind k2) ∧
      st.Flush.Get kind k = .ok none) ∧
    (kind k = .unhashable →
      rs.Delete kind k = .error .unhashableKey ∧ rs.Flush.Get kind k = .error .unhashableKey ∧
      st.Delete kind k = .error .unhashableKey ∧ st.Flush.Get kind k = .error .unhashableKey) := by
  refine ⟨fun hk => ⟨?_, ?_, ?_, ?_⟩, fun hk => ?_⟩
  · obtain ⟨m2, h1, h2, h3⟩ := mapLookup_delete kind rs.values k hk
    exact ⟨{ rs with values := m2 }, by simp [RedisCluster.SessionStore.Delete, h1],
      by simp [RedisCluster.SessionStore.Get, h2],
      fun k2 hne => redis_get_of_values kind _ _ k2 (h3 k2 hne)⟩
  · cases hkind : kind k with
    | unhashable => exact absurd hkind hk
    | irreflexive =>
      simp [RedisCluster.SessionStore.Flush, RedisCluster.SessionStore.Get, mapLookup, hkind]
    | ordinary =>
      simp [RedisCluster.SessionStore.Flush, RedisCluster.SessionStore.Get, mapLookup, hkind,
        findEntry]
  · obtain ⟨m2, h1, h2, h3⟩ := mapLookup_delete kind st.values k hk
    exact ⟨{ st with values := m2 }, by simp [Postgres.SessionStore.Delete, h1],
      by simp [Postgres.SessionStore.Get, h2],
      fun k2 hne => postgres_get_of_values kind _ _ k2 (h3 k2 hne)⟩
  · cases hkind : kind k with
    | unhashable => exact absurd hkind hk
    | irreflexive =>
      simp [Postgres.SessionStore.Flush, Postgres.SessionStore.Get, mapLookup, hkind]
    | ordinary =>
      simp [Postgres.SessionStore.Flush, Postgres.SessionStore.Get, mapLookup, hkind, findEntry]
  · simp [RedisCluster.SessionStore.Delete, RedisCluster.SessionStore.Get,
      RedisCluster.SessionStore.Flush, Postgres.SessionStore.Delete, Postgres.SessionStore.Get,
      Postgres.SessionStore.Flush, mapDelete, mapLookup, hk]

theorem get_after_delete_flush_witness :
    ∃ rs2, RedisCluster.namedStore.Delete textKind "username" = .ok rs2 ∧
      rs2.Get textKind "username" = .ok none ∧
      ∀ k2, k2 ≠ "username" → rs2.Get textKind k2 = RedisCluster.namedStore.Get textKind k2 :=
  ((get_after_delete_flush textKind RedisCluster.namedStore
    (⟨"sid-1", []⟩ : Postgres.SessionStore String String) "username").1 (by decide)).1

/-- C18 (counterexample): `Delete` of a key that is a slice panics instead of
returning, and after `Flush` the `Get` of that key panics instead of returning
nil. -/
theorem delete_unhashable_panics :
    (SampleKey.intSlice [1]).kind = .unhashable ∧
      RedisCluster.kindStore.Delete SampleKey.kind (.intSlice [1]) = .error .unhashableKey ∧
      RedisCluster.kindStore.Flush.Get SampleKey.kind (.intSlice [1]) = .error .unhashableKey ∧
      (⟨"sid-1", []⟩ : Postgres.SessionStore SampleKey String).Delete SampleKey.kind
        (.intSlice [1]) = .error .unhashableKey := by
  exact ⟨rfl, rfl, rfl, rfl⟩

end Session
namespace RedisCluster

open Session

/-! ## Release and destruction of a session in the cluster -/

theorem exists_del (db : Redis) (key : String) : (db.Del key).Exists key = 0 := by
  induction db with
  | nil => rfl
  | cons kv rest ih =>
    obtain ⟨k, v⟩ := kv
    by_cases h : k = key
    · simp [Redis.Del, h, ih]
    · simp [Redis.Del, Redis.Exists, h, ih]

theorem exists_set (db : Redis) (key value : String) (ex : Int) :
    (db.Set key value ex).Exists key = 1 := by
  induction db with
  | nil => simp [Redis.Set, Redis.Exists]
  | cons kv rest ih =>
    obtain ⟨k, v⟩ := kv
    by_cases h : k = key
    · simp [Redis.Set, Redis.Exists, h]
    · simp [Redis.Set, Redis.Exists, h, ih]

theorem get_set (db : Redis) (key value : String) (ex : Int) :
    (db.Set key value ex).Get key = some value := by
  induction db with
  | nil => simp [Redis.Set, Redis.Get]
  | cons kv rest ih =>
    obtain ⟨k, v, e⟩ := kv
    by_cases h : k = key
    · simp [Redis.Set, Redis.Get, h]
    · simp [Redis.Set, Redis.Get, h, ih]

/-- C19: after `SessionDestroy` of the session id of a store,
`SessionReleaseIfPresent` of the store leaves the cluster as the destruction
left it, so `SessionExist` of the id reports false afterwards; in any state of
the cluster, `SessionReleaseIfPresent` changes nothing when the key of the
session does not exist and writes the encoded values under the key when it
exists, whereas `SessionRelease` writes the encoded values under the key
whether the key exists or not (also right after the destruction), the values
being encodable; a store read for a session id carries that id. -/
theorem releaseIfPresent_after_destroy {κ ν : Type} (rs : SessionStore κ ν)
    (EncodeGob : ValueMap κ ν → Option String) (db : Redis) :
    (rs.SessionReleaseIfPresent EncodeGob (SessionDestroy db rs.sid) = SessionDestroy db rs.sid ∧
      SessionExist (rs.SessionReleaseIfPresent EncodeGob (SessionDestroy db rs.sid)) rs.sid =
        false) ∧
    (SessionExist db rs.sid = false → rs.SessionReleaseIfPresent EncodeGob db = db) ∧
    (∀ b, EncodeGob rs.values = some b → SessionExist db rs.sid = true →
      (rs.SessionReleaseIfPresent EncodeGob db).Get rs.sid = some b) ∧
    (∀ b, EncodeGob rs.values = some b →
      (rs.SessionRelease EncodeGob db).Get rs.sid = some b ∧
      SessionExist (rs.SessionRelease EncodeGob db) rs.sid = true ∧
      SessionExist (rs.SessionRelease EncodeGob (SessionDestroy db rs.sid)) rs.sid = true) ∧
    (∀ (DecodeGob : String → Option (ValueMap κ ν)) (m : Int) (sid : String) (s : SessionStore κ ν),
      SessionRead DecodeGob m db sid = some s → s.SessionID = sid) := by
  have hnot : ∀ d : Redis, SessionExist d rs.sid = false →
      rs.SessionReleaseIfPresent EncodeGob d = d := by
    intro d h
    have h0 : d.Exists rs.sid = 0 := by
      unfold SessionExist at h
      by_contra hc
      simp [hc] at h
    unfold SessionStore.SessionReleaseIfPresent SessionStore.releaseSession
    cases EncodeGob rs.values with
    | none => rfl
    | some b => simp [Redis.SetXX, h0]
  have hdel : SessionExist (SessionDestroy db rs.sid) rs.sid = false := by
    simp [SessionExist, SessionDestroy, exists_del]
  refine ⟨⟨hnot _ hdel, ?_⟩, hnot db, ?_, ?_, ?_⟩
  · rw [hnot _ hdel]
    exact hdel
  · intro b hb hex
    have h1 : db.Exists rs.sid ≠ 0 := by
      unfold SessionExist at hex
      intro hc
      simp [hc] at hex
    simp [SessionStore.SessionReleaseIfPresent, SessionStore.releaseSession, hb, Redis.SetXX, h1,
      get_set]
  · intro b hb
    have hset : ∀ d : Redis, rs.SessionRelease EncodeGob d =
        d.Set rs.sid b (seconds rs.maxlifetime) := by
      intro d
      simp [SessionStore.SessionRelease, SessionStore.releaseSession, hb]
    refine ⟨?_, ?_, ?_⟩
    · rw [hset, get_set]
    · rw [hset]
      simp [SessionExist, exists_set]
    · rw [hset]
      simp [SessionExist, exists_set]
  · intro DecodeGob m sid s hs
    unfold SessionRead at hs
    cases hg : db.Get sid with
    | none =>
      simp only [hg, Option.some.injEq] at hs
      subst hs
      rfl
    | some kvs =>
      simp only [hg] at hs
      split at hs
      · simp only [Option.some.injEq] at hs
        subst hs
        rfl
      · cases hd : DecodeGob kvs with
        | none => simp [hd] at hs
        | some kv =>
          simp only [hd, Option.map_some', Option.some.injEq] at hs
          subst hs
          rfl

theorem releaseIfPresent_after_destroy_witness :
    SessionExist [("sid-1", "stale", 3600000000000)] "sid-1" = true ∧
      (namedStore.SessionReleaseIfPresent sampleEncode
        [("sid-1", "stale", 3600000000000)]).Get "sid-1" = some "username=astaxie;" ∧
      SessionExist (namedStore.SessionReleaseIfPresent
        sampleEncode (SessionDestroy [("sid-1", "stale", 3600000000000)] "sid-1")) "sid-1" =
        false :=
  ⟨by decide,
   (releaseIfPresent_after_destroy namedStore sampleEncode
      [("sid-1", "stale", 3600000000000)]).2.2.1 "username=astaxie;" (by decide) (by decide),
   (releaseIfPresent_after_destroy namedStore sampleEncode
      [("sid-1", "stale", 3600000000000)]).1.2⟩

end RedisCluster
namespace RedisCluster

/-! ## Initialisation of the provider -/

/-- C20: `SessionInit` with maximum lifetime `m` and a configuration text that
starts with `{` once its white space is trimmed, which JSON decoding accepts and
which carries the save path `s` and the idle timeout `d`, `d` parsing as the
duration `dur`, leaves the provider with `maxlifetime` = `m`, `SavePath` = `s`
and `idleTimeout` = `dur`, whatever the parse of the idle check frequency and
the ping of the cluster give. -/
theorem sessionInit_json (lib : Lib) (rp : Provider) (m : Int) (cfgStr : String) (j : JSONFields)
    (s d : String) (dur : Int)
    (hjson : HasPrefix (TrimSpace cfgStr) "\x7b" = true)
    (hun : lib.Unmarshal (TrimSpace cfgStr) ({ rp with maxlifetime := m } : Provider).jsonFields =
      (j, none))
    (hs : j.SavePath = s) (hd : j.IdleTimeoutStr = d) (hdur : lib.ParseDuration d = .ok dur) :
    (rp.SessionInit lib m cfgStr).1.maxlifetime = m ∧
      (rp.SessionInit lib m cfgStr).1.SavePath = s ∧
      (rp.SessionInit lib m cfgStr).1.idleTimeout = dur := by
  subst hs
  subst hd
  unfold Provider.SessionInit
  simp only [hjson, if_true, hun]
  have h1 : (({ rp with maxlifetime := m } : Provider).setJSONFields j).IdleTimeoutStr =
      j.IdleTimeoutStr := rfl
  rw [h1, hdur]
  simp only
  cases lib.ParseDuration
      (({ rp with maxlifetime := m } : Provider).setJSONFields j).IdleCheckFrequencyStr with
  | error e => exact ⟨rfl, rfl, rfl⟩
  | ok f => exact ⟨rfl, rfl, rfl⟩

theorem sessionInit_json_witness :
    (Provider.zero.SessionInit sampleLib 12 testSavePath).1.maxlifetime = 12 ∧
      (Provider.zero.SessionInit sampleLib 12 testSavePath).1.SavePath = "my save path" ∧
      (Provider.zero.SessionInit sampleLib 12 testSavePath).1.idleTimeout = 3000000000 :=
  sessionInit_json sampleLib Provider.zero 12 testSavePath
    ⟨"my save path", 0, "", 0, "3s", "", 0⟩ "my save path" "3s" 3000000000
    (by decide) (by decide) rfl rfl rfl

end RedisCluster
namespace RedisCluster

/-! ## The configuration text of version 1 -/

theorem splitChars_ne_nil (sep : Char) (cs : List Char) : splitChars sep cs ≠ [] := by
  cases cs with
  | nil => simp [splitChars]
  | cons c cs =>
    unfold splitChars
    split
    · simp
    · split <;> simp

theorem splitChars_noSep (sep : Char) (cs : List Char) (h : sep ∉ cs) :
    splitChars sep cs = [cs] := by
  induction cs with
  | nil => rfl
  | cons c cs ih =>
    have hc : c ≠ sep := fun e => h (by simp [e])
    have hcs : sep ∉ cs := fun e => h (by simp [e])
    simp [splitChars, ih hcs, hc]

theorem splitChars_field (sep : Char) (s t : List Char) (h : sep ∉ s) :
    splitChars sep (s ++ sep :: t) = s :: splitChars sep t := by
  induction s with
  | nil =>
    cases ht : splitChars sep t with
    | nil => exact absurd ht (splitChars_ne_nil sep t)
    | cons x xs => simp [splitChars, ht]
  | cons c s ih =>
    have hc : c ≠ sep := fun e => h (by simp [e])
    have hs : sep ∉ s := fun e => h (by simp [e])
    simp [splitChars, ih hs, hc]

theorem split_four (a b c d : String) (ha : ',' ∉ a.data) (hb : ',' ∉ b.data)
    (hc : ',' ∉ c.data) (hd : ',' ∉ d.data) :
    Split (a ++ "," ++ b ++ "," ++ c ++ "," ++ d) ',' = [a, b, c, d] := by
  have hdata : (a ++ "," ++ b ++ "," ++ c ++ "," ++ d).data =
      a.data ++ ',' :: (b.data ++ ',' :: (c.data ++ ',' :: d.data)) := by
    simp [String.data_append]
  unfold Split
  rw [hdata, splitChars_field _ _ _ ha, splitChars_field _ _ _ hb, splitChars_field _ _ _ hc,
    splitChars_noSep _ _ hd]
  rfl

theorem split_head (s : String) : ∃ c rest, Split s ',' = c :: rest := by
  unfold Split
  cases h : splitChars ',' s.data with
  | nil => exact absurd h (splitChars_ne_nil _ _)
  | cons x xs => exact ⟨_, _, rfl⟩

theorem initOldStyle_result (lib : Lib) (rp : Provider) (savePath : String) :
    (rp.initOldStyle lib savePath).SavePath =
        (match (Split savePath ',')[0]? with
         | some c => c
         | none => rp.SavePath) ∧
      (rp.initOldStyle lib savePath).Poolsize =
        (match (Split savePath ',')[1]? with
         | some c =>
           match lib.Atoi c with
           | some n => if n < 0 then MaxPoolSize else n
           | none => MaxPoolSize
         | none => MaxPoolSize) ∧
      (rp.initOldStyle lib savePath).Password =
        (match (Split savePath ',')[2]? with
         | some c => c
         | none => rp.Password) ∧
      (rp.initOldStyle lib savePath).DbNum =
        (match (Split savePath ',')[3]? with
         | some c =>
           match lib.Atoi c with
           | some n => if n < 0 then 0 else n
           | none => 0
         | none => 0) := by
  unfold Provider.initOldStyle
  lift_lets
  extract_lets configs rp1 rp2 rp3 rp4 rp5 rp6
  have e1 : rp1.SavePath = (match configs[0]? with
      | some c => c
      | none => rp.SavePath) ∧ rp1.Password = rp.Password := by
    simp only [rp1]
    split <;> exact ⟨rfl, rfl⟩
  have e2 : rp2.SavePath = rp1.SavePath ∧ rp2.Password = rp1.Password ∧
      rp2.Poolsize = (match configs[1]? with
        | some c =>
          match lib.Atoi c with
          | some n => if n < 0 then MaxPoolSize else n
          | none => MaxPoolSize
        | none => MaxPoolSize) := by
    simp only [rp2]
    repeat' split
    all_goals exact ⟨rfl, rfl, rfl⟩
  have e3 : rp3.SavePath = rp2.SavePath ∧ rp3.Poolsize = rp2.Poolsize ∧
      rp3.Password = (match configs[2]? with
        | some c => c
        | none => rp2.Password) := by
    simp only [rp3]
    split <;> exact ⟨rfl, rfl, rfl⟩
  have e4 : rp4.SavePath = rp3.SavePath ∧ rp4.Poolsize = rp3.Poolsize ∧
      rp4.Password = rp3.Password ∧
      rp4.DbNum = (match configs[3]? with
        | some c =>
          match lib.Atoi c with
          | some n => if n < 0 then 0 else n
          | none => 0
        | none => 0) := by
    simp only [rp4]
    repeat' split
    all_goals exact ⟨rfl, rfl, rfl, rfl⟩
  have e5 : rp5.SavePath = rp4.SavePath ∧ rp5.Poolsize = rp4.Poolsize ∧
      rp5.Password = rp4.Password ∧ rp5.DbNum = rp4.DbNum := by
    simp only [rp5]
    repeat' split
    all_goals exact ⟨rfl, rfl, rfl, rfl⟩
  have e6 : rp6.SavePath = rp5.SavePath ∧ rp6.Poolsize = rp5.Poolsize ∧
      rp6.Password = rp5.Password ∧ rp6.DbNum = rp5.DbNum := by
    simp only [rp6]
    repeat' split
    all_goals exact ⟨rfl, rfl, rfl, rfl⟩
  have e7 : ∀ last : Provider, last = (match configs[6]? with
      | some c =>
        match lib.Atoi c with
        | some retries => if retries > 0 then { rp6 with MaxRetries := retries } else rp6
        | none => rp6
      | none => rp6) →
      last.SavePath = rp6.SavePath ∧ last.Poolsize = rp6.Poolsize ∧
        last.Password = rp6.Password ∧ last.DbNum = rp6.DbNum := by
    intro last hl
    subst hl
    repeat' split
    all_goals exact ⟨rfl, rfl, rfl, rfl⟩
  obtain ⟨f1, f2, f3, f4⟩ := e7 _ rfl
  refine ⟨?_, ?_, ?_, ?_⟩
  · rw [f1, e6.1, e5.1, e4.1, e3.1, e2.1, e1.1]
  · rw [f2, e6.2.1, e5.2.1, e4.2.1, e3.2.1, e2.2.2]
  · rw [f3, e6.2.2.1, e5.2.2.1, e4.2.2.1, e3.2.2, e2.2.1, e1.2]
  · rw [f4, e6.2.2.2, e5.2.2.2, e4.2.2.2]

end RedisCluster

namespace RedisCluster

/-- C21: for a configuration text made of an address list, a pool size, a
password and a database number separated by commas (the fields holding no
comma; semicolons of the address list are not separators), `initOldStyle` sets
`SavePath` to the address list as written and `Password` to the third field;
`Poolsize` is the integer of the second field when `Atoi` reads one that is not
negative, and `MaxPoolSize`, which is 1000, when `Atoi` fails on the field or
reads a negative integer; `DbNum` is the integer of the fourth field when `Atoi`
reads one that is not negative, and 0 when `Atoi` fails on it or reads a
negative integer.  For every configuration text, `Poolsize` is `MaxPoolSize`
when there is no second field and `DbNum` is 0 when there is no fourth field.
-/
theorem initOldStyle_fields (lib : Lib) (rp : Provider) (cfg addrs pool pw db : String)
    (hcfg : cfg = addrs ++ "," ++ pool ++ "," ++ pw ++ "," ++ db)
    (ha : ',' ∉ addrs.data) (hp : ',' ∉ pool.data) (hw : ',' ∉ pw.data) (hd : ',' ∉ db.data) :
    (rp.initOldStyle lib cfg).SavePath = addrs ∧
    (rp.initOldStyle lib cfg).Password = pw ∧
    (∀ n, lib.Atoi pool = some n → 0 ≤ n → (rp.initOldStyle lib cfg).Poolsize = n) ∧
    ((lib.Atoi pool = none ∨ ∃ n, lib.Atoi pool = some n ∧ n < 0) →
      (rp.initOldStyle lib cfg).Poolsize = MaxPoolSize) ∧
    (∀ n, lib.Atoi db = some n → 0 ≤ n → (rp.initOldStyle lib cfg).DbNum = n) ∧
    ((lib.Atoi db = none ∨ ∃ n, lib.Atoi db = some n ∧ n < 0) →
      (rp.initOldStyle lib cfg).DbNum = 0) ∧
    MaxPoolSize = 1000 ∧
    (∀ text : String, (Split text ',')[1]? = none →
      (rp.initOldStyle lib text).Poolsize = MaxPoolSize) ∧
    (∀ text : String, (Split text ',')[3]? = none → (rp.initOldStyle lib text).DbNum = 0) := by
  have hsplit : Split cfg ',' = [addrs, pool, pw, db] := by
    rw [hcfg]
    exact split_four addrs pool pw db ha hp hw hd
  obtain ⟨r1, r2, r3, r4⟩ := initOldStyle_result lib rp cfg
  rw [hsplit] at r1 r2 r3 r4
  simp only [List.getElem?_cons_zero, List.getElem?_cons_succ] at r1 r2 r3 r4
  refine ⟨r1, r3, ?_, ?_, ?_, ?_, rfl, ?_, ?_⟩
  · intro n hn h0
    rw [r2, hn]
    simp only
    rw [if_neg (by omega)]
  · rintro (hn | ⟨n, hn, hneg⟩)
    · rw [r2, hn]
    · rw [r2, hn]
      simp only
      rw [if_pos hneg]
  · intro n hn h0
    rw [r4, hn]
    simp only
    rw [if_neg (by omega)]
  · rintro (hn | ⟨n, hn, hneg⟩)
    · rw [r4, hn]
    · rw [r4, hn]
      simp only
      rw [if_pos hneg]
  · intro text ht
    rw [(initOldStyle_result lib rp text).2.1, ht]
  · intro text ht
    rw [(initOldStyle_result lib rp text).2.2.2, ht]

theorem initOldStyle_fields_witness :
    (Provider.zero.initOldStyle decimalLib oldStyleConfig).SavePath =
        "127.0.0.1:6379;127.0.0.1:6380" ∧
      (Provider.zero.initOldStyle decimalLib oldStyleConfig).Password = "test" ∧
      (Provider.zero.initOldStyle decimalLib oldStyleConfig).Poolsize = 100 ∧
      (Provider.zero.initOldStyle decimalLib oldStyleConfig).DbNum = 0 :=
  ⟨(initOldStyle_fields decimalLib Provider.zero oldStyleConfig "127.0.0.1:6379;127.0.0.1:6380"
      "100" "test" "0" (by decide) (by decide) (by decide) (by decide) (by decide)).1,
   (initOldStyle_fields decimalLib Provider.zero oldStyleConfig "127.0.0.1:6379;127.0.0.1:6380"
      "100" "test" "0" (by decide) (by decide) (by decide) (by decide) (by decide)).2.1,
   (initOldStyle_fields decimalLib Provider.zero oldStyleConfig "127.0.0.1:6379;127.0.0.1:6380"
      "100" "test" "0" (by decide) (by decide) (by decide) (by decide) (by decide)).2.2.1 100
      (by decide) (by decide),
   (initOldStyle_fields decimalLib Provider.zero oldStyleConfig "127.0.0.1:6379;127.0.0.1:6380"
      "100" "test" "0" (by decide) (by decide) (by decide) (by decide) (by decide)).2.2.2.2.1 0
      (by decide) (by decide)⟩

end RedisCluster
namespace Apiauth

/-! ## The first values read by `Signature` -/

theorem firstValues_none (params : Values) :
    ∀ (pa : List (String × String)) (keys : List String), (∃ kv ∈ params, kv.2 = []) →
      firstValues params pa keys = none := by
  induction params with
  | nil => intro pa keys h; simp at h
  | cons kv rest ih =>
    intro pa keys h
    obtain ⟨k, v⟩ := kv
    cases v with
    | nil => rfl
    | cons x xs =>
      simp only [firstValues]
      apply ih
      obtain ⟨kv, hkv, he⟩ := h
      rcases List.mem_cons.mp hkv with h1 | h1
      · subst h1
        simp at he
      · exact ⟨kv, h1, he⟩

theorem signature_none_iff (mac : String → String → String) (appsecret method : String)
    (params : Values) (url : String) :
    Signature mac appsecret method params url = none ↔ ∃ kv ∈ params, kv.2 = [] := by
  constructor
  · intro h
    by_contra hc
    have hall : ∀ kv ∈ params, kv.2 ≠ [] := fun kv hkv he => hc ⟨kv, hkv, he⟩
    obtain ⟨sig, hsig⟩ := signature_isSome mac appsecret method params url hall
    rw [hsig] at h
    cases h
  · intro h
    unfold Signature
    rw [firstValues_none params [] [] h]

/-- C25: `Signature` returns a result for every parameter map in which each key
has at least one value, and it fails, on reading the first value of an empty
list, for every parameter map that binds a key to an empty list of values; so
it fails exactly on the maps that hold such a key. -/
theorem signature_unguarded (mac : String → String → String) (appsecret method : String)
    (params : Values) (url : String) :
    ((∀ kv ∈ params, kv.2 ≠ []) → ∃ sig, Signature mac appsecret method params url = some sig) ∧
    ((∃ kv ∈ params, kv.2 = []) → Signature mac appsecret method params url = none) ∧
    (Signature mac appsecret method params url = none ↔ ∃ kv ∈ params, kv.2 = []) :=
  ⟨signature_isSome mac appsecret method params url,
   (signature_none_iff mac appsecret method params url).mpr,
   signature_none_iff mac appsecret method params url⟩

theorem signature_unguarded_witness :
    (∃ sig, Signature sampleMac "s3cret" "GET" [("appid", ["app1"]), ("page", ["2", "3"])]
        "/api/list" = some sig) ∧
      Signature sampleMac "s3cret" "GET" [("appid", ["app1"]), ("page", [])] "/api/list" = none :=
  ⟨(signature_unguarded sampleMac "s3cret" "GET" [("appid", ["app1"]), ("page", ["2", "3"])]
      "/api/list").1 (by decide),
   (signature_unguarded sampleMac "s3cret" "GET" [("appid", ["app1"]), ("page", [])]
      "/api/list").2.1 ⟨("page", []), by decide, rfl⟩⟩

theorem string_append_ne_empty (x v : String) (hx : x ≠ "") : x ++ v ≠ "" := by
  intro h
  apply hx
  have hd := congrArg String.data h
  rw [String.data_append] at hd
  have : x.data = [] := (List.append_eq_nil.mp hd).1
  exact String.ext this

theorem signature_single (mac : String → String → String) (appsecret method url k v : String)
    (hk : k ≠ "") (hs : k ≠ "signature") (hv : v ≠ "") :
    Signature mac appsecret method [(k, [v])] url =
      some (mac appsecret (stringToSign method (k ++ v) url)) := by
  simp [Signature, firstValues, mapSet, sortStrings, insertSorted, writeParams, mapGet, hk, hs, hv]

/-- C24: `Signature` is not injective in the parameter map: the maps
`{a: [bc]}` and `{ab: [c]}` differ and `Signature` returns for both, under every
secret, method and request URL, the digest of the same text, in which key and
value stand together as `abc`; more generally a non-empty piece at the front of
the value of a key can be moved to the end of the key without changing the
result. -/
theorem signature_not_injective (mac : String → String → String)
    (appsecret method url : String) :
    ([("a", ["bc"])] : Values) ≠ [("ab", ["c"])] ∧
    Signature mac appsecret method [("a", ["bc"])] url =
      some (mac appsecret (stringToSign method "abc" url)) ∧
    Signature mac appsecret method [("ab", ["c"])] url =
      some (mac appsecret (stringToSign method "abc" url)) ∧
    Signature mac appsecret method [("a", ["bc"])] url =
      Signature mac appsecret method [("ab", ["c"])] url ∧
    (∀ k x v : String, k ≠ "" → x ≠ "" → v ≠ "" → k ≠ "signature" → k ++ x ≠ "signature" →
      ([(k, [x ++ v])] : Values) ≠ [(k ++ x, [v])] ∧
      Signature mac appsecret method [(k, [x ++ v])] url =
        Signature mac appsecret method [(k ++ x, [v])] url) := by
  have h1 := signature_single mac appsecret method url "a" "bc" (by decide) (by decide)
    (by decide)
  have h2 := signature_single mac appsecret method url "ab" "c" (by decide) (by decide)
    (by decide)
  refine ⟨by decide, h1, h2, h1.trans h2.symm, ?_⟩
  intro k x v hk hx hv hs hs2
  constructor
  · intro he
    simp only [List.cons.injEq, Prod.mk.injEq, and_true] at he
    have hd := congrArg String.data he.1
    rw [String.data_append] at hd
    have hx0 : x.data = [] := by
      have := congrArg List.length hd
      simp only [List.length_append] at this
      exact List.length_eq_zero.mp (by omega)
    exact hx (String.ext hx0)
  · rw [signature_single mac appsecret method url k (x ++ v) hk hs
        (string_append_ne_empty x v hx),
      signature_single mac appsecret method url (k ++ x) v (string_append_ne_empty k x hk) hs2 hv,
      String.append_assoc]

theorem signature_not_injective_witness :
    ([("user", ["id7"])] : Values) ≠ [("user" ++ "id", ["7"])] ∧
      Signature sampleMac "s3cret" "GET" [("user", ["id" ++ "7"])] "/api/list" =
        Signature sampleMac "s3cret" "GET" [("user" ++ "id", ["7"])] "/api/list" :=
  ⟨by decide,
   ((signature_not_injective sampleMac "s3cret" "GET" "/api/list").2.2.2.2 "user" "id" "7"
      (by decide) (by decide) (by decide) (by decide) (by decide)).2⟩

end Apiauth
namespace Apiauth

/-! ## The order of keys and `sort.Strings` -/

theorem lessChars_irrefl (a : List Char) : lessChars a a = false := by
  induction a with
  | nil => rfl
  | cons c cs ih => simp [lessChars, ih]

theorem lessChars_asymm (a : List Char) :
    ∀ b, lessChars a b = true → lessChars b a = false := by
  induction a with
  | nil =>
    intro b _
    cases b <;> rfl
  | cons c cs ih =>
    intro b h
    cases b with
    | nil => simp [lessChars] at h
    | cons d ds =>
      simp only [lessChars] at h ⊢
      by_cases h1 : c.toNat < d.toNat
      · have h2 : ¬ d.toNat < c.toNat := by omega
        simp [h1, h2]
      · by_cases h2 : d.toNat < c.toNat
        · simp [h1, h2] at h
        · simp only [h1, h2, if_false] at h ⊢
          exact ih ds h

theorem lessChars_connex (a : List Char) :
    ∀ b, lessChars a b = false → lessChars b a = false → a = b := by
  induction a with
  | nil =>
    intro b h1 _
    cases b with
    | nil => rfl
    | cons d ds => simp [lessChars] at h1
  | cons c cs ih =>
    intro b h1 h2
    cases b with
    | nil => simp [lessChars] at h2
    | cons d ds =>
      simp only [lessChars] at h1 h2
      by_cases h3 : c.toNat < d.toNat
      · simp [h3] at h1
      · by_cases h4 : d.toNat < c.toNat
        · simp [h4] at h2
        · simp only [h3, h4, if_false] at h1 h2
          have hcd : c = d := Web.char_toNat_inj c d (by omega)
          rw [hcd, ih ds h1 h2]

theorem lessChars_trans (a : List Char) :
    ∀ b c, lessChars a b = true → lessChars b c = true → lessChars a c = true := by
  induction a with
  | nil =>
    intro b c h1 h2
    cases c with
    | nil => cases b <;> simp [lessChars] at h2
    | cons z zs => rfl
  | cons x xs ih =>
    intro b c h1 h2
    cases b with
    | nil => simp [lessChars] at h1
    | cons y ys =>
      cases c with
      | nil => simp [lessChars] at h2
      | cons z zs =>
        simp only [lessChars] at h1 h2 ⊢
        by_cases hxy : x.toNat < y.toNat
        · by_cases hyz : y.toNat < z.toNat
          · have : x.toNat < z.toNat := by omega
            simp [this]
          · by_cases hzy : z.toNat < y.toNat
            · simp [hyz, hzy] at h2
            · have : x.toNat < z.toNat := by omega
              simp [this]
        · by_cases hyx : y.toNat < x.toNat
          · simp [hxy, hyx] at h1
          · simp only [hxy, hyx, if_false] at h1
            by_cases hyz : y.toNat < z.toNat
            · have : x.toNat < z.toNat := by omega
              simp [this]
            · by_cases hzy : z.toNat < y.toNat
              · simp [hyz, hzy] at h2
              · simp only [hyz, hzy, if_false] at h2
                have h3 : ¬ x.toNat < z.toNat := by omega
                have h4 : ¬ z.toNat < x.toNat := by omega
                simp only [h3, h4, if_false]
                exact ih ys zs h1 h2

theorem stringLess_asymm (a b : String) (h : stringLess a b = true) : stringLess b a = false :=
  lessChars_asymm a.data b.data h

theorem stringLess_connex (a b : String) (h1 : stringLess a b = false)
    (h2 : stringLess b a = false) : a = b :=
  String.ext (lessChars_connex a.data b.data h1 h2)

theorem notLess_trans (a b c : String) (h1 : stringLess b a = false)
    (h2 : stringLess c b = false) : stringLess c a = false := by
  by_contra hc
  have hca : stringLess c a = true := by simpa using hc
  by_cases hab : stringLess a b = true
  · have := lessChars_trans c.data a.data b.data hca hab
    unfold stringLess at h2
    rw [this] at h2
    cases h2
  · have heq : a = b := stringLess_connex a b (by simpa using hab) h1
    subst heq
    rw [hca] at h2
    cases h2

theorem insertSorted_perm (k : String) (l : List String) : (insertSorted k l).Perm (k :: l) := by
  induction l with
  | nil => exact List.Perm.refl _
  | cons x xs ih =>
    unfold insertSorted
    split
    · exact List.Perm.refl _
    · exact (List.Perm.cons x ih).trans (List.Perm.swap k x xs)

theorem sortStrings_perm (l : List String) : (sortStrings l).Perm l := by
  induction l with
  | nil => exact List.Perm.refl _
  | cons k ks ih => exact (insertSorted_perm k _).trans (List.Perm.cons k ih)

theorem insertSorted_sorted (k : String) (l : List String)
    (h : l.Pairwise (fun a b => stringLess b a = false)) :
    (insertSorted k l).Pairwise (fun a b => stringLess b a = false) := by
  induction l with
  | nil => simp [insertSorted]
  | cons x xs ih =>
    have hx := List.pairwise_cons.mp h
    unfold insertSorted
    split
    · next hlt =>
      refine List.pairwise_cons.mpr ⟨?_, h⟩
      intro y hy
      have hxk : stringLess x k = false := stringLess_asymm k x hlt
      rcases List.mem_cons.mp hy with h1 | h1
      · rw [h1]
        exact hxk
      · exact notLess_trans k x y hxk (hx.1 y h1)
    · next hlt =>
      refine List.pairwise_cons.mpr ⟨?_, ih hx.2⟩
      intro y hy
      have hy2 : y ∈ k :: xs := (insertSorted_perm k xs).mem_iff.mp hy
      rcases List.mem_cons.mp hy2 with h1 | h1
      · rw [h1]
        simpa using hlt
      · exact hx.1 y h1

theorem sortStrings_sorted (l : List String) :
    (sortStrings l).Pairwise (fun a b => stringLess b a = false) := by
  induction l with
  | nil => exact List.Pairwise.nil
  | cons k ks ih => exact insertSorted_sorted k _ ih

theorem sorted_unique (l1 l2 : List String) (hp : l1.Perm l2)
    (h1 : l1.Pairwise (fun a b => stringLess b a = false))
    (h2 : l2.Pairwise (fun a b => stringLess b a = false)) : l1 = l2 := by
  haveI : IsAntisymm String (fun a b => stringLess b a = false) :=
    ⟨fun a b hab hba => stringLess_connex a b hba hab⟩
  exact List.eq_of_perm_of_sorted hp h1 h2

theorem sortStrings_of_perm (l1 l2 : List String) (hp : l1.Perm l2) :
    sortStrings l1 = sortStrings l2 :=
  sorted_unique _ _ (((sortStrings_perm l1).trans hp).trans (sortStrings_perm l2).symm)
    (sortStrings_sorted l1) (sortStrings_sorted l2)

theorem sortStrings_filter (p : String → Bool) (l : List String) :
    (sortStrings l).filter p = sortStrings (l.filter p) :=
  sorted_unique _ _
    (((sortStrings_perm l).filter p).trans (sortStrings_perm (l.filter p)).symm)
    ((sortStrings_sorted l).filter p) (sortStrings_sorted _)

end Apiauth
namespace Apiauth

/-! ## What `Signature` reads of the parameter map -/

theorem mapGet_mapSet_same (pa : List (String × String)) (k v : String) :
    mapGet (mapSet pa k v) k = v := by
  induction pa with
  | nil => simp [mapSet, mapGet]
  | cons kv rest ih =>
    obtain ⟨k0, v0⟩ := kv
    by_cases h : k0 = k
    · simp [mapSet, mapGet, h]
    · simp [mapSet, mapGet, h, ih]

theorem mapGet_mapSet_other (pa : List (String × String)) (k k2 v : String) (hne : k2 ≠ k) :
    mapGet (mapSet pa k v) k2 = mapGet pa k2 := by
  induction pa with
  | nil =>
    have : ¬ k = k2 := fun h => hne h.symm
    simp [mapSet, mapGet, this]
  | cons kv rest ih =>
    obtain ⟨k0, v0⟩ := kv
    by_cases h : k0 = k
    · subst h
      have : ¬ k0 = k2 := fun h => hne h.symm
      simp [mapSet, mapGet, this]
    · by_cases h2 : k0 = k2
      · subst h2
        simp [mapSet, mapGet, h]
      · simp [mapSet, mapGet, h, h2, ih]

theorem firstValues_spec (params : Values) :
    ∀ (pa0 : List (String × String)) (keys0 : List String) (pa : List (String × String))
      (keys : List String), firstValues params pa0 keys0 = some (pa, keys) →
      keys = keys0 ++ params.map Prod.fst ∧
      (∀ k, k ∉ params.map Prod.fst → mapGet pa k = mapGet pa0 k) ∧
      ((params.map Prod.fst).Nodup → ∀ k v vs, (k, v :: vs) ∈ params → mapGet pa k = v) := by
  induction params with
  | nil =>
    intro pa0 keys0 pa keys h
    simp only [firstValues, Option.some.injEq, Prod.mk.injEq] at h
    obtain ⟨h1, h2⟩ := h
    subst h1
    subst h2
    exact ⟨by simp, fun k _ => rfl, fun _ k v vs hm => by simp at hm⟩
  | cons kv rest ih =>
    intro pa0 keys0 pa keys h
    obtain ⟨k0, vs0⟩ := kv
    cases vs0 with
    | nil => simp [firstValues] at h
    | cons x xs =>
      simp only [firstValues] at h
      obtain ⟨h1, h2, h3⟩ := ih _ _ _ _ h
      refine ⟨by simp [h1], ?_, ?_⟩
      · intro k hk
        simp only [List.map_cons, List.mem_cons, not_or] at hk
        rw [h2 k hk.2, mapGet_mapSet_other _ _ _ _ hk.1]
      · intro hnd k v vs hm
        simp only [List.map_cons, List.nodup_cons] at hnd
        rcases List.mem_cons.mp hm with he | he
        · simp only [Prod.mk.injEq, List.cons.injEq] at he
          obtain ⟨hk, hv, _⟩ := he
          subst hk
          subst hv
          rw [h2 k hnd.1, mapGet_mapSet_same]
        · exact h3 hnd.2 k v vs he

theorem writeParams_eq (pa : List (String × String)) (keys : List String) :
    writeParams pa keys =
      joinAll ((keys.filter
        (fun k => decide (k ≠ "signature" ∧ k ≠ "" ∧ mapGet pa k ≠ ""))).map
          (fun k => k ++ mapGet pa k)) := by
  induction keys with
  | nil => rfl
  | cons k ks ih =>
    by_cases hg : k ≠ "signature" ∧ k ≠ "" ∧ mapGet pa k ≠ ""
    · rw [List.filter_cons_of_pos (by simpa using hg), writeParams, if_neg hg.1, if_pos hg.2, ih]
      rfl
    · rw [List.filter_cons_of_neg (by simpa using hg), writeParams]
      by_cases h1 : k = "signature"
      · rw [if_pos h1, ih]
      · rw [if_neg h1, if_neg (fun h2 => hg ⟨h1, h2⟩), ih]

theorem relevant_cons_pos (k v : String) (more : List String) (rest : Values)
    (h : k ≠ "" ∧ k ≠ "signature" ∧ v ≠ "") :
    relevant ((k, v :: more) :: rest) = (k, v) :: relevant rest := by
  rw [relevant, if_pos h]

theorem relevant_cons_neg (k v : String) (more : List String) (rest : Values)
    (h : ¬ (k ≠ "" ∧ k ≠ "signature" ∧ v ≠ "")) :
    relevant ((k, v :: more) :: rest) = relevant rest := by
  rw [relevant, if_neg h]

theorem relevant_mem (params : Values) (k v : String) :
    (k, v) ∈ relevant params ↔
      (∃ vs, (k, v :: vs) ∈ params) ∧ k ≠ "" ∧ k ≠ "signature" ∧ v ≠ "" := by
  induction params with
  | nil => simp [relevant]
  | cons kv rest ih =>
    obtain ⟨k0, vs0⟩ := kv
    cases vs0 with
    | nil =>
      simp only [relevant, ih, List.mem_cons, Prod.mk.injEq]
      constructor
      · rintro ⟨⟨vs, h⟩, h2⟩
        exact ⟨⟨vs, .inr h⟩, h2⟩
      · rintro ⟨⟨vs, h | h⟩, h2⟩
        · simp at h
        · exact ⟨⟨vs, h⟩, h2⟩
    | cons v0 more =>
      by_cases h : k0 ≠ "" ∧ k0 ≠ "signature" ∧ v0 ≠ ""
      · rw [relevant_cons_pos k0 v0 more rest h]
        simp only [List.mem_cons, Prod.mk.injEq, ih, List.cons.injEq]
        constructor
        · rintro (⟨h1, h2⟩ | ⟨⟨vs, h1⟩, h2⟩)
          · subst h1
            subst h2
            exact ⟨⟨more, .inl ⟨rfl, rfl, rfl⟩⟩, h⟩
          · exact ⟨⟨vs, .inr h1⟩, h2⟩
        · rintro ⟨⟨vs, h1 | h1⟩, h2⟩
          · exact .inl ⟨h1.1, h1.2.1⟩
          · exact .inr ⟨⟨vs, h1⟩, h2⟩
      · rw [relevant_cons_neg k0 v0 more rest h]
        simp only [ih, List.mem_cons, Prod.mk.injEq, List.cons.injEq]
        constructor
        · rintro ⟨⟨vs, h1⟩, h2⟩
          exact ⟨⟨vs, .inr h1⟩, h2⟩
        · rintro ⟨⟨vs, h1 | h1⟩, h2⟩
          · exfalso
            apply h
            rw [← h1.1, ← h1.2.1]
            exact h2
          · exact ⟨⟨vs, h1⟩, h2⟩

theorem relevant_keys_sublist (params : Values) :
    ((relevant params).map Prod.fst).Sublist (params.map Prod.fst) := by
  induction params with
  | nil => exact List.Sublist.slnil
  | cons kv rest ih =>
    obtain ⟨k0, vs0⟩ := kv
    cases vs0 with
    | nil =>
      simp only [relevant, List.map_cons]
      exact List.Sublist.cons _ ih
    | cons v0 more =>
      by_cases h : k0 ≠ "" ∧ k0 ≠ "signature" ∧ v0 ≠ ""
      · rw [relevant_cons_pos k0 v0 more rest h]
        exact List.Sublist.cons₂ _ ih
      · rw [relevant_cons_neg k0 v0 more rest h]
        exact List.Sublist.cons _ ih

theorem mapGet_of_mem (l : List (String × String)) (hnd : (l.map Prod.fst).Nodup) (k v : String)
    (h : (k, v) ∈ l) : mapGet l k = v := by
  induction l with
  | nil => simp at h
  | cons kv rest ih =>
    obtain ⟨k0, v0⟩ := kv
    simp only [List.map_cons, List.nodup_cons] at hnd
    rcases List.mem_cons.mp h with he | he
    · simp only [Prod.mk.injEq] at he
      simp [mapGet, he.1, he.2]
    · have hne : k0 ≠ k := by
        intro e
        apply hnd.1
        rw [e]
        exact List.mem_map.mpr ⟨(k, v), he, rfl⟩
      simp [mapGet, hne, ih hnd.2 he]

end Apiauth
namespace Apiauth

theorem relevant_append (a b : Values) : relevant (a ++ b) = relevant a ++ relevant b := by
  induction a with
  | nil => rfl
  | cons kv rest ih =>
    obtain ⟨k0, vs0⟩ := kv
    cases vs0 with
    | nil => simpa [relevant] using ih
    | cons v0 more =>
      by_cases h : k0 ≠ "" ∧ k0 ≠ "signature" ∧ v0 ≠ ""
      · rw [List.cons_append, relevant_cons_pos k0 v0 more _ h, relevant_cons_pos k0 v0 more _ h,
          ih]
        rfl
      · rw [List.cons_append, relevant_cons_neg k0 v0 more _ h, relevant_cons_neg k0 v0 more _ h,
          ih]

theorem relevant_keys_nodup (params : Values) (hnd : (params.map Prod.fst).Nodup) :
    ((relevant params).map Prod.fst).Nodup :=
  List.Nodup.sublist (relevant_keys_sublist params) hnd

theorem relevant_key_mem (params : Values) (k : String)
    (h : k ∈ (relevant params).map Prod.fst) : ∃ v, (k, v) ∈ relevant params := by
  obtain ⟨kv, hkv, he⟩ := List.mem_map.mp h
  obtain ⟨k1, v1⟩ := kv
  simp only at he
  subst he
  exact ⟨v1, hkv⟩

theorem signature_eq (mac : String → String → String) (appsecret method url : String)
    (params : Values) (hnd : (params.map Prod.fst).Nodup) (hne : ∀ kv ∈ params, kv.2 ≠ []) :
    Signature mac appsecret method params url =
      some (mac appsecret (stringToSign method (signedParams params) url)) := by
  obtain ⟨r, hr⟩ := firstValues_isSome params [] [] hne
  obtain ⟨pa, keys⟩ := r
  obtain ⟨hkeys, _, hget⟩ := firstValues_spec params [] [] pa keys hr
  have hget2 := hget hnd
  simp only [List.nil_append] at hkeys
  unfold Signature
  rw [hr]
  simp only
  have hmem : ∀ k, k ∈ keys.filter
      (fun k => decide (k ≠ "signature" ∧ k ≠ "" ∧ mapGet pa k ≠ "")) ↔
      k ∈ (relevant params).map Prod.fst := by
    intro k
    constructor
    · intro hk
      obtain ⟨hk1, hk2⟩ := List.mem_filter.mp hk
      have hg : k ≠ "signature" ∧ k ≠ "" ∧ mapGet pa k ≠ "" := by simpa using hk2
      rw [hkeys] at hk1
      obtain ⟨kv, hkv, he⟩ := List.mem_map.mp hk1
      obtain ⟨k1, vs⟩ := kv
      simp only at he
      subst he
      cases vs with
      | nil => exact absurd rfl (hne _ hkv)
      | cons v more =>
        have hv : mapGet pa k1 = v := hget2 k1 v more hkv
        rw [hv] at hg
        exact List.mem_map.mpr ⟨(k1, v),
          (relevant_mem params k1 v).mpr ⟨⟨more, hkv⟩, hg.2.1, hg.1, hg.2.2⟩, rfl⟩
    · intro hk
      obtain ⟨v, hv⟩ := relevant_key_mem params k hk
      obtain ⟨⟨vs, hin⟩, h1, h2, h3⟩ := (relevant_mem params k v).mp hv
      apply List.mem_filter.mpr
      constructor
      · rw [hkeys]
        exact List.mem_map.mpr ⟨(k, v :: vs), hin, rfl⟩
      · have hv2 : mapGet pa k = v := hget2 k v vs hin
        simp [h1, h2, hv2, h3]
  have hperm : (keys.filter
      (fun k => decide (k ≠ "signature" ∧ k ≠ "" ∧ mapGet pa k ≠ ""))).Perm
      ((relevant params).map Prod.fst) := by
    apply (List.perm_ext_iff_of_nodup _ (relevant_keys_nodup params hnd)).mpr hmem
    rw [hkeys]
    exact hnd.filter _
  have htext : writeParams pa (sortStrings keys) = signedParams params := by
    rw [writeParams_eq, sortStrings_filter, sortStrings_of_perm _ _ hperm]
    unfold signedParams
    congr 1
    apply List.map_congr_left
    intro k hk
    have hk2 : k ∈ (relevant params).map Prod.fst := (sortStrings_perm _).mem_iff.mp hk
    obtain ⟨v, hv⟩ := relevant_key_mem params k hk2
    obtain ⟨⟨vs, hin⟩, _⟩ := (relevant_mem params k v).mp hv
    rw [hget2 k v vs hin, mapGet_of_mem _ (relevant_keys_nodup params hnd) k v hv]
  rw [htext]

theorem signedParams_congr (p q : Values) (hp : (p.map Prod.fst).Nodup)
    (hq : (q.map Prod.fst).Nodup) (h : ∀ kv, kv ∈ relevant p ↔ kv ∈ relevant q) :
    signedParams p = signedParams q := by
  have hmem : ∀ k, k ∈ (relevant p).map Prod.fst ↔ k ∈ (relevant q).map Prod.fst := by
    intro k
    constructor
    · intro hk
      obtain ⟨v, hv⟩ := relevant_key_mem p k hk
      exact List.mem_map.mpr ⟨(k, v), (h (k, v)).mp hv, rfl⟩
    · intro hk
      obtain ⟨v, hv⟩ := relevant_key_mem q k hk
      exact List.mem_map.mpr ⟨(k, v), (h (k, v)).mpr hv, rfl⟩
  have hperm : ((relevant p).map Prod.fst).Perm ((relevant q).map Prod.fst) :=
    (List.perm_ext_iff_of_nodup (relevant_keys_nodup p hp) (relevant_keys_nodup q hq)).mpr hmem
  unfold signedParams
  rw [sortStrings_of_perm _ _ hperm]
  congr 1
  apply List.map_congr_left
  intro k hk
  have hk2 : k ∈ (relevant q).map Prod.fst := (sortStrings_perm _).mem_iff.mp hk
  obtain ⟨v, hv⟩ := relevant_key_mem q k hk2
  rw [mapGet_of_mem _ (relevant_keys_nodup q hq) k v hv,
    mapGet_of_mem _ (relevant_keys_nodup p hp) k v ((h (k, v)).mpr hv)]

end Apiauth

namespace Apiauth

theorem signature_perm (mac : String → String → String) (appsecret method url : String)
    (p q : Values) (hp : (p.map Prod.fst).Nodup) (hperm : p.Perm q) :
    Signature mac appsecret method p url = Signature mac appsecret method q url := by
  have hq : (q.map Prod.fst).Nodup := (hperm.map Prod.fst).nodup_iff.mp hp
  by_cases hall : ∀ kv ∈ p, kv.2 ≠ []
  · have hallq : ∀ kv ∈ q, kv.2 ≠ [] := fun kv hkv => hall kv (hperm.mem_iff.mpr hkv)
    rw [signature_eq mac appsecret method url p hp hall,
      signature_eq mac appsecret method url q hq hallq,
      signedParams_congr p q hp hq (fun kv => by
        obtain ⟨k, v⟩ := kv
        rw [relevant_mem, relevant_mem]
        constructor
        · rintro ⟨⟨vs, h⟩, h2⟩
          exact ⟨⟨vs, hperm.mem_iff.mp h⟩, h2⟩
        · rintro ⟨⟨vs, h⟩, h2⟩
          exact ⟨⟨vs, hperm.mem_iff.mpr h⟩, h2⟩)]
  · have hex : ∃ kv ∈ p, kv.2 = [] := by
      by_contra hc
      exact hall (fun kv hkv he => hc ⟨kv, hkv, he⟩)
    obtain ⟨kv, hkv, he⟩ := hex
    rw [(signature_none_iff mac appsecret method p url).mpr ⟨kv, hkv, he⟩,
      (signature_none_iff mac appsecret method q url).mpr ⟨kv, hperm.mem_iff.mp hkv, he⟩]

/-- C23: for parameter maps (keys pairwise distinct) in which every key has at
least one value, `Signature` is the digest of method, parameter text and URL,
the parameter text being made of the keys that are non-empty and not
`signature` and whose first value is non-empty, in ascending order, each
followed by its first value; so two such maps with the same bindings of this
kind have the same signature, and the order of the bindings of a map does not
matter.  These bindings do not change when an entry `signature` or an entry
whose first value is empty is added, removed or changed, nor when the values
after the first of a key change. -/
theorem signature_depends_on_relevant (mac : String → String → String)
    (appsecret method url : String) (p q : Values)
    (hp : (p.map Prod.fst).Nodup) (hq : (q.map Prod.fst).Nodup)
    (hpv : ∀ kv ∈ p, kv.2 ≠ []) (hqv : ∀ kv ∈ q, kv.2 ≠ []) :
    Signature mac appsecret method p url =
      some (mac appsecret (stringToSign method (signedParams p) url)) ∧
    ((∀ kv, kv ∈ relevant p ↔ kv ∈ relevant q) →
      Signature mac appsecret method p url = Signature mac appsecret method q url) ∧
    (∀ r : Values, p.Perm r →
      Signature mac appsecret method p url = Signature mac appsecret method r url) ∧
    (∀ (k v : String), (k, v) ∈ relevant p ↔
      (∃ vs, (k, v :: vs) ∈ p) ∧ k ≠ "" ∧ k ≠ "signature" ∧ v ≠ "") ∧
    (∀ (pre post : Values) (vs ws : List String),
      relevant (pre ++ ("signature", vs) :: post) = relevant (pre ++ post) ∧
      relevant (pre ++ ("signature", vs) :: post) =
        relevant (pre ++ ("signature", ws) :: post)) ∧
    (∀ (pre post : Values) (k j : String) (vs ws : List String),
      relevant (pre ++ (k, "" :: vs) :: post) = relevant (pre ++ post) ∧
      relevant (pre ++ (k, "" :: vs) :: post) = relevant (pre ++ (j, "" :: ws) :: post)) ∧
    (∀ (pre post : Values) (k v : String) (vs ws : List String),
      relevant (pre ++ (k, v :: vs) :: post) = relevant (pre ++ (k, v :: ws) :: post)) := by
  have hsig : ∀ (pre post : Values) (vs : List String),
      relevant (pre ++ ("signature", vs) :: post) = relevant (pre ++ post) := by
    intro pre post vs
    rw [relevant_append, relevant_append]
    cases vs with
    | nil => rfl
    | cons v more => rw [relevant_cons_neg "signature" v more post (by simp)]
  have hempty : ∀ (pre post : Values) (k : String) (vs : List String),
      relevant (pre ++ (k, "" :: vs) :: post) = relevant (pre ++ post) := by
    intro pre post k vs
    rw [relevant_append, relevant_append, relevant_cons_neg k "" vs post (by simp)]
  refine ⟨signature_eq mac appsecret method url p hp hpv, ?_,
    fun r hr => signature_perm mac appsecret method url p r hp hr,
    fun k v => relevant_mem p k v,
    fun pre post vs ws => ⟨hsig pre post vs, (hsig pre post vs).trans (hsig pre post ws).symm⟩,
    fun pre post k j vs ws =>
      ⟨hempty pre post k vs, (hempty pre post k vs).trans (hempty pre post j ws).symm⟩, ?_⟩
  · intro h
    rw [signature_eq mac appsecret method url p hp hpv,
      signature_eq mac appsecret method url q hq hqv, signedParams_congr p q hp hq h]
  · intro pre post k v vs ws
    rw [relevant_append, relevant_append]
    by_cases h : k ≠ "" ∧ k ≠ "signature" ∧ v ≠ ""
    · rw [relevant_cons_pos k v vs post h, relevant_cons_pos k v ws post h]
    · rw [relevant_cons_neg k v vs post h, relevant_cons_neg k v ws post h]

theorem signature_depends_on_relevant_witness :
    Signature sampleMac "s3cret" "GET"
        [("page", ["2", "9"]), ("signature", ["abc"]), ("appid", ["app1"]), ("debug", [""])]
        "/api/list" =
      Signature sampleMac "s3cret" "GET" [("appid", ["app1"]), ("page", ["2"])] "/api/list" :=
  (signature_depends_on_relevant sampleMac "s3cret" "GET" "/api/list"
    [("page", ["2", "9"]), ("signature", ["abc"]), ("appid", ["app1"]), ("debug", [""])]
    [("appid", ["app1"]), ("page", ["2"])] (by decide) (by decide) (by decide) (by decide)).2.1
    (by
      intro kv
      have h1 : relevant [("page", ["2", "9"]), ("signature", ["abc"]), ("appid", ["app1"]),
          ("debug", [""])] = [("page", "2"), ("appid", "app1")] := by decide
      have h2 : relevant [("appid", ["app1"]), ("page", ["2"])] =
          [("appid", "app1"), ("page", "2")] := by decide
      rw [h1, h2]
      simp only [List.mem_cons, List.mem_singleton, List.not_mem_nil, or_false]
      exact or_comm)

end Apiauth
namespace Apiauth

/-! ## The freshness test of `APISecretAuth` -/

theorem saturate64_neg (n : Int) (h : n < 0) : saturate64 n < 0 := by
  unfold saturate64
  split
  · omega
  · split
    · omega
    · exact h

theorem instant_later (parse : String → String → Option Int) (now t : Int) (h : now < t) :
    (instantTime parse now).SubSeconds (instantTime parse now).Now t < 0 := by
  have h1 : saturate64 (now - t) < 0 := saturate64_neg _ (by omega)
  have h2 : ((saturate64 (now - t) : Int) : ℚ) < 0 := by exact_mod_cast h1
  exact div_neg_of_neg_of_pos h2 (by norm_num)

/-- C26: for a request that passed the checks of the parameters, with a
timeout that is not negative and a timestamp that parses to a time from which
the seconds to the current time are not positive, the filter of `APISecretAuth`
does not take the branch `request timer timeout exceeded`: it writes a 403
response if and only if the `signature` parameter differs from `Signature`, then
with the message `authentication failed`, and writes nothing otherwise.  On
instants counted in nanoseconds the seconds from a timestamp to the current
time are negative for every timestamp later than the current time, however far
(the difference is only cut at the smallest duration). -/
theorem freshness_one_sided {τ : Type} (lib : TimeLib τ) (mac : String → String → String)
    (f : String → String) (timeout : Int) (ctx : Input) (u : τ)
    (hform : ∀ kv ∈ ctx.Form, kv.2 ≠ [])
    (h1 : ctx.Query "appid" ≠ "") (h2 : f (ctx.Query "appid") ≠ "")
    (h3 : ctx.Query "signature" ≠ "") (h4 : ctx.Query "timestamp" ≠ "")
    (hparse : lib.Parse timestampLayout (ctx.Query "timestamp") = some u)
    (htimeout : 0 ≤ timeout) (hlater : lib.SubSeconds lib.Now u ≤ 0) :
    APISecretAuth lib mac f timeout ctx ≠
        some (deny "request timer timeout exceeded. Please try again") ∧
    (∃ sig, Signature mac (f (ctx.Query "appid")) ctx.Method ctx.Form ctx.URL = some sig ∧
      (Rejected (APISecretAuth lib mac f timeout ctx) ↔ ctx.Query "signature" ≠ sig) ∧
      (ctx.Query "signature" ≠ sig →
        APISecretAuth lib mac f timeout ctx = some (deny "authentication failed")) ∧
      (ctx.Query "signature" = sig → APISecretAuth lib mac f timeout ctx = some [])) ∧
    (∀ (parse : String → String → Option Int) (now t : Int), now < t →
      (instantTime parse now).SubSeconds (instantTime parse now).Now t < 0) := by
  obtain ⟨sig, hsig⟩ := signature_isSome mac (f (ctx.Query "appid")) ctx.Method ctx.Form ctx.URL
    hform
  have hnot : ¬ (timeout : ℚ) < lib.SubSeconds lib.Now u := by
    have : (0 : ℚ) ≤ (timeout : ℚ) := by exact_mod_cast htimeout
    intro hc
    exact absurd (lt_of_le_of_lt this hc) (not_lt.mpr hlater)
  have hmis : ctx.Query "signature" ≠ sig →
      APISecretAuth lib mac f timeout ctx = some (deny "authentication failed") := by
    intro h7
    simp [APISecretAuth, h1, h2, h3, h4, hparse, hnot, hsig, h7]
  have hok : ctx.Query "signature" = sig → APISecretAuth lib mac f timeout ctx = some [] := by
    intro h7
    have h3b : ¬ sig = "" := h7 ▸ h3
    simp [APISecretAuth, h1, h2, h3b, h4, hparse, hnot, hsig, h7]
  refine ⟨?_, ⟨sig, hsig, ?_, hmis, hok⟩, instant_later⟩
  · by_cases h7 : ctx.Query "signature" = sig
    · rw [hok h7]
      simp [deny]
    · rw [hmis h7]
      simp [deny]
  · constructor
    · intro hr h7
      rw [hok h7] at hr
      obtain ⟨msg, hm⟩ := hr
      simp [deny] at hm
    · intro h7
      exact ⟨_, hmis h7⟩

theorem freshness_one_sided_witness :
    futureTime.Parse timestampLayout ((futureInput "forged").Query "timestamp") =
        some 13569465600000000000 ∧
      APISecretAuth futureTime sampleMac sampleSecret 0 (futureInput "forged") ≠
        some (deny "request timer timeout exceeded. Please try again") :=
  ⟨by decide,
   (freshness_one_sided futureTime sampleMac sampleSecret 0 (futureInput "forged")
      13569465600000000000 (by decide) (by decide) (by decide) (by decide) (by decide)
      (by decide) (by decide)
      (le_of_lt (instant_later _ 1793613600000000000 13569465600000000000 (by decide)))).1⟩

end Apiauth
namespace Cache

/-! ## `WriteThroughCache.Set` -/

/-- C27: `Set` calls the store function first: the store is left as the store
function leaves it.  When the store function returns an error, `Set` returns
that error wrapped with the code `PersistCacheFailed`, `Put` is not called and
the cache is unchanged; when the store function returns nil, `Put` is called
once on the cache and `Set` returns what `Put` returns.  So `Set` returns nil if
and only if the store function and `Put` both return nil.
`NewWriteThroughCache` fails exactly when the cache or the function is nil. -/
theorem set_store_before_cache {ρ σ ν : Type} (w : WriteThroughCache ρ σ ν) (format : ν → String)
    (s : State ρ σ) (key : String) (val : ν) (expiration : Int) :
    (w.Set format s key val expiration).1.store = (w.storeFunc s.store key val).1 ∧
    (∀ err, (w.storeFunc s.store key val).2 = some err →
      (w.Set format s key val expiration).2 =
          some (.wrap err .PersistCacheFailed ("key: " ++ key ++ ", val: " ++ format val)) ∧
        (w.Set format s key val expiration).1.cache = s.cache ∧
        (w.Set format s key val expiration).1.puts = s.puts) ∧
    ((w.storeFunc s.store key val).2 = none →
      (w.Set format s key val expiration).2 = (w.Put s.cache key val expiration).2 ∧
        (w.Set format s key val expiration).1.cache = (w.Put s.cache key val expiration).1 ∧
        (w.Set format s key val expiration).1.puts = s.puts + 1) ∧
    ((w.Set format s key val expiration).2 = none ↔
      (w.storeFunc s.store key val).2 = none ∧ (w.Put s.cache key val expiration).2 = none) ∧
    (∀ (cache : Option (σ → String → ν → Int → σ × Option Error))
        (fn : Option (ρ → String → ν → ρ × Option Error)),
      (fn = none ∨ cache = none →
        (NewWriteThroughCache cache fn : Except Error (WriteThroughCache ρ σ ν)) =
          .error (.coded .InvalidInitParameters "cache or storeFunc can not be nil")) ∧
      (∀ c f, cache = some c → fn = some f →
        (NewWriteThroughCache cache fn : Except Error (WriteThroughCache ρ σ ν)) =
          .ok ⟨c, f⟩)) := by
  unfold WriteThroughCache.Set
  cases hs : w.storeFunc s.store key val with
  | mk st r =>
    cases r with
    | some err =>
      refine ⟨rfl, ?_, ?_, ?_, ?_⟩
      · intro e he
        simp only [Option.some.injEq] at he
        subst he
        exact ⟨rfl, rfl, rfl⟩
      · intro hn
        simp at hn
      · simp
      · intro cache fn
        constructor
        · rintro (h | h)
          · subst h
            rfl
          · subst h
            cases fn <;> rfl
        · intro c f hc hf
          subst hc
          subst hf
          rfl
    | none =>
      refine ⟨rfl, ?_, ?_, ?_, ?_⟩
      · intro e he
        simp at he
      · intro _
        exact ⟨rfl, rfl, rfl⟩
      · simp
      · intro cache fn
        constructor
        · rintro (h | h)
          · subst h
            rfl
          · subst h
            cases fn <;> rfl
        · intro c f hc hf
          subst hc
          subst hf
          rfl

theorem set_store_before_cache_witness :
    (sampleCache.Set id ⟨[], [], 0⟩ "locked" "v" 60).2 =
        some (.wrap (.other "store is read-only") .PersistCacheFailed
          ("key: " ++ "locked" ++ ", val: " ++ id "v")) ∧
      (sampleCache.Set id ⟨[], [], 0⟩ "locked" "v" 60).1.cache = [] ∧
      (sampleCache.Set id ⟨[], [], 0⟩ "k" "v" 60).2 = none :=
  ⟨((set_store_before_cache sampleCache id ⟨[], [], 0⟩ "locked" "v" 60).2.1
      (.other "store is read-only") (by decide)).1,
   ((set_store_before_cache sampleCache id ⟨[], [], 0⟩ "locked" "v" 60).2.1
      (.other "store is read-only") (by decide)).2.1,
   (set_store_before_cache sampleCache id ⟨[], [], 0⟩ "k" "v" 60).2.2.2.1.mpr
      ⟨by decide, by decide⟩⟩

end Cache
namespace Web

/-! ## The default error handlers -/

theorem registerLoop_keeps {ι : Type} (EH : ErrorMaps ι → String → String → ErrorMaps ι)
    (hframe : ∀ (M : ErrorMaps ι) (e h c : String), c ≠ e → (EH M e h).lookup c = M.lookup c)
    (l : List (String × String)) :
    ∀ (maps : ErrorMaps ι) (c : String) (i : ι), maps.lookup c = some i →
      (registerLoop EH l maps).lookup c = some i := by
  induction l with
  | nil => intro maps c i h; exact h
  | cons eh rest ih =>
    intro maps c i h
    obtain ⟨e, hd⟩ := eh
    simp only [registerLoop]
    apply ih
    split
    · next hnone =>
      have hne : c ≠ e := by
        intro hce
        rw [hce] at h
        rw [h] at hnone
        simp at hnone
      rw [hframe maps e hd c hne]
      exact h
    · exact h

theorem registerLoop_other {ι : Type} (EH : ErrorMaps ι → String → String → ErrorMaps ι)
    (hframe : ∀ (M : ErrorMaps ι) (e h c : String), c ≠ e → (EH M e h).lookup c = M.lookup c)
    (l : List (String × String)) :
    ∀ (maps : ErrorMaps ι) (c : String), c ∉ l.map Prod.fst →
      (registerLoop EH l maps).lookup c = maps.lookup c := by
  induction l with
  | nil => intro maps c _; rfl
  | cons eh rest ih =>
    intro maps c hc
    obtain ⟨e, hd⟩ := eh
    simp only [List.map_cons, List.mem_cons, not_or] at hc
    simp only [registerLoop]
    rw [ih _ c hc.2]
    split
    · exact hframe maps e hd c hc.1
    · rfl

theorem registerLoop_installs {ι : Type} (EH : ErrorMaps ι → String → String → ErrorMaps ι)
    (info : String → String → ι)
    (hset : ∀ (M : ErrorMaps ι) (e h : String), (EH M e h).lookup e = some (info e h))
    (hframe : ∀ (M : ErrorMaps ι) (e h c : String), c ≠ e → (EH M e h).lookup c = M.lookup c)
    (l : List (String × String)) :
    ∀ (maps : ErrorMaps ι) (c h : String), (l.map Prod.fst).Nodup → (c, h) ∈ l →
      maps.lookup c = none → (registerLoop EH l maps).lookup c = some (info c h) := by
  induction l with
  | nil => intro maps c h _ hm; simp at hm
  | cons eh rest ih =>
    intro maps c h hnd hm hnone
    obtain ⟨e, hd⟩ := eh
    simp only [List.map_cons, List.nodup_cons] at hnd
    simp only [registerLoop]
    rcases List.mem_cons.mp hm with he | he
    · simp only [Prod.mk.injEq] at he
      obtain ⟨h1, h2⟩ := he
      subst h1
      subst h2
      rw [hnone]
      simp only [Option.isNone_none, if_true]
      rw [registerLoop_other EH hframe rest _ c hnd.1]
      exact hset maps c h
    · have hne : c ≠ e := by
        intro hce
        apply hnd.1
        rw [← hce]
        exact List.mem_map.mpr ⟨(c, h), he, rfl⟩
      apply ih _ c h hnd.2 he
      split
      · rw [hframe maps e hd c hne]
        exact hnone
      · exact hnone

/-- C22: let `ErrorHandler(e, h)` bind the code `e` in `ErrorMaps` to the
information made of `e` and `h` and leave the other codes as they are.  Then,
in whatever order the entries of the table are visited, after
`registerDefaultErrorHandler` a handler is configured for each of the codes 401,
402, 403, 404, 405, 413, 417, 422, 500, 501, 502, 503 and 504; every code that
had a handler before the call has the same one after it; a code of the table
that had none has the default of the table; and the codes outside the table are
as before. -/
theorem registerDefaultErrorHandler_frame {ι : Type}
    (ErrorHandler : ErrorMaps ι → String → String → ErrorMaps ι) (info : String → String → ι)
    (order : List (String × String)) (maps : ErrorMaps ι)
    (horder : order.Perm defaultErrorHandlers)
    (hset : ∀ (M : ErrorMaps ι) (e h : String),
      (ErrorHandler M e h).lookup e = some (info e h))
    (hframe : ∀ (M : ErrorMaps ι) (e h c : String), c ≠ e →
      (ErrorHandler M e h).lookup c = M.lookup c) :
    (∀ c ∈ ["401", "402", "403", "404", "405", "413", "417", "422", "500", "501", "502", "503",
        "504"], ((registerDefaultErrorHandler ErrorHandler order maps).lookup c).isSome = true) ∧
    (∀ c i, maps.lookup c = some i →
      (registerDefaultErrorHandler ErrorHandler order maps).lookup c = some i) ∧
    (∀ c h, (c, h) ∈ defaultErrorHandlers → maps.lookup c = none →
      (registerDefaultErrorHandler ErrorHandler order maps).lookup c = some (info c h)) ∧
    (∀ c, c ∉ defaultErrorHandlers.map Prod.fst →
      (registerDefaultErrorHandler ErrorHandler order maps).lookup c = maps.lookup c) := by
  have hnd : (order.map Prod.fst).Nodup :=
    (horder.map Prod.fst).nodup_iff.mpr (by decide)
  have hkeep := registerLoop_keeps ErrorHandler hframe order maps
  have hinst : ∀ c h, (c, h) ∈ defaultErrorHandlers → maps.lookup c = none →
      (registerDefaultErrorHandler ErrorHandler order maps).lookup c = some (info c h) :=
    fun c h hm hn =>
      registerLoop_installs ErrorHandler info hset hframe order maps c h hnd
        (horder.mem_iff.mpr hm) hn
  refine ⟨?_, hkeep, hinst, ?_⟩
  · intro c hc
    have hall : ∀ x ∈ ["401", "402", "403", "404", "405", "413", "417", "422", "500", "501",
        "502", "503", "504"], x ∈ defaultErrorHandlers.map Prod.fst := by decide
    obtain ⟨ch, hm0, hfst⟩ := List.mem_map.mp (hall c hc)
    obtain ⟨c0, h⟩ := ch
    simp only at hfst
    subst hfst
    have hm : (c0, h) ∈ defaultErrorHandlers := hm0
    cases hl : maps.lookup c0 with
    | none => rw [hinst c0 h hm hl]; rfl
    | some i =>
      unfold registerDefaultErrorHandler
      rw [hkeep c0 i hl]
      rfl
  · intro c hc
    apply registerLoop_other ErrorHandler hframe order maps c
    intro hmem
    exact hc ((horder.map Prod.fst).mem_iff.mp hmem)

theorem registerDefaultErrorHandler_frame_witness :
    (registerDefaultErrorHandler sampleErrorHandler defaultErrorHandlers.reverse
        [("404", "custom404")]).lookup "404" = some "custom404" ∧
      (registerDefaultErrorHandler sampleErrorHandler defaultErrorHandlers.reverse
        [("404", "custom404")]).lookup "500" = some "internalServerError" :=
  ⟨(registerDefaultErrorHandler_frame sampleErrorHandler (fun _ h => h)
      defaultErrorHandlers.reverse [("404", "custom404")] (List.reverse_perm _)
      (fun M e h => by simp [sampleErrorHandler, ErrorMaps.lookup])
      (fun M e h c hne => by
        have : ¬ e = c := fun he => hne he.symm
        simp [sampleErrorHandler, ErrorMaps.lookup, this])).2.1 "404" "custom404" (by decide),
   (registerDefaultErrorHandler_frame sampleErrorHandler (fun _ h => h)
      defaultErrorHandlers.reverse [("404", "custom404")] (List.reverse_perm _)
      (fun M e h => by simp [sampleErrorHandler, ErrorMaps.lookup])
      (fun M e h c hne => by
        have : ¬ e = c := fun he => hne he.symm
        simp [sampleErrorHandler, ErrorMaps.lookup, this])).2.2.1 "500" "internalServerError"
      (by decide) (by decide)⟩

end Web
namespace Orm

/-! ## The VALUES clause of `InsertValue` -/

theorem repeat_groups (g : String) (n : Nat) :
    "(" ++ (repeatText (g ++ "), (") n ++ g) ++ ")" =
      Join (List.replicate (n + 1) ("(" ++ g ++ ")")) ", " := by
  induction n with
  | zero =>
    apply String.ext
    simp [repeatText, Join, String.data_append]
  | succ n ih =>
    have hrep : List.replicate (n + 1 + 1) ("(" ++ g ++ ")") =
        ("(" ++ g ++ ")") :: ("(" ++ g ++ ")") :: List.replicate n ("(" ++ g ++ ")") := rfl
    have hrep2 : ("(" ++ g ++ ")") :: List.replicate n ("(" ++ g ++ ")") =
        List.replicate (n + 1) ("(" ++ g ++ ")") := rfl
    rw [hrep, Join, hrep2, ← ih]
    apply String.ext
    simp [repeatText, String.data_append]

/-- C29: `InsertValue` computes `len(values) / len(names)` and the repeat
count without a guard.  With an empty list of names it fails with a division by
zero, whatever `isMulti`; with names, `isMulti` set and fewer values than names
it fails on a negative repeat count.  With names and `isMulti` clear the VALUES
clause is one parenthesised group; with names, `isMulti` set and at least as
many values as names it is made of exactly `len(values) / len(names)` groups,
separated by `, `; each group lists `:name` for every name, in order. -/
theorem insertValue_clause {ν : Type} (Q table : String) (isMulti : Bool) (names : List String)
    (values : List ν) :
    (names = [] → InsertValue Q table isMulti names values = .error .divideByZero) ∧
    (names ≠ [] → isMulti = true → values.length < names.length →
      InsertValue Q table isMulti names values = .error .negativeRepeat) ∧
    (names ≠ [] → isMulti = false →
      InsertValue Q table isMulti names values =
        .ok (insertHead Q table names ++ valueGroup names)) ∧
    (names ≠ [] → isMulti = true → names.length ≤ values.length →
      InsertValue Q table isMulti names values =
        .ok (insertHead Q table names ++
          Join (List.replicate (values.length / names.length) (valueGroup names)) ", ") ∧
      (List.replicate (values.length / names.length) (valueGroup names)).length =
        values.length / names.length) ∧
    valueGroup names = "(" ++ Join (names.map (fun n => ":" ++ n)) ", " ++ ")" := by
  refine ⟨?_, ?_, ?_, ?_, rfl⟩
  · intro h
    subst h
    rfl
  · intro hne hm hlt
    have hlen : names.length ≠ 0 := fun h => hne (List.length_eq_zero.mp h)
    have hdiv : values.length / names.length = 0 := Nat.div_eq_of_lt hlt
    simp [InsertValue, hlen, hm, hdiv, Repeat, Except.map]
  · intro hne hm
    have hlen : names.length ≠ 0 := fun h => hne (List.length_eq_zero.mp h)
    simp only [InsertValue, hlen, if_false, hm, Bool.false_eq_true]
    congr 1
    apply String.ext
    simp [insertHead, valueGroup, String.data_append]
  · intro hne hm hle
    have hlen : names.length ≠ 0 := fun h => hne (List.length_eq_zero.mp h)
    have hpos : 0 < values.length / names.length :=
      Nat.div_pos hle (Nat.pos_of_ne_zero hlen)
    refine ⟨?_, List.length_replicate _ _⟩
    obtain ⟨n, hn⟩ : ∃ n, values.length / names.length = n + 1 :=
      ⟨values.length / names.length - 1, by omega⟩
    have hcount : ¬ (((n + 1 : Nat) : Int) - 1 < 0) := by omega
    have hnat : (((n + 1 : Nat) : Int) - 1).toNat = n := by omega
    simp only [InsertValue, hlen, if_false, hm, if_true, hn, Repeat, hcount, Except.map, hnat]
    congr 1
    have hg := repeat_groups (Join (names.map (fun n => ":" ++ n)) ", ") n
    unfold valueGroup
    rw [← hg]
    apply String.ext
    simp [insertHead, String.data_append]

theorem insertValue_clause_witness :
    InsertValue "\"" "users" true ["id", "name"] [1, 2, 3, 4, 5] =
        .ok (insertHead "\"" "users" ["id", "name"] ++
          Join (List.replicate ([1, 2, 3, 4, 5].length / ["id", "name"].length)
            (valueGroup ["id", "name"])) ", ") ∧
      InsertValue "\"" "users" true ["id", "name"] [1] = .error .negativeRepeat ∧
      InsertValue "\"" "users" false ([] : List String) [1] = .error .divideByZero :=
  ⟨((insertValue_clause "\"" "users" true ["id", "name"] [1, 2, 3, 4, 5]).2.2.2.1
      (by decide) rfl (by decide)).1,
   (insertValue_clause "\"" "users" true ["id", "name"] [1]).2.1 (by decide) rfl (by decide),
   (insertValue_clause "\"" "users" false [] [1]).1 rfl⟩

end Orm
namespace Orm

/-! ## The statement of `InsertOrUpdate` -/

theorem collectArgs_get (ToLower : String → String) (args : List String) :
    ∀ (m : List (String × String)) (key : String),
      Apiauth.mapGet (collectArgs ToLower args m) key =
        match (args.reverse.filterMap overrideEntry).find?
            (fun kv => decide (ToLower kv.1 = key)) with
        | some kv => kv.2
        | none => Apiauth.mapGet m key := by
  induction args with
  | nil => intro m key; rfl
  | cons v rest ih =>
    intro m key
    simp only [collectArgs, List.reverse_cons, List.filterMap_append, List.find?_append]
    cases hv : overrideEntry v with
    | none =>
      simp only [List.filterMap_cons, hv, List.filterMap_nil, List.find?_nil, Option.or_none]
      exact ih m key
    | some kv =>
      simp only [List.filterMap_cons, hv, List.filterMap_nil]
      rw [ih]
      cases hf : (rest.reverse.filterMap overrideEntry).find?
          (fun kv => decide (ToLower kv.1 = key)) with
      | some found => rfl
      | none =>
        simp only [Option.none_or]
        by_cases hk : ToLower kv.1 = key
        · subst hk
          simp [List.find?, Apiauth.mapGet_mapSet_same]
        · have hne : key ≠ ToLower kv.1 := fun h => hk h.symm
          simp [List.find?, hk, Apiauth.mapGet_mapSet_other _ _ _ _ hne]

theorem argsMap_get (ToLower : String → String) (args : List String)
    (name : String) :
    Apiauth.mapGet (collectArgs ToLower args []) (ToLower name) = lastOverride ToLower args name := by
  rw [collectArgs_get]
  unfold lastOverride
  cases (args.reverse.filterMap overrideEntry).find?
      (fun kv => decide (ToLower kv.1 = ToLower name)) with
  | some kv => rfl
  | none => rfl

theorem updateLoop_ok {ν : Type} (ToLower : String → String) (args : List String)
    (values : List ν) (names : List String) :
    ∀ i, i + names.length ≤ values.length →
      updateLoop ToLower (collectArgs ToLower args []) values names i =
        .ok (names.map (updateText ToLower args),
          ((names.zip (values.drop i)).filter
            (fun p => decide (lastOverride ToLower args p.1 = ""))).map Prod.snd) := by
  induction names with
  | nil => intro i _; rfl
  | cons n rest ih =>
    intro i hi
    simp only [List.length_cons] at hi
    have hlt : i < values.length := by omega
    have hdrop : values.drop i = values[i] :: values.drop (i + 1) :=
      List.drop_eq_getElem_cons hlt
    have hget : values[i]? = some values[i] := List.getElem?_eq_getElem hlt
    rw [updateLoop, argsMap_get, ih (i + 1) (by omega), hget]
    by_cases ho : lastOverride ToLower args n = ""
    · simp only [ho, ne_eq, not_true_eq_false, if_false, List.map_cons, updateText]
      rw [hdrop]
      simp only [List.zip_cons_cons, List.filter_cons, ho, decide_True, if_true, List.map_cons]
    · simp only [ho, ne_eq, not_false_eq_true, if_true, List.map_cons, updateText]
      rw [hdrop]
      simp only [List.zip_cons_cons, List.filter_cons, ho, decide_False, Bool.false_eq_true,
        if_false]

theorem marksIn_append (a b : String) : marksIn (a ++ b) = marksIn a + marksIn b := by
  simp [marksIn, String.data_append, List.count_append]

theorem marksIn_zero (s : String) (h : '?' ∉ s.data) : marksIn s = 0 :=
  List.count_eq_zero.mpr h

theorem marksIn_join (l : List String) (sep : String) (hsep : marksIn sep = 0) :
    marksIn (Join l sep) = (l.map marksIn).sum := by
  induction l with
  | nil => rfl
  | cons a rest ih =>
    cases rest with
    | nil => simp [Join]
    | cons b more =>
      rw [Join, marksIn_append, marksIn_append, hsep, ih]
      simp

theorem sum_map_zero (l : List String) (f : String → Nat) (h : ∀ x ∈ l, f x = 0) :
    (l.map f).sum = 0 := by
  induction l with
  | nil => rfl
  | cons a rest ih =>
    simp [h a (by simp), ih (fun x hx => h x (by simp [hx]))]

theorem sum_map_const_one (l : List String) : ((l.map (fun _ => "?")).map marksIn).sum = l.length := by
  induction l with
  | nil => rfl
  | cons a rest ih =>
    have h1 : marksIn "?" = 1 := by decide
    simp only [List.map_cons, List.sum_cons, ih, h1, List.length_cons]
    omega

theorem updates_marks {ν : Type} (ToLower : String → String) (args : List String)
    (names : List String) :
    ∀ (vs : List ν), names.length ≤ vs.length →
      (∀ n ∈ names, '?' ∉ n.data) → (∀ n ∈ names, '?' ∉ (lastOverride ToLower args n).data) →
      ((names.map (updateText ToLower args)).map marksIn).sum =
        (((names.zip vs).filter
          (fun p => decide (lastOverride ToLower args p.1 = ""))).map Prod.snd).length := by
  induction names with
  | nil => intro vs _ _ _; rfl
  | cons n rest ih =>
    intro vs hlen hn ho
    cases vs with
    | nil => simp at hlen
    | cons x xs =>
      simp only [List.length_cons] at hlen
      have hrest := ih xs (by omega) (fun m hm => hn m (by simp [hm]))
        (fun m hm => ho m (by simp [hm]))
      have hn0 : marksIn n = 0 := marksIn_zero n (hn n (by simp))
      have ho0 : marksIn (lastOverride ToLower args n) = 0 := marksIn_zero _ (ho n (by simp))
      have hq : marksIn "`" = 0 := by decide
      have he : marksIn "=" = 0 := by decide
      have heq : marksIn "=?" = 1 := by decide
      simp only [List.map_cons, List.sum_cons, hrest, List.zip_cons_cons, List.filter_cons]
      by_cases hov : lastOverride ToLower args n = ""
      · simp [updateText, hov, marksIn_append, hn0, hq, heq]
        omega
      · simp [updateText, hov, marksIn_append, hn0, hq, he, ho0]

end Orm

namespace Orm

theorem overrideEntry_none (v : String) (h : (RedisCluster.Split v '=').length ≠ 2) :
    overrideEntry v = none := by
  unfold overrideEntry
  split
  · next k e heq =>
    rw [heq] at h
    simp at h
  · rfl

theorem lastOverride_ignores (ToLower : String → String) (pre post : List String)
    (v n : String)
    (h : (RedisCluster.Split v '=').length ≠ 2) :
    lastOverride ToLower (pre ++ v :: post) n = lastOverride ToLower (pre ++ post) n := by
  unfold lastOverride
  simp [List.filterMap_append, overrideEntry_none v h]

theorem find_eq_head_filter {α : Type} (p : α → Bool) (l : List α) :
    l.find? p = (l.filter p).head? := by
  induction l with
  | nil => rfl
  | cons a rest ih =>
    cases h : p a with
    | true => rw [List.find?_cons_of_pos _ h, List.filter_cons_of_pos h, List.head?_cons]
    | false =>
      rw [List.find?_cons_of_neg _ (by simp [h]), List.filter_cons_of_neg (by simp [h]), ih]

theorem lastOverride_single (ToLower : String → String) (args : List String)
    (n k e : String)
    (h : (args.filterMap overrideEntry).filter (fun kv => decide (ToLower kv.1 = ToLower n)) =
      [(k, e)]) : lastOverride ToLower args n = e := by
  unfold lastOverride
  have hrev : ((args.reverse.filterMap overrideEntry).filter
      (fun kv => decide (ToLower kv.1 = ToLower n))) = [(k, e)] := by
    rw [List.filterMap_reverse, List.filter_reverse, h]
    rfl
  have hfind : (args.reverse.filterMap overrideEntry).find?
      (fun kv => decide (ToLower kv.1 = ToLower n)) = some (k, e) := by
    rw [find_eq_head_filter, hrev]
    rfl
  rw [hfind]

theorem query_marks (Q table : String) (names updates : List String)
    (hQ : '?' ∉ Q.data) (ht : '?' ∉ table.data) (hn : ∀ n ∈ names, '?' ∉ n.data) :
    marksIn ("INSERT INTO " ++ Q ++ table ++ Q ++ " (" ++ Q ++ Join names (Q ++ ", " ++ Q) ++ Q ++
        ") VALUES (" ++ Join (names.map (fun _ => "?")) ", " ++ ") " ++
        "ON DUPLICATE KEY UPDATE" ++ " " ++ Join updates ", ") =
      names.length + (updates.map marksIn).sum := by
  have hQ0 : marksIn Q = 0 := marksIn_zero Q hQ
  have ht0 : marksIn table = 0 := marksIn_zero table ht
  have hsep : marksIn (Q ++ ", " ++ Q) = 0 := by
    rw [marksIn_append, marksIn_append, hQ0]
    decide
  have hc : marksIn ", " = 0 := by decide
  have h1 : marksIn "INSERT INTO " = 0 := by decide
  have h2 : marksIn " (" = 0 := by decide
  have h3 : marksIn ") VALUES (" = 0 := by decide
  have h4 : marksIn ") " = 0 := by decide
  have h5 : marksIn "ON DUPLICATE KEY UPDATE" = 0 := by decide
  have h6 : marksIn " " = 0 := by decide
  have hcols : marksIn (Join names (Q ++ ", " ++ Q)) = 0 := by
    rw [marksIn_join _ _ hsep]
    exact sum_map_zero names marksIn (fun n hm => marksIn_zero n (hn n hm))
  simp only [marksIn_append, hQ0, ht0, h1, h2, h3, h4, h5, h6, hcols, marksIn_join _ _ hc,
    sum_map_const_one]
  omega

/-- C28 (as amended): for column names and as many collected values, the
statement of `InsertOrUpdate` is the insert of the columns with one `?` for each
of them, followed by `ON DUPLICATE KEY UPDATE` and what `Sprintf` makes of the
update clause; the update clause holds for each column, in order, its name
between backquotes followed by `=` and the override expression of the column
when that expression is non-empty, and followed by `=?` otherwise, where the
override expression is the one of the last entry of `args` with exactly one `=`
whose name has the same lower-case form as the column name (the only such
entry, when there is one only), the lower-case form being that of
`strings.ToLower`, a parameter; entries without `=` or with more than one are
ignored.  The bound
arguments are the collected values followed by the values of exactly the
columns rendered with `?`, in column order.  When `Sprintf` leaves the update
clause as written and no table quote, table name, column name or override
expression of a column holds a `?`, the number of `?` in the statement equals
the number of bound arguments. -/
theorem insertOrUpdate_statement {ν : Type} (ToLower : String → String)
    (sprintfTail : String → String) (Q table : String)
    (names : List String) (values : List ν) (args : List String)
    (hlen : values.length = names.length) :
    InsertOrUpdate ToLower sprintfTail Q table names values args =
      .ok ⟨"INSERT INTO " ++ Q ++ table ++ Q ++ " (" ++ Q ++ Join names (Q ++ ", " ++ Q) ++ Q ++
            ") VALUES (" ++ Join (names.map (fun _ => "?")) ", " ++ ") " ++
            "ON DUPLICATE KEY UPDATE" ++ " " ++
            sprintfTail (Join (names.map (updateText ToLower args)) ", "),
          values ++ ((names.zip values).filter
            (fun p => decide (lastOverride ToLower args p.1 = ""))).map Prod.snd⟩ ∧
    (∀ n, updateText ToLower args n =
      if lastOverride ToLower args n ≠ "" then "`" ++ n ++ "`" ++ "=" ++ lastOverride ToLower args n
      else "`" ++ n ++ "`" ++ "=?") ∧
    (∀ n k e,
      (args.filterMap overrideEntry).filter (fun kv => decide (ToLower kv.1 = ToLower n)) =
        [(k, e)] → lastOverride ToLower args n = e) ∧
    (∀ n, (args.filterMap overrideEntry).filter
        (fun kv => decide (ToLower kv.1 = ToLower n)) = [] → lastOverride ToLower args n = "") ∧
    (∀ (pre post : List String) (v n : String), (RedisCluster.Split v '=').length ≠ 2 →
      lastOverride ToLower (pre ++ v :: post) n = lastOverride ToLower (pre ++ post) n) ∧
    ('?' ∉ Q.data → '?' ∉ table.data → (∀ n ∈ names, '?' ∉ n.data) →
      (∀ n ∈ names, '?' ∉ (lastOverride ToLower args n).data) →
      sprintfTail (Join (names.map (updateText ToLower args)) ", ") =
        Join (names.map (updateText ToLower args)) ", " →
      ∀ st, InsertOrUpdate ToLower sprintfTail Q table names values args = .ok st →
        marksIn st.query = st.args.length) := by
  have hloop := updateLoop_ok ToLower args values names 0 (by omega)
  have hstmt : InsertOrUpdate ToLower sprintfTail Q table names values args =
      .ok ⟨"INSERT INTO " ++ Q ++ table ++ Q ++ " (" ++ Q ++ Join names (Q ++ ", " ++ Q) ++ Q ++
            ") VALUES (" ++ Join (names.map (fun _ => "?")) ", " ++ ") " ++
            "ON DUPLICATE KEY UPDATE" ++ " " ++
            sprintfTail (Join (names.map (updateText ToLower args)) ", "),
          values ++ ((names.zip values).filter
            (fun p => decide (lastOverride ToLower args p.1 = ""))).map Prod.snd⟩ := by
    unfold InsertOrUpdate
    rw [hloop]
    simp only [List.drop_zero]
  refine ⟨hstmt, fun n => rfl, lastOverride_single ToLower args, ?_, lastOverride_ignores ToLower, ?_⟩
  · intro n h
    unfold lastOverride
    have hrev : ((args.reverse.filterMap overrideEntry).filter
        (fun kv => decide (ToLower kv.1 = ToLower n))) = [] := by
      rw [List.filterMap_reverse, List.filter_reverse, h]
      rfl
    have hfind : (args.reverse.filterMap overrideEntry).find?
        (fun kv => decide (ToLower kv.1 = ToLower n)) = none := by
      rw [find_eq_head_filter, hrev]
      rfl
    rw [hfind]
  · intro hQ ht hn ho hfmt st hst
    rw [hstmt] at hst
    have hst2 := (Except.ok.inj hst).symm
    subst hst2
    simp only
    rw [hfmt, query_marks Q table names _ hQ ht hn,
      updates_marks ToLower args names values (by omega) hn ho, List.length_append, hlen]

end Orm

namespace Orm

theorem insertOrUpdate_statement_witness :
    marksIn "INSERT INTO `t` (`a`, `B`) VALUES (?, ?) ON DUPLICATE KEY UPDATE `a`=?, `B`=b+1" =
      ([7, 8, 7] : List Nat).length :=
  (@insertOrUpdate_statement Nat asciiToLower id "`" "t" ["a", "B"] [7, 8] ["b=b+1", "x", "c=1=2"]
      rfl).2.2.2.2.2
    (by decide) (by decide) (by decide) (by decide) rfl
    ⟨"INSERT INTO `t` (`a`, `B`) VALUES (?, ?) ON DUPLICATE KEY UPDATE `a`=?, `B`=b+1", [7, 8, 7]⟩
    rfl

/-- C28 (counterexample): `args` holds the entry `a=1`, with exactly one `=`,
the name of the column `a` and a non-empty expression, and yet the update
clause holds the column as `a` between backquotes followed by `=?`, with its
value bound once more: the later entry `a=` has replaced the expression by the
empty text. -/
theorem insertOrUpdate_later_entry_overrides :
    overrideEntry "a=1" = some ("a", "1") ∧ "a=1" ∈ ["a=1", "a="] ∧
      (InsertOrUpdate asciiToLower id "`" "t" ["a"] [7] ["a=1", "a="]).toOption =
        some ⟨"INSERT INTO `t` (`a`) VALUES (?) ON DUPLICATE KEY UPDATE `a`=?", [7, 7]⟩ ∧
      (InsertOrUpdate asciiToLower id "`" "t" ["a"] [7] ["a=1"]).toOption =
        some ⟨"INSERT INTO `t` (`a`) VALUES (?) ON DUPLICATE KEY UPDATE `a`=1", [7]⟩ := by
  decide

end Orm
